import Mathlib

/-!
# goqr: a verification development

Shallow embedding of `src/goqr.go` (package `goqr`) and theorems about it.

Conventions of the embedding:
* Go `int` and `byte` values are natural numbers (every value that flows through the
  encoder is non-negative and far below the machine word size);
* Go slices are lists; a Go `string` is the list of its bytes;
* a function that can abort at run time (index out of range, negative shift count)
  returns `Option`, with `none` standing for the abort;
* a Go `error` result is a `Bool`, `true` standing for a non-nil error.
-/

namespace Goqr

/-! ## Tables -/

def maxDataM : List Nat := [
  128, 224, 352, 512, 688, 864, 992, 1232, 1456, 1728,
  2032, 2320, 2672, 2920, 3320, 3624, 4056, 4504, 5016, 5352,
  5712, 6256, 6880, 7312, 8000, 8496, 9024, 9544, 10136, 10984,
  11640, 12328, 13048, 13800, 14496, 15312, 15936, 16816, 17728, 18672]

def maxDataH : List Nat := [
  72, 128, 208, 288, 368, 480, 528, 688, 800, 976,
  1120, 1264, 1440, 1576, 1784, 2024, 2264, 2504, 2728, 3080,
  3248, 3536, 3712, 4112, 4304, 4768, 5024, 5288, 5608, 5960,
  6344, 6760, 7208, 7688, 7888, 8432, 8768, 9136, 9776, 10208]

def blocksM : List Nat := [
  1, 1, 1, 2, 2, 4, 4, 4, 5, 5,
  5, 8, 9, 9, 10, 10, 11, 13, 14, 16,
  17, 17, 18, 20, 21, 23, 25, 26, 28, 29,
  31, 33, 35, 37, 38, 40, 43, 45, 47, 49]

def blocksH : List Nat := [
  1, 1, 2, 4, 4, 4, 5, 6, 8, 8,
  11, 11, 16, 16, 18, 16, 19, 21, 25, 25,
  25, 34, 30, 32, 35, 37, 40, 42, 45, 48,
  51, 54, 57, 60, 63, 66, 70, 74, 77, 81]

def byteCorectM : List Nat := [
  10, 16, 26, 18, 24, 16, 18, 22, 22, 26,
  30, 22, 22, 24, 24, 28, 28, 26, 26, 26,
  26, 28, 28, 28, 28, 28, 28, 28, 28, 28,
  28, 28, 28, 28, 28, 28, 28, 28, 28, 28]

def byteCorectH : List Nat := [
  17, 28, 22, 16, 22, 28, 26, 26, 24, 28,
  24, 28, 22, 24, 24, 30, 28, 28, 26, 28,
  30, 24, 30, 30, 30, 30, 30, 30, 30, 30,
  30, 30, 30, 30, 30, 30, 30, 30, 30, 30]

def levelCorrectM : Nat := 0x5e7c
def levelCorrectH : Nat := 0x1ce7

/-- The Go map `polinom`: generator coefficients, as exponents of alpha, keyed by the
number of correction bytes. A key that is absent yields the nil slice (`[]`). -/
def polinom (n : Nat) : List Nat :=
  if n = 7 then [87, 229, 146, 149, 238, 102, 21]
  else if n = 10 then [251, 67, 46, 61, 118, 70, 64, 94, 32, 45]
  else if n = 13 then [74, 152, 176, 100, 86, 100, 106, 104, 130, 218, 206, 140, 78]
  else if n = 15 then [8, 183, 61, 91, 202, 37, 51, 58, 58, 237, 140, 124, 5, 99, 105]
  else if n = 16 then
    [120, 104, 107, 109, 102, 161, 76, 3, 91, 191, 147, 169, 182, 194, 225, 120]
  else if n = 17 then
    [43, 139, 206, 78, 43, 239, 123, 206, 214, 147, 24, 99, 150, 39, 243, 163, 136]
  else if n = 18 then
    [215, 234, 158, 94, 184, 97, 118, 170, 79, 187, 152, 148, 252, 179, 5, 98, 96, 153]
  else if n = 20 then
    [17, 60, 79, 50, 61, 163, 26, 187, 202, 180, 221, 225, 83, 239, 156, 164, 212, 212,
     188, 190]
  else if n = 22 then
    [210, 171, 247, 242, 93, 230, 14, 109, 221, 53, 200, 74, 8, 172, 98, 80, 219, 134,
     160, 105, 165, 231]
  else if n = 24 then
    [229, 121, 135, 48, 211, 117, 251, 126, 159, 180, 169, 152, 192, 226, 228, 218, 111,
     0, 117, 232, 87, 96, 227, 21]
  else if n = 26 then
    [173, 125, 158, 2, 103, 182, 118, 17, 145, 201, 111, 28, 165, 53, 161, 21, 245, 142,
     13, 102, 48, 227, 153, 145, 218, 70]
  else if n = 28 then
    [168, 223, 200, 104, 224, 234, 108, 180, 110, 190, 195, 147, 205, 27, 232, 201, 21,
     43, 245, 87, 42, 195, 212, 119, 242, 37, 9, 123]
  else if n = 30 then
    [41, 173, 145, 152, 216, 31, 179, 182, 50, 48, 110, 86, 239, 96, 222, 125, 42, 173,
     226, 193, 224, 130, 156, 37, 251, 216, 238, 40, 192, 180]
  else []

def fieldGalua : List Nat := [
  1, 2, 4, 8, 16, 32, 64, 128, 29, 58, 116, 232, 205, 135, 19, 38,
  76, 152, 45, 90, 180, 117, 234, 201, 143, 3, 6, 12, 24, 48, 96, 192,
  157, 39, 78, 156, 37, 74, 148, 53, 106, 212, 181, 119, 238, 193, 159, 35,
  70, 140, 5, 10, 20, 40, 80, 160, 93, 186, 105, 210, 185, 111, 222, 161,
  95, 190, 97, 194, 153, 47, 94, 188, 101, 202, 137, 15, 30, 60, 120, 240,
  253, 231, 211, 187, 107, 214, 177, 127, 254, 225, 223, 163, 91, 182, 113, 226,
  217, 175, 67, 134, 17, 34, 68, 136, 13, 26, 52, 104, 208, 189, 103, 206,
  129, 31, 62, 124, 248, 237, 199, 147, 59, 118, 236, 197, 151, 51, 102, 204,
  133, 23, 46, 92, 184, 109, 218, 169, 79, 158, 33, 66, 132, 21, 42, 84,
  168, 77, 154, 41, 82, 164, 85, 170, 73, 146, 57, 114, 228, 213, 183, 115,
  230, 209, 191, 99, 198, 145, 63, 126, 252, 229, 215, 179, 123, 246, 241, 255,
  227, 219, 171, 75, 150, 49, 98, 196, 149, 55, 110, 220, 165, 87, 174, 65,
  130, 25, 50, 100, 200, 141, 7, 14, 28, 56, 112, 224, 221, 167, 83, 166,
  81, 162, 89, 178, 121, 242, 249, 239, 195, 155, 43, 86, 172, 69, 138, 9,
  18, 36, 72, 144, 61, 122, 244, 245, 247, 243, 251, 235, 203, 139, 11, 22,
  44, 88, 176, 125, 250, 233, 207, 131, 27, 54, 108, 216, 173, 71, 142, 1]

def reversefieldGalua : List Nat := [
  0, 0, 1, 25, 2, 50, 26, 198, 3, 223, 51, 238, 27, 104, 199, 75,
  4, 100, 224, 14, 52, 141, 239, 129, 28, 193, 105, 248, 200, 8, 76, 113,
  5, 138, 101, 47, 225, 36, 15, 33, 53, 147, 142, 218, 240, 18, 130, 69,
  29, 181, 194, 125, 106, 39, 249, 185, 201, 154, 9, 120, 77, 228, 114, 166,
  6, 191, 139, 98, 102, 221, 48, 253, 226, 152, 37, 179, 16, 145, 34, 136,
  54, 208, 148, 206, 143, 150, 219, 189, 241, 210, 19, 92, 131, 56, 70, 64,
  30, 66, 182, 163, 195, 72, 126, 110, 107, 58, 40, 84, 250, 133, 186, 61,
  202, 94, 155, 159, 10, 21, 121, 43, 78, 212, 229, 172, 115, 243, 167, 87,
  7, 112, 192, 247, 140, 128, 99, 13, 103, 74, 222, 237, 49, 197, 254, 24,
  227, 165, 153, 119, 38, 184, 180, 124, 17, 68, 146, 217, 35, 32, 137, 46,
  55, 63, 209, 91, 149, 188, 207, 205, 144, 135, 151, 178, 220, 252, 190, 97,
  242, 86, 211, 171, 20, 42, 93, 158, 132, 60, 57, 83, 71, 109, 65, 162,
  31, 45, 67, 216, 183, 123, 164, 118, 196, 23, 73, 236, 127, 12, 111, 246,
  108, 161, 59, 82, 41, 157, 85, 170, 251, 96, 134, 177, 187, 204, 62, 90,
  203, 89, 95, 176, 156, 169, 160, 81, 11, 245, 22, 235, 122, 117, 44, 215,
  79, 174, 213, 233, 230, 231, 173, 232, 116, 214, 244, 234, 168, 80, 88, 175]

def qrBlocks : List Nat := [
  21, 25, 29, 33, 37, 41, 45, 49,
  53, 57, 61, 65, 69, 73, 77, 81,
  85, 89, 93, 97, 101, 105, 109, 113,
  117, 121, 125, 129, 133, 137, 141, 145,
  149, 153, 157, 161, 165, 169, 173, 177]

def codeVersion : List (List Nat) := [
  [], [], [], [], [], [],
  [0x2, 0x1e, 0x26],
  [0x11, 0x1c, 0x38],
  [0x37, 0x18, 0x4],
  [0x29, 0x3e, 0x0],
  [0xf, 0x3a, 0x3c],
  [0xd, 0x24, 0x1a]]

def coordAnchor : List (List (List Nat)) := [
  [],
  [[18, 18]],
  [[22, 22]],
  [[26, 26]],
  [[30, 30]],
  [[34, 34]],
  [[6, 22], [22, 6], [22, 22], [22, 38], [38, 22], [38, 38]],
  [[6, 24], [24, 6], [24, 24], [24, 42], [42, 24], [42, 42]],
  [[6, 26], [26, 6], [26, 26], [26, 46], [46, 26], [46, 46]],
  [[6, 28], [28, 6], [28, 28], [28, 50], [50, 28], [50, 50]],
  [[6, 30], [30, 6], [30, 30], [30, 54], [54, 30], [54, 54]],
  [[6, 32], [32, 6], [32, 32], [32, 58], [58, 32], [58, 58]]]

def search0 : Nat := 2
def search1 : Nat := 3
def sync0 : Nat := 4
def sync1 : Nat := 5
def mask0 : Nat := 6
def mask1 : Nat := 7
def version0 : Nat := 8
def version1 : Nat := 9
def anchor0 : Nat := 10
def anchor1 : Nat := 11

/-- The error-correction level: `QRGenerate` uses the `M` tables when no image is inlaid
and the `H` tables otherwise. -/
inductive Level where
  | M
  | H
deriving DecidableEq, Repr

def Level.maxData : Level → List Nat
  | .M => maxDataM
  | .H => maxDataH

def Level.blocks : Level → List Nat
  | .M => blocksM
  | .H => blocksH

def Level.byteCorect : Level → List Nat
  | .M => byteCorectM
  | .H => byteCorectH

def Level.levelCorrect : Level → Nat
  | .M => levelCorrectM
  | .H => levelCorrectH

/-! ## Payload to bits -/

/-- The eight bits of `a` selected by the masks `0x80, 0x40, ..., 0x01`, in that order
(the inner loop of `utfToBit`, also used by `write`). -/
def byteBits (a : Nat) : List Nat :=
  [0x80, 0x40, 0x20, 0x10, 0x08, 0x04, 0x02, 0x01].map
    (fun mask => if mask &&& a != 0 then 1 else 0)

/-- `utfToBit`: the bit length and the bits of the content, each byte most significant
bit first. -/
def utfToBit (content : List Nat) : Nat × List Nat :=
  (content.length * 8, content.flatMap byteBits)

/-! ## Version selection -/

/-- The `for i := 0; i < 40; i++` loop of `howToVersion`, started at index `i` with
`fuel = 40 - i` iterations left. The result is `(version, lenSystemData, err)`; the named
results keep their zero values unless a branch assigns them. -/
def howToVersionLoop (length : Nat) (maxData : List Nat) : Nat → Nat → Option (Nat × Nat × Bool)
  | 0, _ => some (0, 0, false)
  | fuel + 1, i =>
    match maxData[i]? with
    | none => none
    | some max =>
      if length > max then howToVersionLoop length maxData fuel (i + 1)
      else if i < 9 then
        if length + 92 > max then
          if i + 1 = 9 then some (i + 1, 20, false)
          else some (i + 1, 12, false)
        else some (i, 12, false)
      else if 9 ≤ i ∧ i < 26 then
        if length + 100 > max then
          if i + 1 = 26 then some (i + 1, 20, false)
          else some (i + 1, 20, false)
        else some (i, 20, false)
      else if 26 ≤ i ∧ i < 40 then
        if length + 100 > max then
          if i + 1 = 40 then some (0, 0, true)
          else some (i + 1, 20, false)
        else some (i, 20, false)
      else some (0, 0, false)

/-- `howToVersion`: choice of the version index and of the length of the system data. -/
def howToVersion (length : Nat) (maxData : List Nat) : Option (Nat × Nat × Bool) :=
  howToVersionLoop length maxData 40 0

/-! ## Specification-side notions for version selection -/

/-- Width of the character count indicator for version `v` (1-based), as the
specification words it: 8 bits for versions 1..9, 16 bits for 10..40. -/
def countBits (v : Nat) : Nat := if v ≤ 9 then 8 else 16

/-- Capacity of version `v` (1-based) in a capacity table. -/
def capacity (maxData : List Nat) (v : Nat) : Nat := maxData.getD (v - 1) 0

/-- Version `v` holds a payload of `L` bytes: mode nibble, count indicator and payload
fit the capacity (the specification's criterion). -/
def specFits (maxData : List Nat) (v L : Nat) : Prop :=
  1 ≤ v ∧ v ≤ 40 ∧ 4 + countBits v + 8 * L ≤ capacity maxData v

/-- Version `v` holds a payload of `L` bytes with 80 spare bits: the criterion that the
guards `length+92 > max` and `length+100 > max` of `howToVersion` implement. -/
def reserveFits (maxData : List Nat) (v L : Nat) : Prop :=
  1 ≤ v ∧ v ≤ 40 ∧ 84 + countBits v + 8 * L ≤ capacity maxData v

instance (t : List Nat) (v L : Nat) : Decidable (specFits t v L) := by
  unfold specFits; infer_instance

instance (t : List Nat) (v L : Nat) : Decidable (reserveFits t v L) := by
  unfold reserveFits; infer_instance

/-- The constant that `howToVersion` adds to the length at index `i`: 92 below index 9,
100 from index 9 on. -/
def margin (i : Nat) : Nat := if i < 9 then 92 else 100

/-! ## Reed-Solomon correction bytes -/

/-- The loop `for j := 0; j < countByteCorect; j++` of `buildCorectBlock`, from index `j`
with `fuel` iterations left; `x` is the logarithm `reversefieldGalua[x]` already. -/
def corectXor (polinomCorect : List Nat) (x : Nat) : Nat → Nat → List Nat → Option (List Nat)
  | 0, _, cb => some cb
  | fuel + 1, j, cb =>
    match polinomCorect[j]? with
    | none => none
    | some p =>
      let y := p + x
      let y := if y > 254 then y % 255 else y
      match fieldGalua[y]?, cb[j]? with
      | some f, some c => corectXor polinomCorect x fuel (j + 1) (cb.set j (c ^^^ f))
      | _, _ => none

/-- One pass of the loop `for range (*byteBlock)[i]` of `buildCorectBlock` on the working
array `corectBlock[i]`: take the first entry, shift the array left by one, clear the last
entry, and add the generator multiplied by the entry that was taken. -/
def corectStep (countByteCorect : Nat) (polinomCorect : List Nat) :
    List Nat → Option (List Nat)
  | [] => none
  | x :: rest =>
    let cb := rest ++ [0]
    if x = 0 then some cb
    else
      match reversefieldGalua[x]? with
      | none => none
      | some lx => corectXor polinomCorect lx countByteCorect 0 cb

/-- The loop `for range (*byteBlock)[i]`: `n` passes of `corectStep`. -/
def corectLoop (countByteCorect : Nat) (polinomCorect : List Nat) :
    Nat → List Nat → Option (List Nat)
  | 0, cb => some cb
  | n + 1, cb =>
    match corectStep countByteCorect polinomCorect cb with
    | none => none
    | some cb1 => corectLoop countByteCorect polinomCorect n cb1

/-- The body of the loop `for i := range corectBlock` for one data block: the working
array has `max (len block) countByteCorect` entries and starts as a copy of the block. -/
def corectOne (countByteCorect : Nat) (polinomCorect : List Nat) (blk : List Nat) :
    Option (List Nat) :=
  let cb :=
    if blk.length > countByteCorect then blk
    else blk ++ List.replicate (countByteCorect - blk.length) 0
  corectLoop countByteCorect polinomCorect blk.length cb

/-- The loop `for i := range corectBlock` of `buildCorectBlock`, from index `i` with
`fuel = block - i` iterations left; `acc` holds `corectBlock[0..i)`. -/
def buildCorectLoop (countByteCorect : Nat) (polinomCorect : List Nat)
    (byteBlock : List (List Nat)) :
    Nat → Nat → List (List Nat) → Nat → Option (List (List Nat) × Nat)
  | 0, _, acc, length => some (acc, length)
  | fuel + 1, i, acc, length =>
    match byteBlock[i]? with
    | none => none
    | some blk =>
      let length :=
        if blk.length > countByteCorect then length + blk.length
        else length + countByteCorect
      match corectOne countByteCorect polinomCorect blk with
      | none => none
      | some cb =>
        buildCorectLoop countByteCorect polinomCorect byteBlock fuel (i + 1) (acc ++ [cb]) length

/-- `buildCorectBlock`: the correction arrays of all blocks. The result is
`(countByteCorect, corectBlock, length)`. -/
def buildCorectBlock (version block length : Nat) (byteCorect : List Nat)
    (byteBlock : List (List Nat)) : Option (Nat × List (List Nat) × Nat) :=
  match byteCorect[version]? with
  | none => none
  | some countByteCorect =>
    match buildCorectLoop countByteCorect (polinom countByteCorect) byteBlock block 0 [] length with
    | none => none
    | some (corectBlock, length) => some (countByteCorect, corectBlock, length)

/-! ## GF(256) and polynomials over it, as the specification words them -/

/-- Multiplication by `x` in GF(2)[x]/(x^8 + x^4 + x^3 + x^2 + 1): double, and reduce by
`0x11d` on overflow. -/
def gfDouble (a : Nat) : Nat := if 2 * a < 256 then 2 * a else (2 * a) ^^^ 0x11d

/-- Shift-and-add product: the sum over the `k` low bits of `b` of `a * x^i`. -/
def gfMulAux (a b : Nat) : Nat → Nat
  | 0 => 0
  | k + 1 => (if b % 2 = 1 then a else 0) ^^^ gfMulAux (gfDouble a) (b / 2) k

/-- Product of two bytes in GF(256) with modulus `0x11d`. -/
def gfMul (a b : Nat) : Nat := gfMulAux a b 8

/-- Power in GF(256). -/
def gfPow (a : Nat) : Nat → Nat
  | 0 => 1
  | n + 1 => gfMul (gfPow a n) a

/-- Product of two polynomials over GF(256), coefficients highest degree first. A
polynomial with `m` coefficients times one with `n` coefficients has `m + n - 1`
coefficients; the empty list stands for the zero polynomial. -/
def polyMul : List Nat → List Nat → List Nat
  | [], b => List.replicate (b.length - 1) 0
  | a :: as, b =>
    List.zipWith (· ^^^ ·) (b.map (gfMul a) ++ List.replicate as.length 0) (0 :: polyMul as b)

/-- The generator polynomial `g(x) = (x - alpha^0)(x - alpha^1)...(x - alpha^(E-1))` with
`alpha = 2`; in characteristic 2, `x - c` is `x + c`. -/
def genPoly (E : Nat) : List Nat :=
  (List.range E).foldl (fun g i => polyMul g [1, gfPow 2 i]) [1]

/-! ## Framing and padding -/

/-- Go's `copy(dst, src)`: the first `min (len dst) (len src)` entries of `dst` are
replaced by those of `src`. -/
def goCopy (dst src : List Nat) : List Nat :=
  src.take dst.length ++ dst.drop src.length

/-- The loop `for i := 4; i < lenSystemData; i++` of `addServicesData`, from index `i`
with `fuel = lenSystemData - i` iterations left. -/
def addServicesLoop (countSymbol : Nat) : Nat → Nat → Nat → List Nat → Option (List Nat)
  | 0, _, _, newData => some newData
  | fuel + 1, i, mask, newData =>
    if countSymbol &&& mask != 0 then
      if i < newData.length then
        addServicesLoop countSymbol fuel (i + 1) (mask >>> 1) (newData.set i 1)
      else none
    else addServicesLoop countSymbol fuel (i + 1) (mask >>> 1) newData

/-- `addServicesData`: a fresh array of `maxData[version]` zero bits that receives the
mode nibble, the count of symbols and the payload bits. The shift `1 << (lenSystemData -
4 - 1)` aborts when its count is negative; `howToVersion` only ever yields the counts
0, 12 and 20, so the shift stays within the machine word. -/
def addServicesData (content : List Nat) (version lenSystemData : Nat) (maxData : List Nat)
    (dataBit : List Nat) : Option (List Nat) :=
  match maxData[version]? with
  | none => none
  | some cap =>
    let newData := List.replicate cap 0
    if 1 < newData.length then
      let newData := newData.set 1 1
      if lenSystemData < 4 + 1 then none
      else
        let mask := 1 <<< (lenSystemData - 4 - 1)
        let countSymbol := content.length
        match addServicesLoop countSymbol (lenSystemData - 4) 4 mask newData with
        | none => none
        | some newData =>
          if lenSystemData ≤ newData.length then
            some (newData.take lenSystemData ++ goCopy (newData.drop lenSystemData) dataBit)
          else none
    else none

/-- The loop `for minMultiplyLenData%8 != 0 { minMultiplyLenData++ }`; it leaves after at
most seven increments, so eight units of fuel always reach the exit. -/
def alignLoop : Nat → Nat → Nat
  | 0, n => n
  | fuel + 1, n => if n % 8 != 0 then alignLoop fuel (n + 1) else n

/-- Assignment `(*newData)[i] = 1` with its bounds check. -/
def setOne (newData : List Nat) (i : Nat) : Option (List Nat) :=
  if i < newData.length then some (newData.set i 1) else none

/-- The loop `for i := minMultiplyLenData; i < (*maxData)[version]; { switch f ... }` of
`addVoidData`. `i` grows by 8 in every iteration, so `fuel = maxData[version]` iterations
are never used up before the loop condition fails. -/
def addVoidLoop (cap : Nat) : Nat → Nat → Bool → List Nat → Option (List Nat)
  | 0, _, _, newData => some newData
  | fuel + 1, i, f, newData =>
    if i < cap then
      if f then
        match setOne newData i with
        | none => none
        | some d1 =>
        match setOne d1 (i + 1) with
        | none => none
        | some d2 =>
        match setOne d2 (i + 2) with
        | none => none
        | some d3 =>
        match setOne d3 (i + 4) with
        | none => none
        | some d4 =>
        match setOne d4 (i + 5) with
        | none => none
        | some d5 => addVoidLoop cap fuel (i + 8) false d5
      else
        match setOne newData (i + 3) with
        | none => none
        | some d1 =>
        match setOne d1 (i + 7) with
        | none => none
        | some d2 => addVoidLoop cap fuel (i + 8) true d2
    else some newData

/-- `addVoidData`: pads the array in place; the result is the array after the call. -/
def addVoidData (lenSystemData length version : Nat) (maxData newData : List Nat) :
    Option (List Nat) :=
  let minMultiplyLenData := alignLoop 8 (lenSystemData + length)
  match maxData[version]? with
  | none => none
  | some cap => addVoidLoop cap cap minMultiplyLenData true newData

/-! ## Blocks -/

/-- The byte that `buildBlock` reads at bit offset `count`:
`newData[count]*(2<<6) + ... + newData[count+6]*(2<<0) + newData[count+7]*1`. -/
def readByte (newData : List Nat) (count : Nat) : Option Nat :=
  match newData[count]?, newData[count + 1]?, newData[count + 2]?, newData[count + 3]?,
    newData[count + 4]?, newData[count + 5]?, newData[count + 6]?, newData[count + 7]? with
  | some b0, some b1, some b2, some b3, some b4, some b5, some b6, some b7 =>
    some (b0 * (2 <<< 6) + b1 * (2 <<< 5) + b2 * (2 <<< 4) + b3 * (2 <<< 3) +
      b4 * (2 <<< 2) + b5 * (2 <<< 1) + b6 * (2 <<< 0) + b7 * 1)
  | _, _, _, _, _, _, _, _ => none

/-- The loop `for j := 0; j < len(byteBlock[i]); j++` of `buildBlock`: reads `n` bytes
from bit offset `count`. -/
def fillBlock (newData : List Nat) : Nat → Nat → Option (List Nat)
  | 0, _ => some []
  | n + 1, count =>
    match readByte newData count with
    | none => none
    | some x =>
      match fillBlock newData n (count + 8) with
      | none => none
      | some rest => some (x :: rest)

/-- The loop `for i := 0; i < block; i++` of `buildBlock`, from index `i` with
`fuel = block - i` iterations left; `acc` holds `byteBlock[0..i)`. -/
def buildBlockLoop (newData : List Nat) (block size resid : Nat) :
    Nat → Nat → Nat → List (List Nat) → Option (List (List Nat))
  | 0, _, _, acc => some acc
  | fuel + 1, i, count, acc =>
    let n := if resid ≥ block - i then size + 1 else size
    match fillBlock newData n count with
    | none => none
    | some blk => buildBlockLoop newData block size resid fuel (i + 1) (count + 8 * n) (acc ++ [blk])

/-- `buildBlock`: splits the bit stream into blocks of bytes. The result is
`(block, byteBlock, size)`. A block count of zero aborts on the division. -/
def buildBlock (version : Nat) (maxData blocks newData : List Nat) :
    Option (Nat × List (List Nat) × Nat) :=
  match blocks[version]?, maxData[version]? with
  | some block, some cap =>
    let maxByte := cap / 8
    if block = 0 then none
    else
      let size := maxByte / block
      let resid := maxByte % block
      match buildBlockLoop newData block size resid block 0 0 [] with
      | none => none
      | some byteBlock => some (block, byteBlock, size)
  | _, _ => none

/-! ## Interleaving -/

/-- Assignment `data[count] = v; count++` with its bounds check. -/
def emit (st : List Nat × Nat) (v : Nat) : Option (List Nat × Nat) :=
  if st.2 < st.1.length then some (st.1.set st.2 v, st.2 + 1) else none

/-- The loop `for _, v := range *byteBlock` of the first part of `groupData`, at row `j`. -/
def groupDataRow (j : Nat) : List (List Nat) → List Nat × Nat → Option (List Nat × Nat)
  | [], st => some st
  | v :: vs, st =>
    if v.length > j then
      match v[j]? with
      | none => none
      | some x =>
        match emit st x with
        | none => none
        | some st1 => groupDataRow j vs st1
    else groupDataRow j vs st

/-- The loop `for _, v := range *corectBlock` of the second part of `groupData`, at row
`j`: the entry `v[j]` is written only when it is not zero. -/
def groupCorectRow (j : Nat) : List (List Nat) → List Nat × Nat → Option (List Nat × Nat)
  | [], st => some st
  | v :: vs, st =>
    match v[j]? with
    | none => none
    | some x =>
      if x != 0 then
        match emit st x with
        | none => none
        | some st1 => groupCorectRow j vs st1
      else groupCorectRow j vs st

/-- A loop `for j := 0; j < n; j++` over rows, from `j` with `fuel = n - j`. -/
def groupRows (row : Nat → List Nat × Nat → Option (List Nat × Nat)) :
    Nat → Nat → List Nat × Nat → Option (List Nat × Nat)
  | 0, _, st => some st
  | fuel + 1, j, st =>
    match row j st with
    | none => none
    | some st1 => groupRows row fuel (j + 1) st1

/-- `groupData`: the interleaved codeword stream, in an array of `length` entries. -/
def groupData (length size countByteCorect : Nat) (byteBlock corectBlock : List (List Nat)) :
    Option (List Nat) :=
  let st : List Nat × Nat := (List.replicate length 0, 0)
  match groupRows (fun j => groupDataRow j byteBlock) (size + 1) 0 st with
  | none => none
  | some st1 =>
    match groupRows (fun j => groupCorectRow j corectBlock) countByteCorect 0 st1 with
    | none => none
    | some st2 => some st2.1

/-! ## The data path of `QRGenerate` -/

/-- How a run of the encoder ends. -/
inductive Outcome (α : Type) where
  /-- the run reaches the point of interest with this value -/
  | ok (a : α)
  /-- `QRGenerate` returns a non-nil error -/
  | err
  /-- the run aborts (index out of range, negative shift count, division by zero) -/
  | abort
deriving DecidableEq, Repr

/-- The part of `QRGenerate` from `utfToBit` to `groupData`, for a content and a level:
the version index and the codeword stream handed to `write`. The lookups
`qrBlocks[version]` and `coordAnchor[version]` made for the logo size are kept for their
bounds checks. -/
def QRGenerateData (content : List Nat) (lvl : Level) : Outcome (Nat × List Nat) :=
  let (length, data) := utfToBit content
  match howToVersion length lvl.maxData with
  | none => .abort
  | some (_, _, true) => .err
  | some (version, lenSystemData, false) =>
    match qrBlocks[version]?, coordAnchor[version]? with
    | some _, some _ =>
      match addServicesData content version lenSystemData lvl.maxData data with
      | none => .abort
      | some data =>
      match addVoidData lenSystemData length version lvl.maxData data with
      | none => .abort
      | some data =>
      match buildBlock version lvl.maxData lvl.blocks data with
      | none => .abort
      | some (block, byteBlock, size) =>
      match buildCorectBlock version block length lvl.byteCorect byteBlock with
      | none => .abort
      | some (countByteCorect, corectBlock, length) =>
      match groupData length size countByteCorect byteBlock corectBlock with
      | none => .abort
      | some data => .ok (version, data)
    | _, _ => .abort

/-! ## Specification-side notions for framing -/

/-- The `w` low bits of `n` as an unsigned big-endian number: most significant first. -/
def bitsBE (w n : Nat) : List Nat :=
  (List.range w).map (fun k => n / 2 ^ (w - 1 - k) % 2)

/-- The bits of `n` pad codewords `0xEC, 0x11, 0xEC, ...`; `first` tells whether the
sequence starts with `0xEC`. -/
def padBits : Nat → Bool → List Nat
  | 0, _ => []
  | n + 1, first => bitsBE 8 (if first then 0xEC else 0x11) ++ padBits n (!first)

/-- A bit stream read as bytes, most significant bit first, eight bits at a time (bits
left over at the end are dropped). -/
def toBytes : List Nat → List Nat
  | b0 :: b1 :: b2 :: b3 :: b4 :: b5 :: b6 :: b7 :: rest =>
    (128 * b0 + 64 * b1 + 32 * b2 + 16 * b3 + 8 * b4 + 4 * b5 + 2 * b6 + b7) :: toBytes rest
  | _ => []

/-! ## Data placement -/

/-- The module grid `[][]byte`: rows of cells. -/
abbrev Grid := List (List Nat)

/-- The bit buffer that `write` expands the codewords into: `bufBit[8*n + k]` is 1 exactly
when `v & (0x80 >> k) != 0` for the `n`-th codeword `v`. -/
def bufBitOf (data : List Nat) : List Nat :=
  data.flatMap byteBits

/-- The body of the loop `for k := 0; k < 2; k++` of `write` for the cell in row `y` and
column `x - k`: an unset cell (value 0) takes the next bit of the buffer, or 0 when the
buffer is used up, inverted when the column is divisible by 3. The state is the grid and
the index `i` into the buffer. A column `x - k` below zero is an index out of range. -/
def writeCell (bufBit : List Nat) (x y k : Nat) (st : Grid × Nat) : Option (Grid × Nat) :=
  if x < k then none
  else
    match st.1[y]? with
    | none => none
    | some row =>
      match row[x - k]? with
      | none => none
      | some cell =>
        if cell = 0 then
          let a := if bufBit.length > st.2 then bufBit.getD st.2 0 else 0
          let i := if bufBit.length > st.2 then st.2 + 1 else st.2
          let v := if (x - k) % 3 = 0 then (if a = 0 then 1 else 0) else a
          some (st.1.set y (row.set (x - k) v), i)
        else some st

/-- Both cells of row `y` in the strip at column `x`: `k = 0`, then `k = 1`. -/
def writeRow (bufBit : List Nat) (x y : Nat) (st : Grid × Nat) : Option (Grid × Nat) :=
  match writeCell bufBit x y 0 st with
  | none => none
  | some st1 => writeCell bufBit x y 1 st1

/-- The rows of one strip, in the order given. -/
def writeRows (bufBit : List Nat) (x : Nat) : List Nat → Grid × Nat → Option (Grid × Nat)
  | [], st => some st
  | y :: ys, st =>
    match writeRow bufBit x y st with
    | none => none
    | some st1 => writeRows bufBit x ys st1

/-- The rows in the order of the loops over `y`: `y := 0; y < len(*img); y++` when
`direct` is true, `y := len(*img) - 1; y > -1; y--` when it is false. -/
def rowOrder (n : Nat) (direct : Bool) : List Nat :=
  if direct then List.range n else (List.range n).reverse

/-- The loop `for x := len(*img) - 1; x > -1; { ... }` of `write`, at column `x` with
`fuel` iterations left. `x` is a natural number here: after a strip, `x -= 2` leaves the
loop when `x < 2` (the result would be negative), and at `x = 6` the step is `x--`.
Every iteration lowers `x`, so `len(*img)` iterations are never used up. -/
def writeLoop (bufBit : List Nat) : Nat → Nat → Bool → Grid × Nat → Option (Grid × Nat)
  | 0, _, _, _ => none
  | fuel + 1, x, direct, st =>
    if x ≠ 6 then
      match writeRows bufBit x (rowOrder st.1.length direct) st with
      | none => none
      | some st1 =>
        if x < 2 then some st1
        else writeLoop bufBit fuel (x - 2) (!direct) st1
    else writeLoop bufBit fuel (x - 1) direct st

/-- `write`: places the codeword bits on the grid; the result is the grid after the call. -/
def write (img : Grid) (data : List Nat) : Option Grid :=
  let bufBit := bufBitOf data
  if img.length = 0 then some img
  else
    match writeLoop bufBit img.length (img.length - 1) false (img, 0) with
    | none => none
    | some st => some st.1

/-! ## Specification-side notions for data placement -/

/-- The cell of a grid at row `r` and column `c`; 0 outside the grid. -/
def cellAt (img : Grid) (r c : Nat) : Nat := (img.getD r []).getD c 0

/-- The right columns of the strips of a grid of edge `n`: `n-1, n-3, ..., 8`, then
`5, 3, 1`. -/
def stripCols (n : Nat) : List Nat :=
  (List.range ((n - 7) / 2)).map (fun s => n - 1 - 2 * s) ++ [5, 3, 1]

/-- The cells of the strip with right column `x`, the `s`-th strip: bottom to top when
`s` is even, top to bottom when it is odd; in each row the right cell, then the left. -/
def stripCells (n x s : Nat) : List (Nat × Nat) :=
  (rowOrder n (s % 2 = 1)).flatMap (fun y => [(y, x), (y, x - 1)])

/-- The serpentine order of the cells, as (row, column): the strips in order, the `s`-th
strip having the right column `stripCols[s]`. -/
def serpentine (n : Nat) : List (Nat × Nat) :=
  (List.range (stripCols n).length).flatMap (fun s => stripCells n ((stripCols n).getD s 0) s)

/-- The cells of a list visited one after the other, each as `write` treats a cell. -/
def placeCells (bufBit : List Nat) : List (Nat × Nat) → Grid × Nat → Option (Grid × Nat)
  | [], st => some st
  | p :: ps, st =>
    match writeCell bufBit p.2 p.1 0 st with
    | none => none
    | some st1 => placeCells bufBit ps st1

/-- The number of cells of a list that are unset in a grid. -/
def unsetCount (img : Grid) (cells : List (Nat × Nat)) : Nat :=
  (cells.filter (fun p => cellAt img p.1 p.2 = 0)).length

/-- The value that data placement stores for the bit `a` in column `c`: the bit, inverted
when the column is divisible by 3. -/
def masked (a c : Nat) : Nat :=
  if c % 3 = 0 then (if a = 0 then 1 else 0) else a

/-! ## Function patterns -/

/-- The assignment `(*img)[r][c] = v`: an index out of range aborts. -/
def setCell (img : Grid) (r c v : Nat) : Option Grid :=
  match img[r]? with
  | none => none
  | some row => if c < row.length then some (img.set r (row.set c v)) else none

/-- The loop `for j := i; j < 7-i; j++` of `searchPoint` for the finder pattern at
column `posx` and row `posy`: the four sides of the ring at offset `i`, with the tag `x`. -/
def searchRing (posx posy i x : Nat) : Nat → Nat → Grid → Option Grid
  | 0, _, img => some img
  | fuel + 1, j, img =>
    (setCell img (i + posy) (j + posx) x).bind fun img =>
    (setCell img (j + posy) (i + posx) x).bind fun img =>
    (setCell img (6 - i + posy) (j + posx) x).bind fun img =>
    (setCell img (j + posy) (6 - i + posx) x).bind fun img =>
    searchRing posx posy i x fuel (j + 1) img

/-- The loop `for i := 0; i < 3; i++` of `searchPoint`: the three rings, from the outside,
the tag `x` alternating; the result carries the tag left in `x`. -/
def searchRings (posx posy : Nat) : Nat → Nat → Nat → Grid → Option (Grid × Nat)
  | 0, _, x, img => some (img, x)
  | fuel + 1, i, x, img =>
    (searchRing posx posy i x (7 - i - i) i img).bind fun img =>
    (setCell img (6 - i + posy) (6 - i + posx) x).bind fun img =>
    searchRings posx posy fuel (i + 1) (if x = search0 then search1 else search0) img

/-- The loop `for i := -1; i < 8; i++` of `searchPoint`: the separator beside the finder
pattern, one row and one column, on the side that lies inside the grid. -/
def searchSep (posx posy x : Nat) : Nat → Int → Grid → Option Grid
  | 0, _, img => some img
  | fuel + 1, i, img =>
    (if (posx : Int) + i > -1 ∧ (posx : Int) + i < img.length then
      if posy + 7 < img.length then setCell img (posy + 7) ((posx : Int) + i).toNat x
      else if (posy : Int) - 1 > -1 then setCell img (posy - 1) ((posx : Int) + i).toNat x
      else some img
    else some img).bind fun img =>
    (if (posy : Int) + i > -1 ∧ (posy : Int) + i < img.length then
      if posx + 7 < img.length then setCell img ((posy : Int) + i).toNat (posx + 7) x
      else if (posx : Int) - 1 > -1 then setCell img ((posy : Int) + i).toNat (posx - 1) x
      else some img
    else some img).bind fun img =>
    searchSep posx posy x fuel (i + 1) img

/-- The loop `for k := 0; k < 3; k++` of `searchPoint`: one finder pattern with its
separator for each entry of `posx` and `posy`. -/
def searchLoop (posx posy : List Nat) : Nat → Nat → Grid → Option Grid
  | 0, _, img => some img
  | fuel + 1, k, img =>
    match posx[k]?, posy[k]? with
    | some px, some py =>
      (searchRings px py 3 0 search1 img).bind fun st =>
      (setCell st.1 (py + 3) (px + 3) search1).bind fun img =>
      (searchSep px py st.2 9 (-1) img).bind fun img =>
      searchLoop posx posy fuel (k + 1) img
    | _, _ => none

/-- `searchPoint`: the three finder patterns. The corner `len(*img) - 7` is a natural
number here: on a grid of fewer than 7 rows the first pattern already aborts at
`(*img)[6]`, before the corner is used. -/
def searchPoint (img : Grid) : Option Grid :=
  searchLoop [0, 0, img.length - 7] [0, img.length - 7, 0] 3 0 img

/-- The loop `for i := 8; i < len(*img)-8; i++` of `syncLine`, with the flag `f`. -/
def syncLoop : Nat → Nat → Bool → Grid → Option Grid
  | 0, _, _, img => some img
  | fuel + 1, i, f, img =>
    if f then
      (setCell img 6 i sync1).bind fun img =>
      (setCell img i 6 sync1).bind fun img =>
      syncLoop fuel (i + 1) false img
    else
      (setCell img 6 i sync0).bind fun img =>
      (setCell img i 6 sync0).bind fun img =>
      syncLoop fuel (i + 1) true img

/-- `syncLine`: the timing patterns in row 6 and column 6; the loop runs for
`i = 8, ..., len(*img) - 9`. -/
def syncLine (img : Grid) : Option Grid :=
  syncLoop (img.length - 8 - 8) 8 true img

/-- The tag that `maskInfo` stores for the bit of `code` under `mask`. -/
def maskTag (mask code : Nat) : Nat :=
  if mask &&& code ≠ 0 then mask1 else mask0

/-- The first loop of `maskInfo`, `for i := 0; i < 15; i++`: the copy of the format word
in column 8 at the bottom and in row 8 at the right. A row `len(*img) - 1 - i` or a
column `len(*img) - 15 + i` below zero is an index out of range. -/
def maskLoop1 (code : Nat) : Nat → Nat → Nat → Grid → Option Grid
  | 0, _, _, img => some img
  | fuel + 1, i, mask, img =>
    if i > 6 then
      if img.length + i < 15 then none
      else
        (setCell img 8 (img.length + i - 15) (maskTag mask code)).bind fun img =>
        maskLoop1 code fuel (i + 1) (mask >>> 1) img
    else
      if img.length < 1 + i then none
      else
        (setCell img (img.length - 1 - i) 8 (maskTag mask code)).bind fun img =>
        maskLoop1 code fuel (i + 1) (mask >>> 1) img

/-- The second loop of `maskInfo`, `for i := 0; i < 17; i++`: the copy of the format word
around the top-left finder pattern; a cell holding `sync1` is passed over and the mask is
not shifted for it. -/
def maskLoop2 (code : Nat) : Nat → Nat → Nat → Grid → Option Grid
  | 0, _, _, img => some img
  | fuel + 1, i, mask, img =>
    let a := if i > 8 then 16 - i else 8
    let b := if i > 8 then 8 else i
    match img[a]? with
    | none => none
    | some row =>
      match row[b]? with
      | none => none
      | some cell =>
        if cell ≠ sync1 then
          (setCell img a b (maskTag mask code)).bind fun img =>
          maskLoop2 code fuel (i + 1) (mask >>> 1) img
        else maskLoop2 code fuel (i + 1) mask img

/-- `maskInfo`: both copies of the format word `code` and the cell
`(*img)[len(*img)-8][8] = mask1`. -/
def maskInfo (img : Grid) (code : Nat) : Option Grid :=
  (maskLoop1 code 15 0 0x4000 img).bind fun img =>
  if img.length < 8 then none
  else
    (setCell img (img.length - 8) 8 mask1).bind fun img =>
    maskLoop2 code 17 0 0x4000 img

/-- The loop `for j := 0; mask > 0; j++` of `codeVer` for the word `w = vers[i]`, written
to row `row = size-10+i` and to column `row`. -/
def codeVerRow (row w : Nat) : Nat → Nat → Nat → Grid → Option Grid
  | 0, _, _, img => some img
  | fuel + 1, j, mask, img =>
    if mask > 0 then
      (setCell img row j (if mask &&& w = 0 then version0 else version1)).bind fun img =>
      (setCell img j row (if mask &&& w = 0 then version0 else version1)).bind fun img =>
      codeVerRow row w fuel (j + 1) (mask >>> 1) img
    else some img

/-- The loop `for i := range vers` of `codeVer`. A row `size - 10 + i` below zero, with
`size = len(*img) - 1`, is an index out of range. -/
def codeVerLoop (n : Nat) : List Nat → Nat → Grid → Option Grid
  | [], _, img => some img
  | w :: ws, i, img =>
    if n + i < 11 then none
    else
      (codeVerRow (n + i - 11) w 7 0 0x20 img).bind fun img =>
      codeVerLoop n ws (i + 1) img

/-- `codeVer`: the two copies of the version information `codeVersion[version]`. -/
def codeVer (img : Grid) (version : Nat) : Option Grid :=
  match codeVersion[version]? with
  | none => none
  | some vers => codeVerLoop img.length vers 0 img

/-- The loop `for j := d; j < 5-d; j++` of `anchor`: the four sides of the ring at offset
`d` of the alignment pattern with the corner at row `y` and column `x`. -/
def anchorRing (y x d k : Nat) : Nat → Nat → Grid → Option Grid
  | 0, _, img => some img
  | fuel + 1, j, img =>
    (setCell img (d + y) (j + x) k).bind fun img =>
    (setCell img (j + y) (d + x) k).bind fun img =>
    (setCell img (4 - d + y) (j + x) k).bind fun img =>
    (setCell img (j + y) (4 - d + x) k).bind fun img =>
    anchorRing y x d k fuel (j + 1) img

/-- The loop `for d := 0; d < 2; d++` of `anchor`, the tag `k` alternating. -/
def anchorRings (y x : Nat) : Nat → Nat → Nat → Grid → Option Grid
  | 0, _, _, img => some img
  | fuel + 1, d, k, img =>
    (anchorRing y x d k (5 - d - d) d img).bind fun img =>
    anchorRings y x fuel (d + 1) (if k = anchor0 then anchor1 else anchor0) img

/-- The loop `for i := range coordLisn` of `anchor`: one alignment pattern for each
centre. A centre coordinate below 2 makes the first index negative. -/
def anchorLoop : List (List Nat) → Grid → Option Grid
  | [], img => some img
  | coord :: rest, img =>
    match coord[0]?, coord[1]? with
    | some cy, some cx =>
      if cy < 2 ∨ cx < 2 then none
      else
        (anchorRings (cy - 2) (cx - 2) 2 0 anchor1 img).bind fun img =>
        (setCell img (cy - 2 + 2) (cx - 2 + 2) anchor1).bind fun img =>
        anchorLoop rest img
    | _, _ => none

/-- `anchor`: the alignment patterns at the centres `coordAnchor[version]`. -/
def anchor (img : Grid) (version : Nat) : Option Grid :=
  match coordAnchor[version]? with
  | none => none
  | some coordLisn => anchorLoop coordLisn img

/-- The function patterns as `QRGenerate` draws them: the zero grid of edge
`qrBlocks[version]`, then `searchPoint`, `syncLine`, `maskInfo`, `codeVer`, `anchor`. -/
def drawPatterns (version levelCorrect : Nat) : Option Grid :=
  match qrBlocks[version]? with
  | none => none
  | some size =>
    (searchPoint (List.replicate size (List.replicate size 0))).bind fun img =>
    (syncLine img).bind fun img =>
    (maskInfo img levelCorrect).bind fun img =>
    (codeVer img version).bind fun img =>
    anchor img version

/-- The drawing part of `QRGenerate`: the function patterns, then `write` with the
codeword stream. -/
def drawGrid (version levelCorrect : Nat) (data : List Nat) : Option Grid :=
  (drawPatterns version levelCorrect).bind fun img => write img data

/-- A cell is dark when its tag is odd, as `paintImage` tests it. -/
def dark (v : Nat) : Bool := v % 2 = 1

/-! ## BCH codewords, as the specification words them -/

/-- Remainder of a polynomial over GF(2) on division by the generator `g` of degree `d`:
the bits `d + k - 1` down to `d` of `a` are cleared one after the other by adding a
shifted copy of `g`. Polynomials are numbers, bit `i` the coefficient of `x^i`. -/
def gf2Rem (g d : Nat) : Nat → Nat → Nat
  | 0, a => a
  | k + 1, a => gf2Rem g d k (if a.testBit (d + k) then a ^^^ (g <<< k) else a)

/-- Product of two polynomials over GF(2): the sum over the `k` low bits of `b` of
`a * x^i`. -/
def gf2Mul (a b : Nat) : Nat → Nat
  | 0 => 0
  | k + 1 => (if b % 2 = 1 then a else 0) ^^^ gf2Mul (2 * a) (b / 2) k

/-- The BCH(15,5) codeword of five data bits with the generator `0x537`: the data bits
followed by the ten bits of the remainder of `data * x^10`. -/
def bchFormat (data : Nat) : Nat :=
  (data <<< 10) ||| gf2Rem 0x537 10 5 (data <<< 10)

/-- The BCH(18,6) codeword of a version number with the generator `0x1F25`: the six
version bits followed by the twelve bits of the remainder of `v * x^12`. -/
def bchVersion (v : Nat) : Nat :=
  (v <<< 12) ||| gf2Rem 0x1F25 12 6 (v <<< 12)

/-! ## Specification-side notions for the function patterns -/

/-- The grid `out` keeps every set cell of `img` and differs from `img` only in cells
that hold 0 or 1 in `out`. -/
def framed (img out : Grid) : Prop :=
  (∀ r c, cellAt img r c ≠ 0 → cellAt out r c = cellAt img r c) ∧
  (∀ r c, cellAt out r c ≠ cellAt img r c → cellAt out r c ≤ 1)

/-- A grid of `n` rows of `n` cells. -/
def squareOf (n : Nat) (img : Grid) : Prop :=
  img.length = n ∧ ∀ row ∈ img, row.length = n

instance (n : Nat) (img : Grid) : Decidable (squareOf n img) := by
  unfold squareOf; infer_instance

/-- A list of assignments `(row, column, value)` made one after the other. -/
def applyWrites : List (Nat × Nat × Nat) → Grid → Option Grid
  | [], img => some img
  | w :: ws, img => (setCell img w.1 w.2.1 w.2.2).bind (applyWrites ws)

/-- The value that the last assignment of a list to the cell `(r, c)` stores, if the
list has one. -/
def lastWrite : List (Nat × Nat × Nat) → Nat → Nat → Option Nat
  | [], _, _ => none
  | w :: ws, r, c =>
    match lastWrite ws r c with
    | some v => some v
    | none => if w.1 = r ∧ w.2.1 = c then some w.2.2 else none

/-- The assignments of `codeVerRow`, in order. -/
def codeVerRowWrites (row w : Nat) : Nat → Nat → Nat → List (Nat × Nat × Nat)
  | 0, _, _ => []
  | fuel + 1, j, mask =>
    if mask > 0 then
      (row, j, if mask &&& w = 0 then version0 else version1) ::
      (j, row, if mask &&& w = 0 then version0 else version1) ::
      codeVerRowWrites row w fuel (j + 1) (mask >>> 1)
    else []

/-- The assignments of `codeVerLoop` on a grid of `n` rows, in order. -/
def codeVerWrites (n : Nat) : List Nat → Nat → List (Nat × Nat × Nat)
  | [], _ => []
  | w :: ws, i => codeVerRowWrites (n + i - 11) w 7 0 0x20 ++ codeVerWrites n ws (i + 1)

/-- The assignments of `anchorRing`, in order. -/
def anchorRingWrites (y x d k : Nat) : Nat → Nat → List (Nat × Nat × Nat)
  | 0, _ => []
  | fuel + 1, j =>
    (d + y, j + x, k) :: (j + y, d + x, k) :: (4 - d + y, j + x, k) :: (j + y, 4 - d + x, k) ::
    anchorRingWrites y x d k fuel (j + 1)

/-- The assignments of `anchorRings`, in order. -/
def anchorRingsWrites (y x : Nat) : Nat → Nat → Nat → List (Nat × Nat × Nat)
  | 0, _, _ => []
  | fuel + 1, d, k =>
    anchorRingWrites y x d k (5 - d - d) d ++
    anchorRingsWrites y x fuel (d + 1) (if k = anchor0 then anchor1 else anchor0)

/-- The assignments of `anchorLoop` for a list of centres, in order. -/
def anchorWrites : List (List Nat) → List (Nat × Nat × Nat)
  | [] => []
  | coord :: rest =>
    anchorRingsWrites (coord.getD 0 0 - 2) (coord.getD 1 0 - 2) 2 0 anchor1 ++
    ((coord.getD 0 0 - 2 + 2, coord.getD 1 0 - 2 + 2, anchor1) :: anchorWrites rest)

/-- The number of shifts of the mask before iteration `t` of the second loop of
`maskInfo` when the cells of the iterations 6 and 10 hold `sync1`. -/
def maskShift (t : Nat) : Nat :=
  t - (if 6 < t then 1 else 0) - (if 10 < t then 1 else 0)

/-- The number of the bit of the format word, counted from bit 14 downwards, that
`maskInfo` stores in the cell `(r, c)` of a grid of edge `n`, if it stores one there. -/
def maskSlot (n r c : Nat) : Option Nat :=
  if r = 8 ∧ c ≤ 8 ∧ c ≠ 6 then some (maskShift c)
  else if c = 8 ∧ r < 8 ∧ r ≠ 6 then some (maskShift (16 - r))
  else if c = 8 ∧ n - 7 ≤ r ∧ r < n then some (n - 1 - r)
  else if r = 8 ∧ n - 8 ≤ c ∧ c < n then some (c + 15 - n)
  else none

/-- The tag that `maskInfo` stores in the cell `(r, c)` of a grid of edge `n` whose cells
`(8, 6)` and `(6, 8)` hold `sync1`, if it stores one there. -/
def maskCell (n code r c : Nat) : Option Nat :=
  if r = n - 8 ∧ c = 8 then some mask1
  else (maskSlot n r c).map (fun k => maskTag (0x4000 >>> k) code)

/-- The grid after `searchPoint` and `syncLine`, as `QRGenerate` starts the drawing. -/
def prePatterns (version : Nat) : Option Grid :=
  match qrBlocks[version]? with
  | none => none
  | some size =>
    (searchPoint (List.replicate size (List.replicate size 0))).bind syncLine

/-- The value of a cell after `searchPoint` and `syncLine`. -/
def preCell (version r c : Nat) : Nat :=
  cellAt ((prePatterns version).getD []) r c

/-- The assignments of `codeVer` and then `anchor` for a version index, in order. -/
def overlayWrites (version : Nat) : List (Nat × Nat × Nat) :=
  codeVerWrites (qrBlocks.getD version 0) (codeVersion.getD version []) 0 ++
    anchorWrites (coordAnchor.getD version [])

/-- The value that `codeVer` or `anchor` stores last in the cell `(r, c)` for a version
index, if one of them stores a value there. -/
def overlay (version r c : Nat) : Option Nat :=
  lastWrite (overlayWrites version) r c

/-- The value of the cell `(r, c)` of the function patterns for a version index and a
format word, composed from the writers in the order of `QRGenerate`. -/
def patternCell (version code r c : Nat) : Nat :=
  (overlay version r c).getD
    ((maskCell (qrBlocks.getD version 0) code r c).getD (preCell version r c))

/-- The cells of the format word beside the top-left finder pattern, as (row, column),
from bit 14 to bit 0. -/
def formatCells1 : List (Nat × Nat) :=
  [(8, 0), (8, 1), (8, 2), (8, 3), (8, 4), (8, 5), (8, 7), (8, 8),
   (7, 8), (5, 8), (4, 8), (3, 8), (2, 8), (1, 8), (0, 8)]

/-- The cells of the second copy of the format word in a grid of edge `n`, as
(row, column), from bit 14 to bit 0. -/
def formatCells2 (n : Nat) : List (Nat × Nat) :=
  [(n - 1, 8), (n - 2, 8), (n - 3, 8), (n - 4, 8), (n - 5, 8), (n - 6, 8), (n - 7, 8),
   (8, n - 8), (8, n - 7), (8, n - 6), (8, n - 5), (8, n - 4), (8, n - 3), (8, n - 2),
   (8, n - 1)]

/-- The distance of the offset `(r, c)` in a 7x7 square from its centre `(3, 3)`:
`max(|r - 3|, |c - 3|)`. -/
def ringOf (r c : Nat) : Nat :=
  max (max (r - 3) (3 - r)) (max (c - 3) (3 - c))

/-- The tag of the offset `(r, c)` in the 7x7 square of a finder pattern: light in the
ring at distance 2 from the centre, dark elsewhere. -/
def finderTag (r c : Nat) : Nat :=
  if ringOf r c = 2 then search0 else search1

/-- The facts about the grid after `searchPoint` and `syncLine` for a version index, with
`n = 21 + 4 * version`: the grid is square; among the 17 cells that the second loop of
`maskInfo` visits, exactly `(8, 6)` and `(6, 8)` hold `sync1`; the three finder patterns
and their separators hold their tags; the timing cells alternate from `sync1`. -/
def preFacts (version : Nat) : Prop :=
  (prePatterns version).isSome = true ∧
  squareOf (21 + 4 * version) ((prePatterns version).getD []) ∧
  (∀ t : Nat, t < 17 →
    (preCell version (if t > 8 then 16 - t else 8) (if t > 8 then 8 else t) = sync1 ↔
      (t = 6 ∨ t = 10))) ∧
  (∀ r : Nat, r < 7 → ∀ c : Nat, c < 7 →
    preCell version r c = finderTag r c ∧
    preCell version r (14 + 4 * version + c) = finderTag r c ∧
    preCell version (14 + 4 * version + r) c = finderTag r c) ∧
  (∀ k : Nat, k < 8 →
    preCell version 7 k = search0 ∧ preCell version k 7 = search0 ∧
    preCell version 7 (13 + 4 * version + k) = search0 ∧
    preCell version k (13 + 4 * version) = search0 ∧
    preCell version (13 + 4 * version) k = search0 ∧
    preCell version (13 + 4 * version + k) 7 = search0) ∧
  (∀ i : Nat, i < 5 + 4 * version →
    preCell version 6 (8 + i) = (if i % 2 = 0 then sync1 else sync0) ∧
    preCell version (8 + i) 6 = (if i % 2 = 0 then sync1 else sync0))

instance (version : Nat) : Decidable (preFacts version) := by
  unfold preFacts; infer_instance

/-- An assignment of `codeVer` or `anchor` for a version index stays clear of the three
corner blocks of the finder patterns with their separators and of the rows and columns of
the format cells, and on the timing lines it stores a tag of the darkness of the line. -/
def overlayOk (version : Nat) (w : Nat × Nat × Nat) : Prop :=
  ¬ (w.1 < 8 ∧ w.2.1 < 8) ∧ ¬ (w.1 < 8 ∧ 13 + 4 * version ≤ w.2.1) ∧
  ¬ (13 + 4 * version ≤ w.1 ∧ w.2.1 < 8) ∧
  ¬ (w.1 = 8 ∧ (w.2.1 ≤ 8 ∨ 13 + 4 * version ≤ w.2.1)) ∧
  ¬ (w.2.1 = 8 ∧ (w.1 ≤ 8 ∨ 13 + 4 * version ≤ w.1)) ∧
  (w.1 ≠ 6 ∨ (w.2.2 ≠ 0 ∧ dark w.2.2 = decide (w.2.1 % 2 = 0))) ∧
  (w.2.1 ≠ 6 ∨ (w.2.2 ≠ 0 ∧ dark w.2.2 = decide (w.1 % 2 = 0)))

instance (version : Nat) (w : Nat × Nat × Nat) : Decidable (overlayOk version w) := by
  unfold overlayOk; infer_instance

/-- The cells number `j` of both copies of the format word for a version index are cells
in which `maskInfo` stores bit `14 - j` of the format word; they lie in row 8 or column 8
beside a finder pattern and are not the cell `(n - 8, 8)`, with `n = 21 + 4 * version`. -/
def formatOk (version j : Nat) : Prop :=
  (maskSlot (21 + 4 * version) (formatCells1.getD j (0, 0)).1 (formatCells1.getD j (0, 0)).2
      = some j ∧
    ((formatCells1.getD j (0, 0)).1 = 8 ∧ (formatCells1.getD j (0, 0)).2 ≤ 8 ∨
      (formatCells1.getD j (0, 0)).2 = 8 ∧ (formatCells1.getD j (0, 0)).1 ≤ 8)) ∧
  (maskSlot (21 + 4 * version) ((formatCells2 (21 + 4 * version)).getD j (0, 0)).1
      ((formatCells2 (21 + 4 * version)).getD j (0, 0)).2 = some j ∧
    (((formatCells2 (21 + 4 * version)).getD j (0, 0)).1 = 8 ∧
        13 + 4 * version ≤ ((formatCells2 (21 + 4 * version)).getD j (0, 0)).2 ∨
      ((formatCells2 (21 + 4 * version)).getD j (0, 0)).2 = 8 ∧
        14 + 4 * version ≤ ((formatCells2 (21 + 4 * version)).getD j (0, 0)).1))

instance (version j : Nat) : Decidable (formatOk version j) := by
  unfold formatOk; infer_instance

/-- The tag that `codeVer` stores for bit `k` of the word `w`. -/
def versionTag (w k : Nat) : Nat :=
  if w / 2 ^ k % 2 = 1 then version1 else version0

/-- The facts about the version information of a version index, with
`n = 21 + 4 * version`: below index 6 the table entry is empty; from index 6 on the last
assignment of `codeVer` to the cell `(n - 11 + r, c)` and to its transpose stores the tag
of bit `3c + r` of the BCH(18,6) codeword of the version number; no assignment of
`anchor` lies in the two blocks of the version information. -/
def versionOk (version : Nat) : Prop :=
  (version < 6 → codeVersion.getD version [] = []) ∧
  (6 ≤ version → ∀ r : Nat, r < 3 → ∀ c : Nat, c < 6 →
    lastWrite (codeVerWrites (21 + 4 * version) (codeVersion.getD version []) 0)
        (10 + 4 * version + r) c = some (versionTag (bchVersion (version + 1)) (3 * c + r)) ∧
    lastWrite (codeVerWrites (21 + 4 * version) (codeVersion.getD version []) 0)
        c (10 + 4 * version + r) = some (versionTag (bchVersion (version + 1)) (3 * c + r))) ∧
  (∀ w ∈ anchorWrites (coordAnchor.getD version []),
    ¬ (10 + 4 * version ≤ w.1 ∧ w.1 < 13 + 4 * version ∧ w.2.1 < 6) ∧
    ¬ (w.1 < 6 ∧ 10 + 4 * version ≤ w.2.1 ∧ w.2.1 < 13 + 4 * version))

instance (version : Nat) : Decidable (versionOk version) := by
  unfold versionOk; infer_instance

/-! ## Specification-side notions for the capacity of the symbol -/

/-- The number of unset cells (value 0) of a grid, counted row by row. -/
def unsetCells (img : Grid) : Nat :=
  (img.map (fun row => (row.filter (fun x => x = 0)).length)).sum

/-- All cells of a grid of edge `n`, as (row, column), row by row. -/
def allCells (n : Nat) : List (Nat × Nat) :=
  (List.range n).flatMap (fun r => (List.range n).map (fun c => (r, c)))

/-- The number of bits of the codewords of a version index at a level: eight for each of
the `maxData[version]/8` data codewords and of the `blocks[version] * byteCorect[version]`
correction codewords. -/
def codewordBits (lvl : Level) (version : Nat) : Nat :=
  8 * (lvl.maxData.getD version 0 / 8 +
    lvl.blocks.getD version 0 * lvl.byteCorect.getD version 0)

/-! # Theorems -/

/-! ## Version selection -/

theorem maxDataM_gap : ∀ i < 39, maxDataM.getD i 0 + margin (i + 1) ≤ maxDataM.getD (i + 1) 0 := by
  decide

theorem getElem?_of_lt40 (t : List Nat) (ht : t.length = 40) (i : Nat) (hi : i < 40) :
    t[i]? = some (t.getD i 0) := by
  rw [List.getD_eq_getElem?_getD, List.getElem?_eq_getElem (by omega)]
  rfl

theorem howToVersionLoop_spec (t : List Nat) (ht : t.length = 40)
    (hgap : ∀ i < 39, t.getD i 0 + margin (i + 1) ≤ t.getD (i + 1) 0) (n : Nat) :
    ∀ fuel i, i + fuel = 40 →
      (∀ j < i, t.getD j 0 < n + margin j) →
      (∃ j, i ≤ j ∧ j < 40 ∧ n + margin j ≤ t.getD j 0) →
      ∃ idx lsd, howToVersionLoop n t fuel i = some (idx, lsd, false) ∧
        idx < 40 ∧ lsd = (if idx < 9 then 12 else 20) ∧
        n + margin idx ≤ t.getD idx 0 ∧ ∀ j < idx, t.getD j 0 < n + margin j := by
  intro fuel
  induction fuel with
  | zero =>
    intro i hi _ hex
    obtain ⟨j, h1, h2, _⟩ := hex
    omega
  | succ fuel ih =>
    intro i hi hprev hex
    have hi40 : i < 40 := by omega
    simp only [howToVersionLoop, getElem?_of_lt40 t ht i hi40]
    by_cases h1 : n > t.getD i 0
    · simp only [h1, if_true]
      apply ih (i + 1) (by omega)
      · intro j hj
        by_cases hji : j = i
        · subst hji; omega
        · exact hprev j (by omega)
      · obtain ⟨j, hj1, hj2, hj3⟩ := hex
        refine ⟨j, ?_, hj2, hj3⟩
        by_contra hc
        have : j = i := by omega
        subst this
        omega
    · simp only [h1, if_false]
      have hstep : ∀ j < i + 1, n + margin i > t.getD i 0 → t.getD j 0 < n + margin j := by
        intro j hj hgt
        by_cases hji : j = i
        · subst hji; omega
        · exact hprev j (by omega)
      by_cases h9 : i < 9
      · have hm : margin i = 92 := by simp [margin, h9]
        simp only [h9, if_true]
        by_cases h2 : n + 92 > t.getD i 0
        · simp only [h2, if_true]
          have hg := hgap i (by omega)
          by_cases h3 : i + 1 = 9
          · simp only [h3, if_true]
            refine ⟨9, 20, ?_, by omega, by simp, ?_, ?_⟩
            · rw [← h3]
            · rw [← h3]; omega
            · intro j hj; exact hstep j (by omega) (by omega)
          · simp only [h3, if_false]
            refine ⟨i + 1, 12, rfl, by omega, ?_, by omega, ?_⟩
            · have : i + 1 < 9 := by omega
              simp [this]
            · intro j hj; exact hstep j hj (by omega)
        · simp only [h2, if_false]
          exact ⟨i, 12, rfl, hi40, by simp [h9], by omega, hprev⟩
      · have hm : margin i = 100 := by simp [margin, h9]
        simp only [h9, if_false]
        by_cases h26 : i < 26
        · have hc : 9 ≤ i ∧ i < 26 := ⟨by omega, h26⟩
          simp only [hc, and_self, if_true]
          by_cases h2 : n + 100 > t.getD i 0
          · simp only [h2, if_true, ite_self]
            have hg := hgap i (by omega)
            have hm1 : margin (i + 1) = 100 := by
              have : ¬ (i + 1 < 9) := by omega
              simp [margin, this]
            refine ⟨i + 1, 20, rfl, by omega, ?_, by omega, ?_⟩
            · have : ¬ (i + 1 < 9) := by omega
              simp [this]
            · intro j hj; exact hstep j hj (by omega)
          · simp only [h2, if_false]
            exact ⟨i, 20, rfl, hi40, by simp [h9], by omega, hprev⟩
        · have hc : ¬ (9 ≤ i ∧ i < 26) := by omega
          have hc2 : 26 ≤ i ∧ i < 40 := by omega
          simp only [hc, if_false, hc2, and_self, if_true]
          by_cases h2 : n + 100 > t.getD i 0
          · simp only [h2, if_true]
            by_cases h3 : i + 1 = 40
            · exfalso
              obtain ⟨j, hj1, hj2, hj3⟩ := hex
              have : j = i := by omega
              subst this
              omega
            · simp only [h3, if_false]
              have hg := hgap i (by omega)
              have hm1 : margin (i + 1) = 100 := by
                have : ¬ (i + 1 < 9) := by omega
                simp [margin, this]
              refine ⟨i + 1, 20, rfl, by omega, ?_, by omega, ?_⟩
              · have : ¬ (i + 1 < 9) := by omega
                simp [this]
              · intro j hj; exact hstep j hj (by omega)
          · simp only [h2, if_false]
            exact ⟨i, 20, rfl, hi40, by simp [h9], by omega, hprev⟩

theorem howToVersionLoop_total (t : List Nat) (ht : t.length = 40) (n : Nat) :
    ∀ fuel i, i + fuel = 40 → ∃ r, howToVersionLoop n t fuel i = some r := by
  intro fuel
  induction fuel with
  | zero => intro i _; exact ⟨_, rfl⟩
  | succ fuel ih =>
    intro i hi
    simp only [howToVersionLoop, getElem?_of_lt40 t ht i (by omega)]
    by_cases h1 : n > t.getD i 0
    · simp only [h1, if_true]; exact ih (i + 1) (by omega)
    · simp only [h1, if_false]
      split_ifs <;> exact ⟨_, rfl⟩

/-- C1 (as amended): at level M the selected version is the smallest one that holds the
frame with 80 spare bits. For every payload length `L` for which some version `v` in
1..40 has `maxDataM[v-1] ≥ 84 + count_bits(v) + 8*L`, `howToVersion (8*L) maxDataM`
returns no error, and its index plus one is the smallest such version. The five bytes of
"HELLO" select index 1 (version 2), whose grid edge is `qrBlocks[1] = 25`. -/
theorem howToVersion_minimal_with_reserve (L v : Nat) (hfit : reserveFits maxDataM v L) :
    (∃ idx lsd, howToVersion (8 * L) maxDataM = some (idx, lsd, false) ∧
      reserveFits maxDataM (idx + 1) L ∧
      ∀ w, reserveFits maxDataM w L → idx + 1 ≤ w) ∧
    howToVersion (utfToBit [72, 69, 76, 76, 79]).1 maxDataM = some (1, 12, false) ∧
    qrBlocks[1]? = some 25 := by
  refine ⟨?_, by decide, by decide⟩
  obtain ⟨hv1, hv40, hcap⟩ := hfit
  have hm : ∀ j, 8 * L + margin j = 84 + countBits (j + 1) + 8 * L := by
    intro j
    unfold margin countBits
    by_cases h : j < 9
    · have h2 : j + 1 ≤ 9 := by omega
      simp only [h, h2, if_true]; omega
    · have h2 : ¬ (j + 1 ≤ 9) := by omega
      simp only [h, h2, if_false]; omega
  obtain ⟨idx, lsd, hres, hidx, _, hfits, hmin⟩ :=
    howToVersionLoop_spec maxDataM (by decide) maxDataM_gap (8 * L) 40 0 (by omega)
      (by intro j hj; omega)
      ⟨v - 1, by omega, by omega, by
        rw [hm]
        have : v - 1 + 1 = v := by omega
        rw [this]; exact hcap⟩
  refine ⟨idx, lsd, hres, ⟨by omega, by omega, ?_⟩, ?_⟩
  · rw [hm] at hfits
    simpa [capacity] using hfits
  · intro w ⟨hw1, hw40, hwcap⟩
    by_contra hc
    have hlt : w - 1 < idx := by omega
    have := hmin (w - 1) hlt
    rw [hm] at this
    have h2 : w - 1 + 1 = w := by omega
    rw [h2] at this
    unfold capacity at hwcap
    omega

theorem howToVersion_minimal_with_reserve_witness :
    (∃ idx lsd, howToVersion (8 * 5) maxDataM = some (idx, lsd, false) ∧
      reserveFits maxDataM (idx + 1) 5 ∧
      ∀ w, reserveFits maxDataM w 5 → idx + 1 ≤ w) ∧
    howToVersion (utfToBit [72, 69, 76, 76, 79]).1 maxDataM = some (1, 12, false) ∧
    qrBlocks[1]? = some 25 :=
  howToVersion_minimal_with_reserve 5 2 (by decide)

/-- C1 as stated fails: version 1 holds the five bytes of "HELLO" (`128 ≥ 4 + 8 + 40`),
so the smallest fitting version is 1, yet `howToVersion 40 maxDataM` returns index 1
(version 2) because `40 + 92 > 128`. A payload of 2322 bytes fits version 40
(`18672 ≥ 4 + 16 + 18576`), yet `howToVersion` returns an error for it. -/
theorem howToVersion_not_minimal :
    specFits maxDataM 1 5 ∧ howToVersion (8 * 5) maxDataM = some (1, 12, false) ∧
    specFits maxDataM 40 2322 ∧ howToVersion (8 * 2322) maxDataM = some (0, 0, true) := by
  decide

/-- C2 (failing input): no version 1..40 holds 3000 bytes at level M, and the bit length
24000 exceeds every entry of `maxDataM`, yet `howToVersion` returns version index 0,
`lenSystemData` 0 and a nil error: the loop `continue`s past every index and falls out
with the zero values of the named results. -/
theorem howToVersion_oversize_no_error :
    (∀ v, v ≤ 40 → ¬ specFits maxDataM v 3000) ∧
    (∀ i < 40, maxDataM.getD i 0 < 8 * 3000) ∧
    howToVersion (8 * 3000) maxDataM = some (0, 0, false) := by
  decide

/-- Every length above the last entry of the capacity table is accepted without error. -/
theorem howToVersion_above_table (n : Nat) (h : 18672 < n) :
    howToVersion n maxDataM = some (0, 0, false) := by
  have key : ∀ fuel i, i + fuel = 40 → howToVersionLoop n maxDataM fuel i = some (0, 0, false) := by
    intro fuel
    induction fuel with
    | zero => intro i _; rfl
    | succ fuel ih =>
      intro i hi
      have hle : maxDataM.getD i 0 ≤ 18672 := by
        have : ∀ j < 40, maxDataM.getD j 0 ≤ 18672 := by decide
        exact this i (by omega)
      simp only [howToVersionLoop, getElem?_of_lt40 maxDataM (by decide) i (by omega)]
      have h1 : n > maxDataM.getD i 0 := by omega
      simp only [h1, if_true]
      exact ih (i + 1) (by omega)
  exact key 40 0 (by omega)

/-! ## GF(256): the tables against shift-and-add multiplication -/

theorem gfDouble_eq (u : Nat) : gfDouble u = (2 * u) ^^^ (if u < 128 then 0 else 0x11d) := by
  unfold gfDouble
  by_cases h : u < 128
  · have h2 : 2 * u < 256 := by omega
    simp [h, h2]
  · have h2 : ¬ (2 * u < 256) := by omega
    simp [h, h2]

theorem two_mul_xor (u v : Nat) : 2 * (u ^^^ v) = (2 * u) ^^^ (2 * v) := by
  apply Nat.eq_of_testBit_eq
  intro i
  cases i with
  | zero => simp [Nat.testBit_xor, Nat.testBit_zero]
  | succ i =>
    simp only [Nat.testBit_xor]
    rw [Nat.testBit_succ, Nat.testBit_succ, Nat.testBit_succ]
    simp [Nat.testBit_xor]

set_option maxRecDepth 100000 in
theorem testBit_seven_all : ∀ u < 256, u.testBit 7 = decide (128 ≤ u) := by
  decide!

theorem testBit_seven (u : Nat) (h : u < 256) : u.testBit 7 = decide (128 ≤ u) :=
  testBit_seven_all u h

theorem xor_lt_128_iff (u v : Nat) (hu : u < 256) (hv : v < 256) :
    (u ^^^ v < 128) ↔ ((u < 128) ↔ (v < 128)) := by
  have huv : u ^^^ v < 256 := Nat.xor_lt_two_pow (n := 8) hu hv
  have h1 := testBit_seven (u ^^^ v) huv
  rw [Nat.testBit_xor, testBit_seven u hu, testBit_seven v hv] at h1
  by_cases a : 128 ≤ u <;> by_cases b : 128 ≤ v <;> by_cases c : 128 ≤ u ^^^ v <;>
    simp [a, b, c] at h1 <;> omega

theorem gfDouble_xor (u v : Nat) (hu : u < 256) (hv : v < 256) :
    gfDouble (u ^^^ v) = gfDouble u ^^^ gfDouble v := by
  rw [gfDouble_eq, gfDouble_eq u, gfDouble_eq v, two_mul_xor]
  have h := xor_lt_128_iff u v hu hv
  by_cases a : u < 128 <;> by_cases b : v < 128
  · have c : u ^^^ v < 128 := h.2 (by simp [a, b])
    simp [a, b, c]
  · have c : ¬ (u ^^^ v < 128) := fun hc => b ((h.1 hc).1 a)
    simp only [a, b, c, if_true, if_false, Nat.xor_zero]
    rw [Nat.xor_assoc]
  · have c : ¬ (u ^^^ v < 128) := fun hc => a ((h.1 hc).2 b)
    simp only [a, b, c, if_true, if_false, Nat.xor_zero]
    rw [Nat.xor_assoc, Nat.xor_assoc, Nat.xor_comm 285 (2 * v)]
  · have c : u ^^^ v < 128 := h.2 (by simp [a, b])
    simp only [a, b, c, if_true, if_false, Nat.xor_zero]
    rw [Nat.xor_assoc, ← Nat.xor_assoc 285, Nat.xor_comm 285 (2 * v), Nat.xor_assoc (2 * v),
      Nat.xor_self, Nat.xor_zero]

set_option maxRecDepth 100000 in
theorem gfDouble_lt_all : ∀ u < 256, gfDouble u < 256 := by
  decide!

theorem gfDouble_lt (u : Nat) (hu : u < 256) : gfDouble u < 256 :=
  gfDouble_lt_all u hu

theorem gfDouble_zero : gfDouble 0 = 0 := by decide

theorem gfMulAux_lt (k : Nat) : ∀ a b, a < 256 → gfMulAux a b k < 256 := by
  induction k with
  | zero => intro a b _; simp [gfMulAux]
  | succ k ih =>
    intro a b ha
    simp only [gfMulAux]
    apply Nat.xor_lt_two_pow (n := 8)
    · split_ifs <;> omega
    · exact ih _ _ (gfDouble_lt a ha)

theorem gfMul_lt (a b : Nat) (ha : a < 256) : gfMul a b < 256 := gfMulAux_lt 8 a b ha

theorem gfMulAux_double (k : Nat) : ∀ a b, a < 256 →
    gfMulAux (gfDouble a) b k = gfDouble (gfMulAux a b k) := by
  induction k with
  | zero => intro a b _; simp [gfMulAux, gfDouble_zero]
  | succ k ih =>
    intro a b ha
    simp only [gfMulAux]
    rw [ih (gfDouble a) (b / 2) (gfDouble_lt a ha)]
    rw [gfDouble_xor _ _ (by split_ifs <;> omega) (gfMulAux_lt k _ _ (gfDouble_lt a ha))]
    congr 1
    split_ifs
    · rfl
    · exact gfDouble_zero.symm

theorem gfMul_double (a b : Nat) (ha : a < 256) :
    gfMul (gfDouble a) b = gfDouble (gfMul a b) := gfMulAux_double 8 a b ha

set_option maxRecDepth 100000 in
theorem gfMul_one_left_all : ∀ b < 256, gfMul 1 b = b := by
  decide!

set_option maxRecDepth 100000 in
theorem gfMul_one_right_all : ∀ b < 256, gfMul b 1 = b := by
  decide!

set_option maxRecDepth 100000 in
theorem gfMul_zero_left_all : ∀ b < 256, gfMul 0 b = 0 := by
  decide!

set_option maxRecDepth 100000 in
theorem fieldGalua_step : ∀ i < 255,
    fieldGalua.getD ((i + 1) % 255) 0 = gfDouble (fieldGalua.getD i 0) := by
  decide!

set_option maxRecDepth 100000 in
theorem fieldGalua_reverse : ∀ x < 256, x ≠ 0 →
    fieldGalua.getD (reversefieldGalua.getD x 0) 0 = x ∧ reversefieldGalua.getD x 0 < 255 := by
  decide!

set_option maxRecDepth 100000 in
theorem fieldGalua_lt : ∀ i < 255, fieldGalua.getD i 0 < 256 := by
  decide!

theorem iterate_gfDouble_lt (l : Nat) : ∀ a, a < 256 → gfDouble^[l] a < 256 := by
  induction l with
  | zero => intro a ha; simpa using ha
  | succ l ih => intro a ha; rw [Function.iterate_succ_apply]; exact ih _ (gfDouble_lt a ha)

theorem fieldGalua_add (l : Nat) : ∀ p, p < 255 →
    fieldGalua.getD ((p + l) % 255) 0 = gfDouble^[l] (fieldGalua.getD p 0) := by
  induction l with
  | zero => intro p hp; simp [Nat.mod_eq_of_lt hp]
  | succ l ih =>
    intro p hp
    rw [Function.iterate_succ_apply', ← ih p hp]
    have h1 : (p + (l + 1)) % 255 = ((p + l) % 255 + 1) % 255 := by omega
    rw [h1]
    exact fieldGalua_step _ (Nat.mod_lt _ (by norm_num))

theorem gfMul_iterate (l : Nat) (b : Nat) (hb : b < 256) :
    gfMul (gfDouble^[l] 1) b = gfDouble^[l] b := by
  induction l with
  | zero => simpa using gfMul_one_left_all b hb
  | succ l ih =>
    rw [Function.iterate_succ_apply', Function.iterate_succ_apply',
      gfMul_double _ _ (iterate_gfDouble_lt l 1 (by norm_num)), ih]

/-- The table product used by `buildCorectBlock` is the product of GF(256): for a
non-zero byte `x` and an exponent `p`, `fieldGalua[(p + reversefieldGalua[x]) mod 255]`
equals `x * alpha^p`. -/
theorem fieldGalua_mul (x p : Nat) (hx : x < 256) (hx0 : x ≠ 0) (hp : p < 255) :
    fieldGalua.getD ((p + reversefieldGalua.getD x 0) % 255) 0 =
      gfMul x (fieldGalua.getD p 0) := by
  obtain ⟨h1, h2⟩ := fieldGalua_reverse x hx hx0
  have h3 : x = gfDouble^[reversefieldGalua.getD x 0] 1 := by
    have := fieldGalua_add (reversefieldGalua.getD x 0) 0 (by norm_num)
    have h0 : fieldGalua.getD 0 0 = 1 := rfl
    rw [Nat.zero_add, Nat.mod_eq_of_lt h2, h1, h0] at this
    exact this
  rw [fieldGalua_add _ p hp]
  conv_rhs => rw [h3]
  rw [gfMul_iterate _ _ (fieldGalua_lt p hp)]

/-! ## Reed-Solomon: the working array of `buildCorectBlock` as a long division -/

set_option maxRecDepth 100000 in
theorem fieldGalua_length : fieldGalua.length = 256 := by
  decide

set_option maxRecDepth 100000 in
theorem reversefieldGalua_length : reversefieldGalua.length = 256 := by
  decide

theorem getElem?_eq_some_getD (l : List Nat) (i : Nat) (h : i < l.length) :
    l[i]? = some (l.getD i 0) := by
  rw [List.getD_eq_getElem?_getD, List.getElem?_eq_getElem h]
  rfl

theorem getD_of_length_le (l : List Nat) (i : Nat) (h : l.length ≤ i) : l.getD i 0 = 0 := by
  rw [List.getD_eq_getElem?_getD, List.getElem?_eq_none h]
  rfl

theorem getD_lt_of_forall (l : List Nat) (b : Nat) (hb : 0 < b) (h : ∀ e ∈ l, e < b) (i : Nat) :
    l.getD i 0 < b := by
  by_cases hi : i < l.length
  · rw [List.getD_eq_getElem _ _ hi]
    exact h _ (List.getElem_mem _)
  · rw [getD_of_length_le l i (by omega)]; exact hb

theorem ext_getD (l1 l2 : List Nat) (hlen : l1.length = l2.length)
    (h : ∀ i < l1.length, l1.getD i 0 = l2.getD i 0) : l1 = l2 := by
  apply List.ext_getElem hlen
  intro i h1 h2
  have := h i h1
  rwa [List.getD_eq_getElem _ _ h1, List.getD_eq_getElem _ _ h2] at this

theorem getD_set (l : List Nat) (j c k : Nat) (hj : j < l.length) :
    (l.set j c).getD k 0 = if k = j then c else l.getD k 0 := by
  simp only [List.getD_eq_getElem?_getD, List.getElem?_set]
  by_cases h : j = k
  · subst h; simp [hj]
  · have h2 : ¬ (k = j) := fun e => h e.symm
    simp [h, h2]

set_option maxRecDepth 100000 in
theorem corectXor_spec (pol : List Nat) (lx : Nat) (hpol : ∀ p ∈ pol, p < 255) :
    ∀ fuel j cb, j + fuel ≤ cb.length → j + fuel ≤ pol.length →
      ∃ cb1, corectXor pol lx fuel j cb = some cb1 ∧ cb1.length = cb.length ∧
        ∀ k, cb1.getD k 0 =
          if j ≤ k ∧ k < j + fuel then
            cb.getD k 0 ^^^ fieldGalua.getD ((pol.getD k 0 + lx) % 255) 0
          else cb.getD k 0 := by
  intro fuel
  induction fuel with
  | zero =>
    intro j cb _ _
    refine ⟨cb, rfl, rfl, ?_⟩
    intro k
    have : ¬ (j ≤ k ∧ k < j + 0) := by omega
    rw [if_neg this]
  | succ fuel ih =>
    intro j cb h1 h2
    have hj1 : j < cb.length := by omega
    have hj2 : j < pol.length := by omega
    have hp : pol.getD j 0 < 255 := getD_lt_of_forall pol 255 (by norm_num) hpol j
    have hy : (if pol.getD j 0 + lx > 254 then (pol.getD j 0 + lx) % 255 else pol.getD j 0 + lx)
        = (pol.getD j 0 + lx) % 255 := by
      split_ifs with h
      · rfl
      · rw [Nat.mod_eq_of_lt (by omega)]
    have hylt : (pol.getD j 0 + lx) % 255 < fieldGalua.length := by
      rw [fieldGalua_length]; omega
    simp only [corectXor, getElem?_eq_some_getD pol j hj2, hy,
      getElem?_eq_some_getD fieldGalua _ hylt, getElem?_eq_some_getD cb j hj1]
    obtain ⟨cb1, e1, e2, e3⟩ := ih (j + 1)
      (cb.set j (cb.getD j 0 ^^^ fieldGalua.getD ((pol.getD j 0 + lx) % 255) 0))
      (by rw [List.length_set]; omega) (by omega)
    refine ⟨cb1, e1, by rw [e2, List.length_set], ?_⟩
    intro k
    rw [e3 k, getD_set _ _ _ _ hj1]
    by_cases hk : k = j
    · subst hk
      have a : ¬ (k + 1 ≤ k ∧ k < k + 1 + fuel) := by omega
      have b : k ≤ k ∧ k < k + (fuel + 1) := by omega
      rw [if_neg a, if_pos b, if_pos rfl]
    · by_cases hk2 : j + 1 ≤ k ∧ k < j + 1 + fuel
      · have b : j ≤ k ∧ k < j + (fuel + 1) := by omega
        rw [if_pos hk2, if_pos b, if_neg hk]
      · have b : ¬ (j ≤ k ∧ k < j + (fuel + 1)) := by omega
        rw [if_neg hk2, if_neg b, if_neg hk]

theorem getD_shift (x : Nat) (rest : List Nat) (k : Nat) :
    (rest ++ [0]).getD k 0 = (x :: rest).getD (k + 1) 0 := by
  rw [List.getD_cons_succ]
  by_cases h : k < rest.length
  · rw [List.getD_append _ _ _ _ h]
  · rw [List.getD_append_right _ _ _ _ (by omega), getD_of_length_le rest k (by omega)]
    cases (k - rest.length) <;> rfl

set_option maxRecDepth 100000 in
/-- One division step, pointwise: every entry moves one place to the front and the
first `E` entries receive `x` times the generator coefficient. -/
theorem corectStep_spec (E : Nat) (pol : List Nat) (hpol : ∀ p ∈ pol, p < 255)
    (hE : E ≤ pol.length) (x : Nat) (rest : List Nat) (hx : x < 256)
    (hlen : E ≤ rest.length + 1) :
    ∃ cb1, corectStep E pol (x :: rest) = some cb1 ∧ cb1.length = rest.length + 1 ∧
      ∀ k, cb1.getD k 0 = (x :: rest).getD (k + 1) 0 ^^^
        (if k < E then gfMul x (fieldGalua.getD (pol.getD k 0) 0) else 0) := by
  by_cases hx0 : x = 0
  · subst hx0
    refine ⟨rest ++ [0], by simp [corectStep], by simp, ?_⟩
    intro k
    rw [getD_shift 0 rest k]
    have : gfMul 0 (fieldGalua.getD (pol.getD k 0) 0) = 0 :=
      gfMul_zero_left_all _ (fieldGalua_lt _ (getD_lt_of_forall pol 255 (by norm_num) hpol k))
    rw [this, ite_self, Nat.xor_zero]
  · have hxl : x < reversefieldGalua.length := by
      rw [reversefieldGalua_length]; exact hx
    simp only [corectStep, hx0, if_false, getElem?_eq_some_getD reversefieldGalua x hxl]
    obtain ⟨cb1, e1, e2, e3⟩ := corectXor_spec pol (reversefieldGalua.getD x 0) hpol E 0
      (rest ++ [0]) (by simp; omega) (by omega)
    refine ⟨cb1, e1, by rw [e2]; simp, ?_⟩
    intro k
    rw [e3 k, getD_shift x rest k]
    by_cases hk : k < E
    · have a : 0 ≤ k ∧ k < 0 + E := by omega
      rw [if_pos a, if_pos hk,
        fieldGalua_mul x _ hx hx0 (getD_lt_of_forall pol 255 (by norm_num) hpol k)]
    · have a : ¬ (0 ≤ k ∧ k < 0 + E) := by omega
      rw [if_neg a, if_neg hk, Nat.xor_zero]

theorem getD_zipWith_xor (a b : List Nat) (hlen : a.length = b.length) (i : Nat) :
    (List.zipWith (· ^^^ ·) a b).getD i 0 = a.getD i 0 ^^^ b.getD i 0 := by
  by_cases hi : i < a.length
  · rw [List.getD_eq_getElem _ _ (by simp; omega), List.getD_eq_getElem _ _ hi,
      List.getD_eq_getElem _ _ (by omega), List.getElem_zipWith]
  · rw [getD_of_length_le _ i (by simp; omega), getD_of_length_le a i (by omega),
      getD_of_length_le b i (by omega)]
    rfl

theorem polyMul_length (g : List Nat) (hg : 1 ≤ g.length) :
    ∀ q, (polyMul q g).length = q.length + g.length - 1 := by
  intro q
  induction q with
  | nil => simp [polyMul]
  | cons x q ih =>
    simp only [polyMul, List.length_zipWith, List.length_append, List.length_map,
      List.length_replicate, List.length_cons, ih]
    omega

theorem polyMul_cons_getD (g : List Nat) (hg : 1 ≤ g.length) (x : Nat) (q : List Nat) (i : Nat) :
    (polyMul (x :: q) g).getD i 0 =
      (if i < g.length then gfMul x (g.getD i 0) else 0) ^^^
      (if i = 0 then 0 else (polyMul q g).getD (i - 1) 0) := by
  have hl := polyMul_length g hg q
  simp only [polyMul]
  rw [getD_zipWith_xor _ _ (by simp [hl]; omega)]
  congr 1
  · by_cases hi : i < g.length
    · rw [if_pos hi, List.getD_append _ _ _ _ (by simpa using hi),
        List.getD_eq_getElem _ _ (by simpa using hi), List.getD_eq_getElem _ _ hi,
        List.getElem_map]
    · rw [if_neg hi, List.getD_append_right _ _ _ _ (by simp; omega)]
      simp only [List.getD_eq_getElem?_getD, List.getElem?_replicate]
      split_ifs <;> rfl
  · cases i with
    | zero => rfl
    | succ i => rw [List.getD_cons_succ]; rfl

/-- The division invariant of the working array: after `t` passes the entries taken so
far form a quotient `q` with `q * g + (remaining array) = (array at the start)`, read
over the first `t + E` places. -/
theorem corectLoop_spec (E : Nat) (pol : List Nat) (hpol : ∀ p ∈ pol, p < 255)
    (hE : E = pol.length) :
    ∀ t cb, E ≤ cb.length → t ≤ cb.length → (∀ e ∈ cb, e < 256) →
      ∃ cb1 q, corectLoop E pol t cb = some cb1 ∧ cb1.length = cb.length ∧ q.length = t ∧
        (∀ e ∈ q, e < 256) ∧
        ∀ i, i < t + E →
          (polyMul q (1 :: pol.map (fun p => fieldGalua.getD p 0))).getD i 0 ^^^
            (if i < t then 0 else cb1.getD (i - t) 0) = cb.getD i 0 := by
  intro t
  induction t with
  | zero =>
    intro cb _ _ _
    refine ⟨cb, [], rfl, rfl, rfl, (fun e he => by cases he), ?_⟩
    intro i hi
    have h0 : (polyMul [] (1 :: pol.map (fun p => fieldGalua.getD p 0))).getD i 0 = 0 := by
      simp only [polyMul, List.getD_eq_getElem?_getD, List.getElem?_replicate]
      split_ifs <;> rfl
    rw [h0, if_neg (by omega), Nat.zero_xor]
    rfl
  | succ t ih =>
    intro cb h1 h2 h3
    match cb, h1, h2, h3 with
    | [], _, h2, _ => simp at h2
    | x :: rest, h1, h2, h3 =>
      have hx : x < 256 := h3 x (List.mem_cons_self _ _)
      obtain ⟨cb1, e1, e2, e3⟩ := corectStep_spec E pol hpol (by omega) x rest hx
        (by simpa using h1)
      have hcb1 : ∀ e ∈ cb1, e < 256 := by
        intro e he
        obtain ⟨k, hk, rfl⟩ := List.getElem_of_mem he
        have := e3 k
        rw [List.getD_eq_getElem _ _ hk] at this
        rw [this]
        apply Nat.xor_lt_two_pow (n := 8)
        · exact getD_lt_of_forall _ 256 (by norm_num) h3 _
        · split_ifs
          · exact gfMul_lt _ _ hx
          · norm_num
      obtain ⟨cb2, q, f1, f2, f3, fq, f4⟩ := ih cb1 (by rw [e2]; simpa using h1)
        (by rw [e2]; simp at h2; omega) hcb1
      refine ⟨cb2, x :: q, ?_, by rw [f2, e2]; simp, by simp [f3], ?_, ?_⟩
      · simp only [corectLoop, e1]; exact f1
      · intro e he
        rcases List.mem_cons.1 he with h | h
        · rw [h]; exact hx
        · exact fq e h
      · intro i hi
        rw [polyMul_cons_getD _ (by simp) x q i]
        cases i with
        | zero =>
          have : gfMul x 1 = x := gfMul_one_right_all x hx
          simp [this]
        | succ j =>
          have hj := f4 j (by omega)
          rw [e3 j] at hj
          have a1 : (j + 1 < (1 :: pol.map (fun p => fieldGalua.getD p 0)).length) ↔ j < E := by
            simp [hE]
          have a3 : (j + 1 < t + 1) ↔ j < t := by omega
          simp only [a1, a3, Nat.add_sub_cancel, Nat.add_one_ne_zero, if_false,
            Nat.add_sub_add_right]
          by_cases hjE : j < E
          · have a2 : (1 :: pol.map (fun p => fieldGalua.getD p 0)).getD (j + 1) 0 =
                fieldGalua.getD (pol.getD j 0) 0 := by
              have hj1 : j < (pol.map (fun p => fieldGalua.getD p 0)).length := by
                rw [List.length_map]; omega
              have hj2 : j < pol.length := by omega
              rw [List.getD_cons_succ, List.getD_eq_getElem _ _ hj1, List.getElem_map,
                List.getD_eq_getElem _ _ hj2]
            rw [if_pos hjE] at hj
            rw [if_pos hjE, a2, Nat.xor_assoc, hj,
              Nat.xor_comm ((x :: rest).getD (j + 1) 0), ← Nat.xor_assoc,
              Nat.xor_self, Nat.zero_xor]
          · rw [if_neg hjE, Nat.xor_zero] at hj
            rw [if_neg hjE, Nat.zero_xor, hj]

set_option maxRecDepth 1000000 in
/-- Every entry of the map `polinom` is the generator polynomial of its degree: the
exponents listed under the key `E` are the logarithms of the coefficients of
`genPoly E` below the leading one. -/
theorem polinom_genPoly : ∀ E ∈ [7, 10, 13, 15, 16, 17, 18, 20, 22, 24, 26, 28, 30],
    (polinom E).length = E ∧ (∀ p ∈ polinom E, p < 255) ∧
    genPoly E = 1 :: (polinom E).map (fun p => fieldGalua.getD p 0) := by
  decide!

theorem byteCorect_mem (lvl : Level) : ∀ v < 40,
    lvl.byteCorect.getD v 0 ∈ [7, 10, 13, 15, 16, 17, 18, 20, 22, 24, 26, 28, 30] := by
  cases lvl <;> decide

theorem corectOne_spec (E : Nat) (pol : List Nat) (hpol : ∀ p ∈ pol, p < 255)
    (hE : E = pol.length) (blk : List Nat) (hblk : ∀ e ∈ blk, e < 256) :
    ∃ cb q, corectOne E pol blk = some cb ∧ cb.length = max blk.length E ∧
      (∀ e ∈ q, e < 256) ∧
      polyMul q (1 :: pol.map (fun p => fieldGalua.getD p 0)) = blk ++ cb.take E := by
  let cb0 := if blk.length > E then blk else blk ++ List.replicate (E - blk.length) 0
  have hcb0 : cb0.length = max blk.length E := by
    show (if blk.length > E then blk else blk ++ List.replicate (E - blk.length) 0).length = _
    split_ifs with h
    · omega
    · simp; omega
  have hget : ∀ i, cb0.getD i 0 = blk.getD i 0 := by
    intro i
    show (if blk.length > E then blk else blk ++ List.replicate (E - blk.length) 0).getD i 0 = _
    split_ifs with h
    · rfl
    · by_cases hi : i < blk.length
      · rw [List.getD_append _ _ _ _ hi]
      · rw [List.getD_append_right _ _ _ _ (by omega), getD_of_length_le blk i (by omega)]
        simp only [List.getD_eq_getElem?_getD, List.getElem?_replicate]
        split_ifs <;> rfl
  have hlt : ∀ e ∈ cb0, e < 256 := by
    intro e he
    obtain ⟨k, hk, rfl⟩ := List.getElem_of_mem he
    rw [← List.getD_eq_getElem _ 0 hk, hget]
    exact getD_lt_of_forall blk 256 (by norm_num) hblk k
  obtain ⟨cb1, q, e1, e2, e3, eq, e4⟩ := corectLoop_spec E pol hpol hE blk.length cb0
    (by omega) (by omega) hlt
  refine ⟨cb1, q, e1, by rw [e2, hcb0], eq, ?_⟩
  have hlen : (polyMul q (1 :: pol.map (fun p => fieldGalua.getD p 0))).length =
      blk.length + E := by
    rw [polyMul_length _ (by simp), e3]; simp; omega
  apply ext_getD
  · rw [hlen]; simp; omega
  · intro i hi
    rw [hlen] at hi
    have h := e4 i hi
    rw [hget] at h
    by_cases hib : i < blk.length
    · rw [if_pos hib, Nat.xor_zero] at h
      rw [h, List.getD_append _ _ _ _ hib]
    · rw [if_neg hib, getD_of_length_le blk i (by omega)] at h
      rw [Nat.xor_eq_zero] at h
      rw [h, List.getD_append_right _ _ _ _ (by omega)]
      have h1 : i - blk.length < (cb1.take E).length := by simp; omega
      have h2 : i - blk.length < cb1.length := by omega
      rw [List.getD_eq_getElem _ _ h1, List.getD_eq_getElem _ _ h2, List.getElem_take]

theorem buildCorectLoop_spec (E : Nat) (pol : List Nat) (byteBlock : List (List Nat))
    (P : List Nat → List Nat → Prop)
    (hP : ∀ blk ∈ byteBlock, ∃ cb, corectOne E pol blk = some cb ∧ P blk cb) :
    ∀ fuel i acc length, i + fuel = byteBlock.length → acc.length = i →
      (∀ k, k < i → P (byteBlock.getD k []) (acc.getD k [])) →
      ∃ cbs len1, buildCorectLoop E pol byteBlock fuel i acc length = some (cbs, len1) ∧
        cbs.length = byteBlock.length ∧
        len1 = length + ((byteBlock.drop i).map (fun b => max b.length E)).sum ∧
        ∀ k, k < byteBlock.length → P (byteBlock.getD k []) (cbs.getD k []) := by
  intro fuel
  induction fuel with
  | zero =>
    intro i acc length h1 h2 h3
    refine ⟨acc, length, rfl, by omega, ?_, ?_⟩
    · rw [List.drop_of_length_le (by omega)]; simp
    · intro k hk; exact h3 k (by omega)
  | succ fuel ih =>
    intro i acc length h1 h2 h3
    have hi : i < byteBlock.length := by omega
    obtain ⟨cb, e1, e2⟩ := hP (byteBlock[i]) (List.getElem_mem _)
    simp only [buildCorectLoop, List.getElem?_eq_getElem hi, e1]
    obtain ⟨cbs, len1, f1, f2, f3, f4⟩ := ih (i + 1) (acc ++ [cb])
      (if byteBlock[i].length > E then length + byteBlock[i].length else length + E)
      (by omega) (by simp [h2]) (by
        intro k hk
        by_cases hki : k < i
        · rw [List.getD_append _ _ _ _ (by omega)]; exact h3 k hki
        · have : k = i := by omega
          subst this
          rw [List.getD_append_right _ _ _ _ (by omega), h2, Nat.sub_self,
            List.getD_eq_getElem _ _ hi]
          exact e2)
    refine ⟨cbs, len1, f1, f2, ?_, f4⟩
    rw [f3, List.drop_eq_getElem_cons hi]
    simp only [List.map_cons, List.sum_cons]
    split_ifs <;> omega

/-- C3: Reed-Solomon correctness. For every version index below 40, each level and every
list of data blocks of bytes (of any length, in particular the lengths the block splitter
produces), `buildCorectBlock` returns, and for each block `d` with `c` the first
`E = byteCorect[version]` entries of its correction array, the polynomial with
coefficients `d ++ c` (highest degree first) over GF(256) with modulus `0x11d` is a
multiple `q * g`, with `q` a polynomial with byte coefficients, of the generator
`g = genPoly E`, the product of `x - alpha^i` for
`i < E` with `alpha = 2`. -/
theorem buildCorectBlock_divisible (lvl : Level) (version : Nat) (hv : version < 40)
    (length : Nat) (byteBlock : List (List Nat))
    (hbytes : ∀ blk ∈ byteBlock, ∀ e ∈ blk, e < 256) :
    ∃ E corectBlock len1,
      lvl.byteCorect[version]? = some E ∧
      buildCorectBlock version byteBlock.length length lvl.byteCorect byteBlock =
        some (E, corectBlock, len1) ∧
      corectBlock.length = byteBlock.length ∧
      ∀ k, k < byteBlock.length →
        ∃ q, (∀ e ∈ q, e < 256) ∧ polyMul q (genPoly E) =
          byteBlock.getD k [] ++ (corectBlock.getD k []).take E := by
  have hlen : lvl.byteCorect.length = 40 := by cases lvl <;> rfl
  have hE : lvl.byteCorect[version]? = some (lvl.byteCorect.getD version 0) :=
    getElem?_eq_some_getD _ _ (by omega)
  obtain ⟨p1, p2, p3⟩ := polinom_genPoly _ (byteCorect_mem lvl version hv)
  generalize lvl.byteCorect.getD version 0 = E at hE p1 p2 p3
  obtain ⟨cbs, len1, f1, f2, _, f4⟩ := buildCorectLoop_spec E (polinom E) byteBlock
    (fun blk cb => ∃ q, (∀ e ∈ q, e < 256) ∧ polyMul q (genPoly E) = blk ++ cb.take E)
    (by
      intro blk hblk
      obtain ⟨cb, q, e1, _, eq, e3⟩ :=
        corectOne_spec E (polinom E) p2 p1.symm blk (hbytes blk hblk)
      exact ⟨cb, e1, q, eq, by rw [p3]; exact e3⟩)
    byteBlock.length 0 [] length (by omega) rfl (by intro k hk; omega)
  refine ⟨E, cbs, len1, hE, ?_, f2, f4⟩
  simp only [buildCorectBlock, hE, f1]

theorem buildCorectBlock_divisible_witness :
    ∃ E corectBlock len1,
      Level.M.byteCorect[0]? = some E ∧
      buildCorectBlock 0 [[64, 84, 132, 84, 196, 196, 242, 194, 4, 132, 20, 37, 34, 16, 236, 17]].length
        0 Level.M.byteCorect
        [[64, 84, 132, 84, 196, 196, 242, 194, 4, 132, 20, 37, 34, 16, 236, 17]] =
        some (E, corectBlock, len1) ∧
      corectBlock.length =
        [[64, 84, 132, 84, 196, 196, 242, 194, 4, 132, 20, 37, 34, 16, 236, 17]].length ∧
      ∀ k, k < [[64, 84, 132, 84, 196, 196, 242, 194, 4, 132, 20, 37, 34, 16, 236, 17]].length →
        ∃ q, (∀ e ∈ q, e < 256) ∧ polyMul q (genPoly E) =
          [[64, 84, 132, 84, 196, 196, 242, 194, 4, 132, 20, 37, 34, 16, 236, 17]].getD k [] ++
            (corectBlock.getD k []).take E :=
  buildCorectBlock_divisible Level.M 0 (by decide) 0
    [[64, 84, 132, 84, 196, 196, 242, 194, 4, 132, 20, 37, 34, 16, 236, 17]] (by decide)

/-! ## Interleaving and the length of the codeword stream -/

set_option maxRecDepth 1000000 in
/-- C4 (failing input): the two bytes "DD" at level M give one data block and the
correction bytes `0, 72, 229, 183, 145, 165, 48, 198, 71, 255`. `groupData` writes the
sixteen data bytes and then skips the correction byte `0`: entry 16 of its result is 72,
and its first 26 entries are not the data bytes followed by the ten correction bytes. -/
theorem groupData_skips_zero_corect :
    howToVersion (utfToBit [68, 68]).1 maxDataM = some (0, 12, false) ∧
    ((addServicesData [68, 68] 0 12 maxDataM (utfToBit [68, 68]).2).bind
        (addVoidData 12 16 0 maxDataM)).bind (buildBlock 0 maxDataM blocksM) =
      some (1, [[64, 36, 68, 64, 236, 17, 236, 17, 236, 17, 236, 17, 236, 17, 236, 17]], 16) ∧
    buildCorectBlock 0 1 16 byteCorectM
      [[64, 36, 68, 64, 236, 17, 236, 17, 236, 17, 236, 17, 236, 17, 236, 17]] =
      some (10, [[0, 72, 229, 183, 145, 165, 48, 198, 71, 255, 0, 0, 0, 0, 0, 0]], 32) ∧
    groupData 32 16 10 [[64, 36, 68, 64, 236, 17, 236, 17, 236, 17, 236, 17, 236, 17, 236, 17]]
      [[0, 72, 229, 183, 145, 165, 48, 198, 71, 255, 0, 0, 0, 0, 0, 0]] =
      some [64, 36, 68, 64, 236, 17, 236, 17, 236, 17, 236, 17, 236, 17, 236, 17,
        72, 229, 183, 145, 165, 48, 198, 71, 255, 0, 0, 0, 0, 0, 0, 0] ∧
    [64, 36, 68, 64, 236, 17, 236, 17, 236, 17, 236, 17, 236, 17, 236, 17,
        72, 229, 183, 145, 165, 48, 198, 71, 255, 0, 0, 0, 0, 0, 0, 0].take 26 ≠
      [64, 36, 68, 64, 236, 17, 236, 17, 236, 17, 236, 17, 236, 17, 236, 17] ++
        [0, 72, 229, 183, 145, 165, 48, 198, 71, 255] := by
  decide!

set_option maxRecDepth 1000000 in
/-- C5 (failing input): for "HELLO" at level M the version index is 1, where
`maxDataM[1]/8 + blocksM[1] * byteCorectM[1] = 28 + 16 = 44`, yet the codeword stream
that `groupData` returns has `8*5 + 28 = 68` entries: the length threaded through
`buildCorectBlock` starts from the bit length of the content and grows by the length of
each working array. -/
theorem QRGenerateData_stream_length :
    (∃ data, QRGenerateData [72, 69, 76, 76, 79] Level.M = Outcome.ok (1, data) ∧
      data.length = 68) ∧
    maxDataM.getD 1 0 / 8 + blocksM.getD 1 0 * byteCorectM.getD 1 0 = 44 := by
  refine ⟨⟨[64, 84, 132, 84, 196, 196, 240, 236, 17, 236, 17, 236, 17, 236, 17, 236, 17, 236,
    17, 236, 17, 236, 17, 236, 17, 236, 17, 236, 44, 155, 252, 69, 156, 252, 232, 245, 113,
    20, 203, 95, 226, 157, 53, 16, 0, 0, 0, 0, 0, 0, 0, 0, 0, 0, 0, 0, 0, 0, 0, 0, 0, 0, 0,
    0, 0, 0, 0, 0], ?_, rfl⟩, rfl⟩
  decide!

/-! ## Framing -/

theorem and_two_pow_ne_zero (c j : Nat) : (c &&& 2 ^ j != 0) = decide (c / 2 ^ j % 2 = 1) := by
  rw [← Nat.testBit_to_div_mod]
  by_cases h : c.testBit j = true
  · rw [h]
    have : (c &&& 2 ^ j).testBit j = true := by
      rw [Nat.testBit_and, h, Nat.testBit_two_pow_self]; rfl
    have hne : c &&& 2 ^ j ≠ 0 := by
      intro h0
      rw [h0] at this
      simp at this
    simpa using hne
  · have hf : c.testBit j = false := by simpa using h
    rw [hf]
    have : c &&& 2 ^ j = 0 := by
      apply Nat.eq_of_testBit_eq
      intro i
      rw [Nat.testBit_and, Nat.testBit_two_pow, Nat.zero_testBit]
      by_cases hij : j = i
      · subst hij; simp [hf]
      · simp [hij]
    simp [this]

theorem bit_value (c j : Nat) : (if (c &&& 2 ^ j != 0) = true then 1 else 0) = c / 2 ^ j % 2 := by
  rw [and_two_pow_ne_zero]
  by_cases h : c / 2 ^ j % 2 = 1
  · simp [h]
  · have : c / 2 ^ j % 2 = 0 := by omega
    simp [this]

theorem byteBits_eq (a : Nat) : byteBits a = bitsBE 8 a := by
  have h : ∀ j, (if (2 ^ j &&& a != 0) = true then 1 else 0) = a / 2 ^ j % 2 := by
    intro j; rw [Nat.and_comm]; exact bit_value a j
  have e7 := h 7
  have e6 := h 6
  have e5 := h 5
  have e4 := h 4
  have e3 := h 3
  have e2 := h 2
  have e1 := h 1
  have e0 := h 0
  simp only [byteBits, bitsBE, List.map, List.range, List.range.loop]
  norm_num at e7 e6 e5 e4 e3 e2 e1 e0 ⊢
  exact ⟨e7, e6, e5, e4, e3, e2, e1, e0⟩

theorem addServicesLoop_spec (c : Nat) :
    ∀ fuel i nd, i + fuel ≤ nd.length →
      ∃ nd1, addServicesLoop c fuel i (2 ^ fuel / 2) nd = some nd1 ∧ nd1.length = nd.length ∧
        ∀ k, nd1.getD k 0 =
          if i ≤ k ∧ k < i + fuel ∧ c / 2 ^ (i + fuel - 1 - k) % 2 = 1 then 1 else nd.getD k 0 := by
  intro fuel
  induction fuel with
  | zero =>
    intro i nd _
    refine ⟨nd, rfl, rfl, ?_⟩
    intro k
    rw [if_neg (by omega)]
  | succ fuel ih =>
    intro i nd h
    have hm : 2 ^ (fuel + 1) / 2 = 2 ^ fuel := by
      rw [Nat.pow_succ, Nat.mul_div_cancel _ (by norm_num)]
    have hs : (2 ^ fuel) >>> 1 = 2 ^ fuel / 2 := by
      rw [Nat.shiftRight_eq_div_pow, Nat.pow_one]
    simp only [addServicesLoop, hm, hs, and_two_pow_ne_zero]
    by_cases hb : c / 2 ^ fuel % 2 = 1
    · have hi : i < nd.length := by omega
      simp only [hb, decide_True, if_true, hi]
      obtain ⟨nd1, e1, e2, e3⟩ := ih (i + 1) (nd.set i 1) (by rw [List.length_set]; omega)
      refine ⟨nd1, e1, by rw [e2, List.length_set], ?_⟩
      intro k
      rw [e3 k, getD_set _ _ _ _ hi]
      by_cases hk : k = i
      · subst hk
        have a : k ≤ k ∧ k < k + (fuel + 1) ∧ c / 2 ^ (k + (fuel + 1) - 1 - k) % 2 = 1 := by
          refine ⟨by omega, by omega, ?_⟩
          have : k + (fuel + 1) - 1 - k = fuel := by omega
          rw [this]; exact hb
        rw [if_neg (by omega), if_pos rfl, if_pos a]
      · have e : i + 1 + fuel - 1 - k = i + (fuel + 1) - 1 - k := by omega
        rw [e, if_neg hk]
        by_cases hc : i + 1 ≤ k ∧ k < i + 1 + fuel ∧ c / 2 ^ (i + (fuel + 1) - 1 - k) % 2 = 1
        · rw [if_pos hc, if_pos ⟨by omega, by omega, hc.2.2⟩]
        · rw [if_neg hc, if_neg]
          intro ⟨a1, a2, a3⟩
          exact hc ⟨by omega, by omega, a3⟩
    · simp only [hb, decide_False, if_false]
      obtain ⟨nd1, e1, e2, e3⟩ := ih (i + 1) nd (by omega)
      refine ⟨nd1, e1, e2, ?_⟩
      intro k
      rw [e3 k]
      have e : i + 1 + fuel - 1 - k = i + (fuel + 1) - 1 - k := by omega
      rw [e]
      by_cases hc : i + 1 ≤ k ∧ k < i + 1 + fuel ∧ c / 2 ^ (i + (fuel + 1) - 1 - k) % 2 = 1
      · rw [if_pos hc, if_pos ⟨by omega, by omega, hc.2.2⟩]
      · rw [if_neg hc, if_neg]
        intro ⟨a1, a2, a3⟩
        by_cases hk : k = i
        · subst hk
          have : k + (fuel + 1) - 1 - k = fuel := by omega
          rw [this] at a3
          exact hb a3
        · exact hc ⟨by omega, by omega, a3⟩

theorem getD_replicate_zero (n k : Nat) : (List.replicate n 0).getD k 0 = 0 := by
  simp only [List.getD_eq_getElem?_getD, List.getElem?_replicate]
  split_ifs <;> rfl

theorem getD_bitsBE (w n j : Nat) (hj : j < w) :
    (bitsBE w n).getD j 0 = n / 2 ^ (w - 1 - j) % 2 := by
  unfold bitsBE
  rw [List.getD_eq_getElem _ _ (by simpa using hj), List.getElem_map, List.getElem_range]

theorem bitsBE_length (w n : Nat) : (bitsBE w n).length = w := by
  simp [bitsBE]

theorem getD_take (l : List Nat) (n k : Nat) (hk : k < n) : (l.take n).getD k 0 = l.getD k 0 := by
  simp only [List.getD_eq_getElem?_getD, List.getElem?_take, hk, if_true]

theorem getD_drop (l : List Nat) (n k : Nat) : (l.drop n).getD k 0 = l.getD (n + k) 0 := by
  simp only [List.getD_eq_getElem?_getD, List.getElem?_drop]

theorem goCopy_replicate (n : Nat) (src : List Nat) (h : src.length ≤ n) :
    goCopy (List.replicate n 0) src = src ++ List.replicate (n - src.length) 0 := by
  unfold goCopy
  rw [List.length_replicate, List.take_of_length_le h, List.drop_replicate]

/-- The frame that `addServicesData` builds, for a count of `lenSystemData - 4` bits and
a payload that fits: mode nibble `0100`, the number of symbols big-endian, the payload
bits, zeros up to the capacity. -/
theorem addServicesData_spec (content : List Nat) (version lsd : Nat) (maxData dataBit : List Nat)
    (cap : Nat) (hcap : maxData[version]? = some cap) (hlsd : 5 ≤ lsd)
    (hfit : lsd + dataBit.length ≤ cap) :
    addServicesData content version lsd maxData dataBit =
      some ([0, 1, 0, 0] ++ bitsBE (lsd - 4) content.length ++ dataBit ++
        List.replicate (cap - (lsd + dataBit.length)) 0) := by
  obtain ⟨nd1, e1, e2, e3⟩ := addServicesLoop_spec content.length (lsd - 4) 4
    ((List.replicate cap 0).set 1 1) (by simp; omega)
  have hmask : 1 <<< (lsd - 4 - 1) = 2 ^ (lsd - 4) / 2 := by
    rw [Nat.one_shiftLeft]
    have : lsd - 4 = (lsd - 4 - 1) + 1 := by omega
    conv_rhs => rw [this, Nat.pow_succ, Nat.mul_div_cancel _ (by norm_num : 0 < 2)]
  have h1 : 1 < (List.replicate cap 0).length := by simp; omega
  have h2 : ¬ (lsd < 4 + 1) := by omega
  have hlen : nd1.length = cap := by rw [e2]; simp
  have h3 : lsd ≤ nd1.length := by omega
  simp only [addServicesData, hcap, h1, if_true, h2, if_false, hmask, e1, h3]
  have hget : ∀ k, nd1.getD k 0 =
      if 4 ≤ k ∧ k < lsd ∧ content.length / 2 ^ (lsd - 1 - k) % 2 = 1 then 1
      else if k = 1 then 1 else 0 := by
    intro k
    rw [e3 k, getD_set _ _ _ _ h1, getD_replicate_zero]
    have a : 4 + (lsd - 4) = lsd := by omega
    rw [a]
  have htail : nd1.drop lsd = List.replicate (cap - lsd) 0 := by
    apply ext_getD
    · simp [hlen]
    · intro k _
      rw [getD_drop, hget, getD_replicate_zero, if_neg (by omega), if_neg (by omega)]
  have hhead : nd1.take lsd = [0, 1, 0, 0] ++ bitsBE (lsd - 4) content.length := by
    apply ext_getD
    · simp [hlen, bitsBE_length]; omega
    · intro k hk
      have hk2 : k < lsd := by simp at hk; omega
      rw [getD_take _ _ _ hk2, hget]
      by_cases h4 : k < 4
      · rw [if_neg (by omega), List.getD_append _ _ _ _ (by simpa using h4)]
        have : k = 0 ∨ k = 1 ∨ k = 2 ∨ k = 3 := by omega
        rcases this with h | h | h | h <;> subst h <;> rfl
      · rw [List.getD_append_right _ _ _ _ (by simp; omega)]
        have hl : ([0, 1, 0, 0] : List Nat).length = 4 := rfl
        rw [hl, getD_bitsBE _ _ _ (by omega)]
        have e : lsd - 4 - 1 - (k - 4) = lsd - 1 - k := by omega
        rw [e]
        by_cases hb : content.length / 2 ^ (lsd - 1 - k) % 2 = 1
        · rw [if_pos ⟨by omega, hk2, hb⟩, hb]
        · rw [if_neg (fun h => hb h.2.2), if_neg (by omega)]
          omega
  have hsub : cap - lsd - dataBit.length = cap - (lsd + dataBit.length) := by omega
  rw [htail, hhead, goCopy_replicate _ _ (by omega), hsub]
  simp only [List.append_assoc]

theorem maxData_length (lvl : Level) : lvl.maxData.length = 40 := by
  cases lvl <;> rfl

theorem maxData_gap20 (lvl : Level) :
    ∀ i < 39, lvl.maxData.getD i 0 + 20 ≤ lvl.maxData.getD (i + 1) 0 := by
  cases lvl <;> decide

theorem maxData_small (lvl : Level) : ∀ i < 9, lvl.maxData.getD i 0 ≤ 2048 := by
  cases lvl <;> decide

theorem maxData_bound (lvl : Level) : ∀ i < 40, lvl.maxData.getD i 0 ≤ 18672 := by
  cases lvl <;> decide

theorem maxData_mod8 (lvl : Level) : ∀ i < 40, lvl.maxData.getD i 0 % 8 = 0 := by
  cases lvl <;> decide

/-- What `howToVersion` returns without error, for a length within the table: an index
below 40, 12 system bits below index 9 and 20 from index 9 on, and room for the system
bits and the payload. -/
theorem howToVersionLoop_frame (t : List Nat) (ht : t.length = 40)
    (hgap : ∀ i < 39, t.getD i 0 + 20 ≤ t.getD (i + 1) 0) (n : Nat) (hn : n ≤ t.getD 39 0)
    (v lsd : Nat) :
    ∀ fuel i, i + fuel = 40 → (∀ j < i, t.getD j 0 < n) →
      howToVersionLoop n t fuel i = some (v, lsd, false) →
      v < 40 ∧ lsd = (if v < 9 then 12 else 20) ∧ lsd + n ≤ t.getD v 0 := by
  intro fuel
  induction fuel with
  | zero =>
    intro i hi hprev _
    have := hprev 39 (by omega)
    omega
  | succ fuel ih =>
    intro i hi hprev hres
    have hi40 : i < 40 := by omega
    simp only [howToVersionLoop, getElem?_of_lt40 t ht i hi40] at hres
    by_cases h1 : n > t.getD i 0
    · simp only [h1, if_true] at hres
      apply ih (i + 1) (by omega) _ hres
      intro j hj
      by_cases hji : j = i
      · subst hji; exact h1
      · exact hprev j (by omega)
    · simp only [h1, if_false] at hres
      have hg : i < 39 → t.getD i 0 + 20 ≤ t.getD (i + 1) 0 := hgap i
      split_ifs at hres <;>
        simp only [Option.some.injEq, Prod.mk.injEq, Bool.false_eq_true, and_false,
          Bool.true_eq_false] at hres <;>
        (try obtain ⟨rfl, rfl, _⟩ := hres) <;>
        (try omega) <;>
        (refine ⟨by omega, ?_, ?_⟩ <;> (try split_ifs) <;> omega)

theorem flatMap_bitsBE_length (l : List Nat) : (l.flatMap (bitsBE 8)).length = 8 * l.length := by
  induction l with
  | nil => rfl
  | cons a l ih =>
    simp only [List.flatMap_cons, List.length_append, List.length_cons, bitsBE_length, ih]
    omega

theorem utfToBit_fst (content : List Nat) : (utfToBit content).1 = 8 * content.length := by
  simp only [utfToBit]; omega

theorem utfToBit_snd (content : List Nat) : (utfToBit content).2 = content.flatMap (bitsBE 8) := by
  simp only [utfToBit]
  congr 1
  funext a
  exact byteBits_eq a

theorem howToVersion_frame (lvl : Level) (n version lsd : Nat)
    (hsel : howToVersion n lvl.maxData = some (version, lsd, false))
    (hin : n ≤ lvl.maxData.getD 39 0) :
    version < 40 ∧ lsd = 4 + countBits (version + 1) ∧ n < 8 * 2 ^ countBits (version + 1) ∧
    lsd + n ≤ lvl.maxData.getD version 0 := by
  obtain ⟨h1, h2, h3⟩ := howToVersionLoop_frame lvl.maxData (maxData_length lvl)
    (maxData_gap20 lvl) n hin version lsd 40 0 (by omega) (by intro j hj; omega) hsel
  refine ⟨h1, ?_, ?_, h3⟩
  · rw [h2]; unfold countBits
    by_cases h : version < 9
    · have : version + 1 ≤ 9 := by omega
      simp [h, this]
    · have : ¬ (version + 1 ≤ 9) := by omega
      simp [h, this]
  · unfold countBits
    by_cases h : version < 9
    · have h9 : version + 1 ≤ 9 := by omega
      have := maxData_small lvl version h
      rw [h2] at h3
      simp only [h, if_true] at h3
      simp only [h9, if_true]
      norm_num
      omega
    · have h9 : ¬ (version + 1 ≤ 9) := by omega
      have := maxData_bound lvl version h1
      rw [h2] at h3
      simp only [h, if_false] at h3
      simp only [h9, if_false]
      norm_num
      omega

/-- Frame header and payload, for a payload within the capacity table: when
`howToVersion` returns `(version, lenSystemData)` without error, `addServicesData`
returns the bits `0,1,0,0`, the number of symbols as an unsigned big-endian number of 8
bits for versions 1..9 and 16 bits for versions 10..40 (the number is below `2^8`,
`2^16`), all payload bits with each byte most significant bit first, and zeros up to
`maxData[version]`; header and payload do not exceed the capacity. -/
theorem addServicesData_frame (lvl : Level) (content : List Nat) (version lsd : Nat)
    (hsel : howToVersion (utfToBit content).1 lvl.maxData = some (version, lsd, false))
    (hin : 8 * content.length ≤ lvl.maxData.getD 39 0) :
    version < 40 ∧ lsd = 4 + countBits (version + 1) ∧
    content.length < 2 ^ countBits (version + 1) ∧
    4 + countBits (version + 1) + 8 * content.length ≤ lvl.maxData.getD version 0 ∧
    addServicesData content version lsd lvl.maxData (utfToBit content).2 =
      some ([0, 1, 0, 0] ++ bitsBE (countBits (version + 1)) content.length ++
        content.flatMap (bitsBE 8) ++
        List.replicate
          (lvl.maxData.getD version 0 - (4 + countBits (version + 1) + 8 * content.length)) 0) := by
  rw [utfToBit_fst] at hsel
  obtain ⟨h1, h2, h3, h4⟩ := howToVersion_frame lvl (8 * content.length) version lsd hsel hin
  refine ⟨h1, h2, by omega, by omega, ?_⟩
  have hcap : lvl.maxData[version]? = some (lvl.maxData.getD version 0) :=
    getElem?_eq_some_getD _ _ (by rw [maxData_length]; exact h1)
  have hc : 1 ≤ countBits (version + 1) := by unfold countBits; split_ifs <;> omega
  rw [utfToBit_snd, addServicesData_spec content version lsd lvl.maxData _ _ hcap (by omega)
    (by rw [flatMap_bitsBE_length]; omega), flatMap_bitsBE_length, h2]
  have e : 4 + countBits (version + 1) - 4 = countBits (version + 1) := by omega
  rw [e, Nat.add_assoc]

theorem addServicesData_frame_witness :
    0 < 40 ∧ 12 = 4 + countBits (0 + 1) ∧
    [68, 68].length < 2 ^ countBits (0 + 1) ∧
    4 + countBits (0 + 1) + 8 * [68, 68].length ≤ Level.M.maxData.getD 0 0 ∧
    addServicesData [68, 68] 0 12 Level.M.maxData (utfToBit [68, 68]).2 =
      some ([0, 1, 0, 0] ++ bitsBE (countBits (0 + 1)) [68, 68].length ++
        [68, 68].flatMap (bitsBE 8) ++
        List.replicate
          (Level.M.maxData.getD 0 0 - (4 + countBits (0 + 1) + 8 * [68, 68].length)) 0) :=
  addServicesData_frame Level.M [68, 68] 0 12 (by decide) (by decide)

/-- C6 (failing input): for a content of 3000 bytes at level M `howToVersion` returns
version index 0 and `lenSystemData` 0 with a nil error, and `addServicesData` then aborts
on the shift `1 << (0 - 4 - 1)` whatever the payload bits: no stream is returned, while
the claim promises the header `0100`, an 8-bit count and 24000 payload bits within
`maxData[0] = 128` bits. -/
theorem addServicesData_oversize_abort :
    howToVersion (8 * 3000) maxDataM = some (0, 0, false) ∧
    (List.replicate 3000 65).length = 3000 ∧
    ∀ dataBit, addServicesData (List.replicate 3000 65) 0 0 maxDataM dataBit = none := by
  refine ⟨by decide, List.length_replicate _ _, ?_⟩
  intro dataBit
  simp only [addServicesData]
  split
  · rfl
  · split_ifs
    · rfl
    · omega
    · rfl

/-! ## Padding -/

theorem alignLoop_spec (x : Nat) : alignLoop 8 x = (x + 7) / 8 * 8 := by
  simp only [alignLoop, bne_iff_ne, ne_eq, ite_not]
  split_ifs <;> omega

theorem setOne_spec (nd : List Nat) (i : Nat) (h : i < nd.length) :
    setOne nd i = some (nd.set i 1) := by
  simp [setOne, h]

theorem padBits_length (n : Nat) : ∀ f, (padBits n f).length = 8 * n := by
  induction n with
  | zero => intro f; rfl
  | succ n ih =>
    intro f
    simp only [padBits, List.length_append, bitsBE_length, ih]
    omega

theorem addVoidLoop_spec (cap : Nat) (hcap : cap % 8 = 0) :
    ∀ fuel i f nd, i % 8 = 0 → nd.length = cap → i ≤ cap → (cap - i) / 8 ≤ fuel →
      (∀ k, i ≤ k → nd.getD k 0 = 0) →
      addVoidLoop cap fuel i f nd = some (nd.take i ++ padBits ((cap - i) / 8) f) := by
  intro fuel
  induction fuel with
  | zero =>
    intro i f nd hi hlen hle hfuel _
    have : i = cap := by omega
    subst this
    simp only [addVoidLoop, Nat.sub_self, Nat.zero_div, padBits, List.append_nil]
    rw [List.take_of_length_le (by omega)]
  | succ fuel ih =>
    intro i f nd hi hlen hle hfuel hz
    by_cases hlt : i < cap
    · have h8 : i + 8 ≤ cap := by omega
      have hn : (cap - i) / 8 = (cap - (i + 8)) / 8 + 1 := by omega
      simp only [addVoidLoop, hlt, if_true]
      cases f with
      | true =>
        simp only [if_true]
        rw [setOne_spec _ _ (by omega)]
        simp only []
        rw [setOne_spec _ _ (by simp; omega)]
        simp only []
        rw [setOne_spec _ _ (by simp; omega)]
        simp only []
        rw [setOne_spec _ _ (by simp; omega)]
        simp only []
        rw [setOne_spec _ _ (by simp; omega)]
        simp only []
        rw [ih (i + 8) false _ (by omega) (by simp [hlen]) h8 (by omega)
          (by
            intro k hk
            rw [getD_set _ _ _ _ (by simp; omega), getD_set _ _ _ _ (by simp; omega),
              getD_set _ _ _ _ (by simp; omega), getD_set _ _ _ _ (by simp; omega),
              getD_set _ _ _ _ (by omega)]
            rw [if_neg (by omega), if_neg (by omega), if_neg (by omega), if_neg (by omega),
              if_neg (by omega)]
            exact hz k (by omega))]
        rw [hn]
        simp only [padBits, Bool.not_true, if_true]
        rw [← List.append_assoc]
        congr 2
        apply ext_getD
        · simp [bitsBE_length]; omega
        · intro k hk
          have hk2 : k < i + 8 := by simp at hk; omega
          rw [getD_take _ _ _ hk2]
          rw [getD_set _ _ _ _ (by simp; omega), getD_set _ _ _ _ (by simp; omega),
              getD_set _ _ _ _ (by simp; omega), getD_set _ _ _ _ (by simp; omega),
              getD_set _ _ _ _ (by omega)]
          by_cases hki : k < i
          · rw [if_neg (by omega), if_neg (by omega), if_neg (by omega), if_neg (by omega),
              if_neg (by omega), List.getD_append _ _ _ _ (by simp; omega),
              getD_take _ _ _ hki]
          · rw [List.getD_append_right _ _ _ _ (by simp; omega)]
            have hl : (nd.take i).length = i := by simp; omega
            rw [hl]
            have : k = i ∨ k = i + 1 ∨ k = i + 2 ∨ k = i + 3 ∨ k = i + 4 ∨ k = i + 5 ∨
                k = i + 6 ∨ k = i + 7 := by omega
            have hb : bitsBE 8 236 = [1, 1, 1, 0, 1, 1, 0, 0] := by decide
            rw [hb]
            have hz1 : ∀ k, i ≤ k → nd[k]?.getD 0 = 0 := by
              intro k hk
              rw [← List.getD_eq_getElem?_getD]; exact hz k hk
            rcases this with h | h | h | h | h | h | h | h <;> subst h <;>
              simp [hz1]
      | false =>
        simp only [Bool.false_eq_true, if_false]
        rw [setOne_spec _ _ (by omega)]
        simp only []
        rw [setOne_spec _ _ (by simp; omega)]
        simp only []
        rw [ih (i + 8) true _ (by omega) (by simp [hlen]) h8 (by omega)
          (by
            intro k hk
            rw [getD_set _ _ _ _ (by simp; omega), getD_set _ _ _ _ (by omega)]
            rw [if_neg (by omega), if_neg (by omega)]
            exact hz k (by omega))]
        rw [hn]
        simp only [padBits, Bool.not_false, Bool.false_eq_true, if_false]
        rw [← List.append_assoc]
        congr 2
        apply ext_getD
        · simp [bitsBE_length]; omega
        · intro k hk
          have hk2 : k < i + 8 := by simp at hk; omega
          rw [getD_take _ _ _ hk2]
          rw [getD_set _ _ _ _ (by simp; omega), getD_set _ _ _ _ (by omega)]
          by_cases hki : k < i
          · rw [if_neg (by omega), if_neg (by omega), List.getD_append _ _ _ _ (by simp; omega),
              getD_take _ _ _ hki]
          · rw [List.getD_append_right _ _ _ _ (by simp; omega)]
            have hl : (nd.take i).length = i := by simp; omega
            rw [hl]
            have : k = i ∨ k = i + 1 ∨ k = i + 2 ∨ k = i + 3 ∨ k = i + 4 ∨ k = i + 5 ∨
                k = i + 6 ∨ k = i + 7 := by omega
            have hb : bitsBE 8 17 = [0, 0, 0, 1, 0, 0, 0, 1] := by decide
            rw [hb]
            have hz1 : ∀ k, i ≤ k → nd[k]?.getD 0 = 0 := by
              intro k hk
              rw [← List.getD_eq_getElem?_getD]; exact hz k hk
            rcases this with h | h | h | h | h | h | h | h <;> subst h <;>
              simp [hz1]
    · have : i = cap := by omega
      subst this
      simp only [addVoidLoop, Nat.lt_irrefl, if_false, Nat.sub_self, Nat.zero_div, padBits,
        List.append_nil]
      rw [List.take_of_length_le (by omega)]

/-- Padding to exact capacity, for a payload within the capacity table: after
`addServicesData` and `addVoidData` the stream is the frame (mode nibble, count, payload),
four zero bits up to the next byte boundary, and then the pad bytes `0xEC, 0x11, 0xEC, ...`
up to the capacity; it has exactly `maxData[version]` bits, a multiple of 8, and
`addVoidData` does not abort. -/
theorem addVoidData_padding (lvl : Level) (content : List Nat) (version lsd : Nat)
    (hsel : howToVersion (utfToBit content).1 lvl.maxData = some (version, lsd, false))
    (hin : 8 * content.length ≤ lvl.maxData.getD 39 0) :
    ∃ nd out, addServicesData content version lsd lvl.maxData (utfToBit content).2 = some nd ∧
      addVoidData lsd (utfToBit content).1 version lvl.maxData nd = some out ∧
      out = [0, 1, 0, 0] ++ bitsBE (countBits (version + 1)) content.length ++
        content.flatMap (bitsBE 8) ++ List.replicate 4 0 ++
        padBits ((lvl.maxData.getD version 0 -
          (4 + countBits (version + 1) + 8 * content.length + 4)) / 8) true ∧
      out.length = lvl.maxData.getD version 0 ∧ lvl.maxData.getD version 0 % 8 = 0 := by
  obtain ⟨h1, h2, _, h4, h5⟩ := addServicesData_frame lvl content version lsd hsel hin
  have hmod := maxData_mod8 lvl version h1
  have hcap : lvl.maxData[version]? = some (lvl.maxData.getD version 0) :=
    getElem?_eq_some_getD _ _ (by rw [maxData_length]; exact h1)
  have hcb : countBits (version + 1) = 8 ∨ countBits (version + 1) = 16 := by
    unfold countBits; split_ifs
    · exact Or.inl rfl
    · exact Or.inr rfl
  generalize hF : [0, 1, 0, 0] ++ bitsBE (countBits (version + 1)) content.length ++
    content.flatMap (bitsBE 8) = frame at h5 ⊢
  have hFl : frame.length = 4 + countBits (version + 1) + 8 * content.length := by
    rw [← hF]
    simp only [List.length_append, bitsBE_length, flatMap_bitsBE_length, List.length_cons,
      List.length_nil]
  generalize hc : lvl.maxData.getD version 0 = cap at *
  generalize hL : 4 + countBits (version + 1) + 8 * content.length = F at *
  have hF4 : F + 4 ≤ cap := by omega
  have halign : alignLoop 8 (lsd + (utfToBit content).1) = F + 4 := by
    rw [alignLoop_spec, utfToBit_fst, h2]; omega
  have hnd : (frame ++ List.replicate (cap - F) 0).length = cap := by
    simp only [List.length_append, List.length_replicate, hFl]; omega
  refine ⟨_, _, h5, ?_, rfl, ?_, hmod⟩
  · simp only [addVoidData, halign, hcap]
    rw [addVoidLoop_spec cap hmod cap (F + 4) true _ (by omega) hnd hF4
      (by omega)
      (by
        intro k hk
        rw [List.getD_append_right _ _ _ _ (by omega), getD_replicate_zero])]
    congr 2
    rw [List.take_append_eq_append_take, List.take_of_length_le (by omega), hFl,
      List.take_replicate]
    congr 2
    omega
  · simp only [List.length_append, List.length_replicate, hFl, padBits_length]
    omega

theorem addVoidData_padding_witness :
    ∃ nd out, addServicesData [68, 68] 0 12 Level.M.maxData (utfToBit [68, 68]).2 = some nd ∧
      addVoidData 12 (utfToBit [68, 68]).1 0 Level.M.maxData nd = some out ∧
      out = [0, 1, 0, 0] ++ bitsBE (countBits (0 + 1)) [68, 68].length ++
        [68, 68].flatMap (bitsBE 8) ++ List.replicate 4 0 ++
        padBits ((Level.M.maxData.getD 0 0 -
          (4 + countBits (0 + 1) + 8 * [68, 68].length + 4)) / 8) true ∧
      out.length = Level.M.maxData.getD 0 0 ∧ Level.M.maxData.getD 0 0 % 8 = 0 :=
  addVoidData_padding Level.M [68, 68] 0 12 (by decide) (by decide)

set_option maxRecDepth 100000 in
/-- C7 (failing input): for a content of 3000 bytes at level M `howToVersion` returns
`(0, 0)` with a nil error, `addServicesData` aborts on the negative shift count, and the
run of `QRGenerate` ends there: no padded stream of `maxData[0]` bits comes out of
`addServicesData` followed by `addVoidData`. -/
theorem addVoidData_oversize_abort :
    howToVersion (utfToBit (List.replicate 3000 65)).1 maxDataM = some (0, 0, false) ∧
    (addServicesData (List.replicate 3000 65) 0 0 maxDataM
      (utfToBit (List.replicate 3000 65)).2).bind
        (addVoidData 0 (utfToBit (List.replicate 3000 65)).1 0 maxDataM) = none ∧
    QRGenerateData (List.replicate 3000 65) Level.M = Outcome.abort := by
  decide!

/-! ## Block splitting -/

theorem getElem?_drop_zero (l : List Nat) (count j : Nat) :
    l[count + j]? = (l.drop count)[j]? := by
  rw [List.getElem?_drop]

theorem readByte_drop (nd : List Nat) (count : Nat) (h : count + 8 ≤ nd.length) :
    ∃ x, readByte nd count = some x ∧
      toBytes (nd.drop count) = x :: toBytes (nd.drop (count + 8)) := by
  have e : nd.drop (count + 8) = (nd.drop count).drop 8 := by
    rw [List.drop_drop, Nat.add_comm]
  have hl : 8 ≤ (nd.drop count).length := by simp; omega
  have g : ∀ j, nd[count + j]? = (nd.drop count)[j]? := getElem?_drop_zero nd count
  have g0 : nd[count]? = (nd.drop count)[0]? := g 0
  simp only [readByte, g, g0, e]
  generalize nd.drop count = l at hl
  match l, hl with
  | b0 :: b1 :: b2 :: b3 :: b4 :: b5 :: b6 :: b7 :: rest, _ =>
    simp only [List.getElem?_cons_succ, List.getElem?_cons_zero]
    refine ⟨_, rfl, ?_⟩
    simp only [toBytes, List.drop_succ_cons, List.drop_zero]
    congr 1
    norm_num [Nat.shiftLeft_eq]
    omega

theorem fillBlock_spec (nd : List Nat) :
    ∀ n count, count + 8 * n ≤ nd.length →
      ∃ blk, fillBlock nd n count = some blk ∧ blk.length = n ∧
        toBytes (nd.drop count) = blk ++ toBytes (nd.drop (count + 8 * n)) := by
  intro n
  induction n with
  | zero => intro count _; exact ⟨[], rfl, rfl, rfl⟩
  | succ n ih =>
    intro count h
    obtain ⟨x, e1, e2⟩ := readByte_drop nd count (by omega)
    obtain ⟨blk, f1, f2, f3⟩ := ih (count + 8) (by omega)
    refine ⟨x :: blk, ?_, by simp [f2], ?_⟩
    · simp only [fillBlock, e1, f1]
    · rw [e2, f3]
      have : count + 8 + 8 * n = count + 8 * (n + 1) := by omega
      rw [this]; rfl

theorem toBytes_length : ∀ (n : Nat) (l : List Nat), l.length = n → (toBytes l).length = n / 8 := by
  intro n
  induction n using Nat.strong_induction_on with
  | _ n ih =>
    intro l hl
    match l, hl with
    | b0 :: b1 :: b2 :: b3 :: b4 :: b5 :: b6 :: b7 :: rest, hl =>
      simp only [toBytes, List.length_cons] at hl ⊢
      rw [ih rest.length (by omega) rest rfl]
      omega
    | [], hl => simp only [toBytes, List.length_nil] at hl ⊢; omega
    | [_], hl => simp only [toBytes, List.length_cons, List.length_nil] at hl ⊢; omega
    | [_, _], hl => simp only [toBytes, List.length_cons, List.length_nil] at hl ⊢; omega
    | [_, _, _], hl => simp only [toBytes, List.length_cons, List.length_nil] at hl ⊢; omega
    | [_, _, _, _], hl => simp only [toBytes, List.length_cons, List.length_nil] at hl ⊢; omega
    | [_, _, _, _, _], hl =>
      simp only [toBytes, List.length_cons, List.length_nil] at hl ⊢; omega
    | [_, _, _, _, _, _], hl =>
      simp only [toBytes, List.length_cons, List.length_nil] at hl ⊢; omega
    | [_, _, _, _, _, _, _], hl =>
      simp only [toBytes, List.length_cons, List.length_nil] at hl ⊢; omega

theorem buildBlockLoop_spec (nd : List Nat) (block size resid : Nat) :
    ∀ fuel i count acc, i + fuel = block →
      count + 8 * ((block - i) * size + (if resid ≥ block - i then block - i else resid))
        ≤ nd.length →
      ∃ blks, buildBlockLoop nd block size resid fuel i count acc = some (acc ++ blks) ∧
        blks.length = fuel ∧
        (∀ j, j < fuel →
          (blks.getD j []).length = if resid ≥ block - (i + j) then size + 1 else size) ∧
        toBytes (nd.drop count) = blks.flatten ++
          toBytes (nd.drop (count +
            8 * ((block - i) * size + (if resid ≥ block - i then block - i else resid)))) := by
  intro fuel
  induction fuel with
  | zero =>
    intro i count acc hi _
    refine ⟨[], by simp [buildBlockLoop], rfl, by intro j hj; omega, ?_⟩
    have : block - i = 0 := by omega
    simp [this]
  | succ fuel ih =>
    intro i count acc hi hroom
    have hB : block - i = (block - (i + 1)) + 1 := by omega
    have hmul : (block - i) * size = (block - (i + 1)) * size + size := by
      rw [hB, Nat.add_mul, Nat.one_mul]
    generalize hn : (if resid ≥ block - i then size + 1 else size) = n
    have hrem : (block - i) * size + (if resid ≥ block - i then block - i else resid) =
        n + ((block - (i + 1)) * size +
          (if resid ≥ block - (i + 1) then block - (i + 1) else resid)) := by
      rw [hmul, ← hn]
      split_ifs <;> omega
    rw [hrem] at hroom ⊢
    obtain ⟨blk, e1, e2, e3⟩ := fillBlock_spec nd n count (by omega)
    obtain ⟨blks, f1, f2, f3, f4⟩ := ih (i + 1) (count + 8 * n) (acc ++ [blk]) (by omega)
      (by omega)
    refine ⟨blk :: blks, ?_, by simp [f2], ?_, ?_⟩
    · simp only [buildBlockLoop, hn, e1, f1, List.append_assoc, List.singleton_append]
    · intro j hj
      cases j with
      | zero => simp only [List.getD_cons_zero, e2, Nat.add_zero, hn]
      | succ j =>
        rw [List.getD_cons_succ, f3 j (by omega)]
        have : i + 1 + j = i + (j + 1) := by omega
        rw [this]
    · rw [e3, f4, List.flatten_cons, List.append_assoc, Nat.add_assoc, ← Nat.mul_add]

theorem blocks_length (lvl : Level) : lvl.blocks.length = 40 := by
  cases lvl <;> rfl

theorem blocks_pos (lvl : Level) : ∀ v < 40, 1 ≤ lvl.blocks.getD v 0 := by
  cases lvl <;> decide

/-- C8: block splitting. For every version index below 40, each level and every bit stream
of exactly `maxData[version]` bits, `buildBlock` returns `B = blocks[version]` blocks and
`size = T / B` with `T = maxData[version] / 8`; the first `B - T mod B` blocks hold `T / B`
codewords and the last `T mod B` blocks one more; the blocks concatenated in order are the
stream read as bytes, most significant bit first, so their lengths sum to `T`. -/
theorem buildBlock_split (lvl : Level) (version : Nat) (hv : version < 40) (newData : List Nat)
    (hlen : newData.length = lvl.maxData.getD version 0) :
    ∃ byteBlock,
      buildBlock version lvl.maxData lvl.blocks newData =
        some (lvl.blocks.getD version 0, byteBlock,
          lvl.maxData.getD version 0 / 8 / lvl.blocks.getD version 0) ∧
      byteBlock.length = lvl.blocks.getD version 0 ∧
      (∀ i, i < lvl.blocks.getD version 0 →
        (byteBlock.getD i []).length =
          if i < lvl.blocks.getD version 0 -
              lvl.maxData.getD version 0 / 8 % lvl.blocks.getD version 0
          then lvl.maxData.getD version 0 / 8 / lvl.blocks.getD version 0
          else lvl.maxData.getD version 0 / 8 / lvl.blocks.getD version 0 + 1) ∧
      byteBlock.flatten = toBytes newData ∧
      (byteBlock.map List.length).sum = lvl.maxData.getD version 0 / 8 := by
  have hB := blocks_pos lvl version hv
  have hmod := maxData_mod8 lvl version hv
  have hcap : lvl.maxData[version]? = some (lvl.maxData.getD version 0) :=
    getElem?_eq_some_getD _ _ (by rw [maxData_length]; exact hv)
  have hblk : lvl.blocks[version]? = some (lvl.blocks.getD version 0) :=
    getElem?_eq_some_getD _ _ (by rw [blocks_length]; exact hv)
  generalize lvl.maxData.getD version 0 = cap at *
  generalize lvl.blocks.getD version 0 = B at *
  have hR : cap / 8 % B < B := Nat.mod_lt _ (by omega)
  have hT : B * (cap / 8 / B) + cap / 8 % B = cap / 8 := Nat.div_add_mod _ _
  have hrem : (B - 0) * (cap / 8 / B) + (if cap / 8 % B ≥ B - 0 then B - 0 else cap / 8 % B)
      = cap / 8 := by
    rw [Nat.sub_zero, if_neg (by omega)]; exact hT
  obtain ⟨blks, e1, e2, e3, e4⟩ := buildBlockLoop_spec newData B (cap / 8 / B) (cap / 8 % B)
    B 0 0 [] (by omega) (by rw [hrem]; omega)
  rw [hrem, List.nil_append] at *
  have hdrop : newData.drop (0 + 8 * (cap / 8)) = [] :=
    List.drop_of_length_le (by omega)
  rw [hdrop] at e4
  have hflat : blks.flatten = toBytes newData := by
    rw [List.drop_zero] at e4
    rw [e4]
    simp [toBytes]
  refine ⟨blks, ?_, e2, ?_, hflat, ?_⟩
  · have hB0 : ¬ (B = 0) := by omega
    simp only [buildBlock, hblk, hcap, hB0, if_false, e1]
  · intro i hi
    rw [e3 i hi, Nat.zero_add]
    split_ifs <;> omega
  · rw [← List.length_flatten, hflat, toBytes_length _ _ hlen]

theorem buildBlock_split_witness :
    ∃ byteBlock,
      buildBlock 0 Level.H.maxData Level.H.blocks (List.replicate 72 1) =
        some (Level.H.blocks.getD 0 0, byteBlock,
          Level.H.maxData.getD 0 0 / 8 / Level.H.blocks.getD 0 0) ∧
      byteBlock.length = Level.H.blocks.getD 0 0 ∧
      (∀ i, i < Level.H.blocks.getD 0 0 →
        (byteBlock.getD i []).length =
          if i < Level.H.blocks.getD 0 0 -
              Level.H.maxData.getD 0 0 / 8 % Level.H.blocks.getD 0 0
          then Level.H.maxData.getD 0 0 / 8 / Level.H.blocks.getD 0 0
          else Level.H.maxData.getD 0 0 / 8 / Level.H.blocks.getD 0 0 + 1) ∧
      byteBlock.flatten = toBytes (List.replicate 72 1) ∧
      (byteBlock.map List.length).sum = Level.H.maxData.getD 0 0 / 8 :=
  buildBlock_split Level.H 0 (by decide) (List.replicate 72 1) (by decide)

/-! ## Data placement: one cell -/

theorem cellAt_set (img : Grid) (row : List Nat) (r c v r1 c1 : Nat)
    (hrow : img[r]? = some row) (hc : c < row.length) :
    cellAt (img.set r (row.set c v)) r1 c1 =
      if r1 = r ∧ c1 = c then v else cellAt img r1 c1 := by
  have hr : r < img.length := by
    by_contra h
    rw [List.getElem?_eq_none (by omega)] at hrow
    cases hrow
  have hrowD : img.getD r [] = row := by
    rw [List.getD_eq_getElem?_getD, hrow]; rfl
  unfold cellAt
  by_cases h1 : r1 = r
  · subst h1
    have : (img.set r1 (row.set c v)).getD r1 [] = row.set c v := by
      rw [List.getD_eq_getElem?_getD, List.getElem?_set]
      simp [hr]
    rw [this, getD_set _ _ _ _ hc, hrowD]
    by_cases h2 : c1 = c
    · simp [h2]
    · simp [h2]
  · have : (img.set r (row.set c v)).getD r1 [] = img.getD r1 [] := by
      rw [List.getD_eq_getElem?_getD, List.getElem?_set, List.getD_eq_getElem?_getD]
      have : ¬ (r = r1) := fun e => h1 e.symm
      simp [this]
    rw [this, if_neg (fun h => h1 h.1)]

/-- The grids on which `write` is run: `n` rows of `n` cells. -/
theorem square_set (n : Nat) (img : Grid) (hrows : img.length = n)
    (hcols : ∀ row ∈ img, row.length = n) (r c v : Nat) (row : List Nat)
    (hrow : img[r]? = some row) :
    (img.set r (row.set c v)).length = n ∧ ∀ row1 ∈ img.set r (row.set c v), row1.length = n := by
  refine ⟨by simp [hrows], ?_⟩
  intro row1 h1
  rcases List.mem_or_eq_of_mem_set h1 with h | h
  · exact hcols _ h
  · rw [h, List.length_set]
    exact hcols _ (List.getElem?_mem hrow)

/-- One cell of the scan on a square grid, for a cell inside the grid: the run does not
abort, the grid stays square, only this cell can change, and the index moves on exactly
when the cell was unset and the buffer is not used up. -/
theorem writeCell_spec (bufBit : List Nat) (n : Nat) (img : Grid) (i r c : Nat)
    (hrows : img.length = n) (hcols : ∀ row ∈ img, row.length = n) (hr : r < n) (hc : c < n) :
    ∃ out j, writeCell bufBit c r 0 (img, i) = some (out, j) ∧
      out.length = n ∧ (∀ row ∈ out, row.length = n) ∧
      (∀ r1 c1, cellAt out r1 c1 =
        if r1 = r ∧ c1 = c ∧ cellAt img r c = 0 then
          masked (if i < bufBit.length then bufBit.getD i 0 else 0) c
        else cellAt img r1 c1) ∧
      j = (if cellAt img r c = 0 ∧ i < bufBit.length then i + 1 else i) := by
  have hr1 : r < img.length := by omega
  have hrow : img[r]? = some img[r] := List.getElem?_eq_getElem hr1
  have hrl : img[r].length = n := hcols _ (List.getElem_mem _)
  have hcell : img[r][c]? = some (img[r].getD c 0) :=
    getElem?_eq_some_getD _ _ (by omega)
  have hcellAt : cellAt img r c = img[r].getD c 0 := by
    unfold cellAt
    rw [List.getD_eq_getElem _ _ hr1]
  simp only [writeCell, Nat.not_lt_zero, if_false, hrow, Nat.sub_zero, hcell]
  by_cases h0 : img[r].getD c 0 = 0
  · simp only [h0, if_true]
    obtain ⟨s1, s2⟩ := square_set n img hrows hcols r c
      (if c % 3 = 0 then
        (if (if bufBit.length > i then bufBit.getD i 0 else 0) = 0 then 1 else 0)
       else (if bufBit.length > i then bufBit.getD i 0 else 0)) img[r] hrow
    refine ⟨_, _, rfl, s1, s2, ?_, ?_⟩
    · intro r1 c1
      rw [cellAt_set img img[r] r c _ r1 c1 hrow (by omega), hcellAt, h0]
      by_cases hh : r1 = r ∧ c1 = c
      · have hh2 : r1 = r ∧ c1 = c ∧ (0 : Nat) = 0 := ⟨hh.1, hh.2, rfl⟩
        rw [if_pos hh, if_pos hh2]
        rfl
      · rw [if_neg hh, if_neg (fun h => hh ⟨h.1, h.2.1⟩)]
    · rw [hcellAt, h0]
      by_cases hb : i < bufBit.length
      · simp [hb]
      · simp [hb]
  · simp only [h0, if_false]
    refine ⟨img, i, rfl, hrows, hcols, ?_, ?_⟩
    · intro r1 c1
      rw [hcellAt, if_neg (fun h => h0 h.2.2)]
    · rw [hcellAt, if_neg (fun h => h0 h.1)]

/-! ## Data placement: a list of distinct cells -/

theorem unsetCount_congr (img out : Grid) (cells : List (Nat × Nat))
    (h : ∀ p ∈ cells, cellAt out p.1 p.2 = cellAt img p.1 p.2) :
    unsetCount out cells = unsetCount img cells := by
  unfold unsetCount
  congr 1
  apply List.filter_congr
  intro p hp
  rw [h p hp]

theorem unsetCount_cons (img : Grid) (p : Nat × Nat) (cells : List (Nat × Nat)) :
    unsetCount img (p :: cells) =
      (if cellAt img p.1 p.2 = 0 then 1 else 0) + unsetCount img cells := by
  unfold unsetCount
  rw [List.filter_cons]
  by_cases h : cellAt img p.1 p.2 = 0
  · simp [h]; omega
  · simp [h]

/-- Visiting a list of distinct cells of a square grid: the run does not abort; a cell of
the list that was unset receives the masked bit whose index is the start index plus the
number of unset cells before it (0 once the buffer is used up); every other cell keeps its
value. -/
theorem placeCells_spec (bufBit : List Nat) (n : Nat) :
    ∀ (cells : List (Nat × Nat)) (img : Grid) (i : Nat),
      img.length = n → (∀ row ∈ img, row.length = n) →
      (∀ p ∈ cells, p.1 < n ∧ p.2 < n) → cells.Nodup →
      ∃ out j, placeCells bufBit cells (img, i) = some (out, j) ∧
        out.length = n ∧ (∀ row ∈ out, row.length = n) ∧
        (∀ t, t < cells.length →
          cellAt out (cells.getD t (0, 0)).1 (cells.getD t (0, 0)).2 =
            if cellAt img (cells.getD t (0, 0)).1 (cells.getD t (0, 0)).2 = 0 then
              masked
                (if i + unsetCount img (cells.take t) < bufBit.length then
                  bufBit.getD (i + unsetCount img (cells.take t)) 0 else 0)
                (cells.getD t (0, 0)).2
            else cellAt img (cells.getD t (0, 0)).1 (cells.getD t (0, 0)).2) ∧
        (∀ r c, (r, c) ∉ cells → cellAt out r c = cellAt img r c) := by
  intro cells
  induction cells with
  | nil =>
    intro img i h1 h2 _ _
    exact ⟨img, i, rfl, h1, h2, by intro t ht; simp at ht, by intro r c _; rfl⟩
  | cons p ps ih =>
    intro img i h1 h2 hin hnd
    obtain ⟨hp1, hp2⟩ := hin p (List.mem_cons_self _ _)
    obtain ⟨out1, j1, e1, e2, e3, e4, e5⟩ := writeCell_spec bufBit n img i p.1 p.2 h1 h2 hp1 hp2
    have hpn : p ∉ ps := (List.nodup_cons.1 hnd).1
    obtain ⟨out, j, f1, f2, f3, f4, f5⟩ := ih out1 j1 e2 e3
      (fun q hq => hin q (List.mem_cons_of_mem _ hq)) (List.nodup_cons.1 hnd).2
    have hsame : ∀ q ∈ ps, cellAt out1 q.1 q.2 = cellAt img q.1 q.2 := by
      intro q hq
      rw [e4 q.1 q.2, if_neg]
      intro ⟨a, b, _⟩
      apply hpn
      have : q = p := Prod.ext a b
      rw [← this]; exact hq
    have key : ∀ u, (if j1 + u < bufBit.length then bufBit.getD (j1 + u) 0 else 0) =
        (if i + ((if cellAt img p.1 p.2 = 0 then 1 else 0) + u) < bufBit.length then
          bufBit.getD (i + ((if cellAt img p.1 p.2 = 0 then 1 else 0) + u)) 0 else 0) := by
      intro u
      rw [e5]
      by_cases hp0 : cellAt img p.1 p.2 = 0
      · by_cases hi : i < bufBit.length
        · have a : cellAt img p.1 p.2 = 0 ∧ i < bufBit.length := ⟨hp0, hi⟩
          have b : i + 1 + u = i + (1 + u) := by omega
          rw [if_pos a, if_pos hp0, b]
        · have a : ¬ (cellAt img p.1 p.2 = 0 ∧ i < bufBit.length) := fun h => hi h.2
          rw [if_neg a, if_pos hp0, if_neg (by omega), if_neg (by omega)]
      · have a : ¬ (cellAt img p.1 p.2 = 0 ∧ i < bufBit.length) := fun h => hp0 h.1
        rw [if_neg a, if_neg hp0, Nat.zero_add]
    refine ⟨out, j, ?_, f2, f3, ?_, ?_⟩
    · simp only [placeCells, e1, f1]
    · intro t ht
      cases t with
      | zero =>
        simp only [List.getD_cons_zero, List.take_zero]
        rw [f5 p.1 p.2 hpn, e4 p.1 p.2]
        have hu : unsetCount img [] = 0 := rfl
        rw [hu, Nat.add_zero]
        by_cases h0 : cellAt img p.1 p.2 = 0
        · rw [if_pos ⟨rfl, rfl, h0⟩, if_pos h0]
        · rw [if_neg (fun h => h0 h.2.2), if_neg h0]
      | succ t =>
        have ht2 : t < ps.length := by simpa using ht
        have hq : ps.getD t (0, 0) ∈ ps := by
          rw [List.getD_eq_getElem _ _ ht2]; exact List.getElem_mem _
        simp only [List.getD_cons_succ, List.take_succ_cons]
        rw [f4 t ht2, hsame _ hq,
          unsetCount_congr img out1 (ps.take t) (fun q hq => hsame q (List.mem_of_mem_take hq)),
          unsetCount_cons, key]
    · intro r c hrc
      have h1 : (r, c) ∉ ps := fun h => hrc (List.mem_cons_of_mem _ h)
      rw [f5 r c h1, e4 r c, if_neg]
      intro ⟨a, b, _⟩
      apply hrc
      have : (r, c) = p := Prod.ext a b
      rw [this]; exact List.mem_cons_self _ _

/-! ## Data placement: the loops of `write` as a visit of the serpentine order -/

theorem placeCells_append (bufBit : List Nat) (a b : List (Nat × Nat)) (st : Grid × Nat) :
    placeCells bufBit (a ++ b) st = (placeCells bufBit a st).bind (placeCells bufBit b) := by
  induction a generalizing st with
  | nil => rfl
  | cons p ps ih =>
    simp only [List.cons_append, placeCells]
    cases writeCell bufBit p.2 p.1 0 st with
    | none => rfl
    | some st1 => exact ih st1

theorem writeCell_length (bufBit : List Nat) (x y k : Nat) (st st1 : Grid × Nat)
    (h : writeCell bufBit x y k st = some st1) : st1.1.length = st.1.length := by
  unfold writeCell at h
  by_cases hk : x < k
  · rw [if_pos hk] at h; cases h
  · rw [if_neg hk] at h
    cases hr : st.1[y]? with
    | none => rw [hr] at h; cases h
    | some row =>
      rw [hr] at h
      simp only [] at h
      cases hc : row[x - k]? with
      | none => rw [hc] at h; cases h
      | some cell =>
        rw [hc] at h
        simp only [] at h
        by_cases h0 : cell = 0
        · rw [if_pos h0] at h
          cases h
          simp
        · rw [if_neg h0] at h
          cases h
          rfl

theorem placeCells_length (bufBit : List Nat) (cells : List (Nat × Nat)) :
    ∀ st st1, placeCells bufBit cells st = some st1 → st1.1.length = st.1.length := by
  induction cells with
  | nil => intro st st1 h; cases h; rfl
  | cons p ps ih =>
    intro st st1 h
    simp only [placeCells] at h
    cases hc : writeCell bufBit p.2 p.1 0 st with
    | none => rw [hc] at h; cases h
    | some st2 =>
      rw [hc] at h
      rw [ih st2 st1 h, writeCell_length _ _ _ _ _ _ hc]

theorem writeCell_one (bufBit : List Nat) (x y : Nat) (hx : 1 ≤ x) (st : Grid × Nat) :
    writeCell bufBit x y 1 st = writeCell bufBit (x - 1) y 0 st := by
  have h1 : ¬ (x < 1) := by omega
  simp only [writeCell, h1, if_false, Nat.not_lt_zero, Nat.sub_zero]

theorem writeRows_eq (bufBit : List Nat) (x : Nat) (hx : 1 ≤ x) (ys : List Nat) :
    ∀ st, writeRows bufBit x ys st =
      placeCells bufBit (ys.flatMap (fun y => [(y, x), (y, x - 1)])) st := by
  induction ys with
  | nil => intro st; rfl
  | cons y ys ih =>
    intro st
    simp only [writeRows, writeRow, List.flatMap_cons, List.cons_append, List.nil_append,
      placeCells, writeCell_one bufBit x y hx]
    cases writeCell bufBit x y 0 st with
    | none => rfl
    | some st1 =>
      simp only []
      cases writeCell bufBit (x - 1) y 0 st1 with
      | none => rfl
      | some st2 => exact ih st2

/-- One strip of `write`: the rows in the order of `direct`, visited as the cells of
`stripCells`. -/
theorem writeRows_strip (bufBit : List Nat) (n x s : Nat) (hx : 1 ≤ x) (st : Grid × Nat)
    (hn : st.1.length = n) :
    writeRows bufBit x (rowOrder st.1.length (decide (s % 2 = 1))) st =
      placeCells bufBit (stripCells n x s) st := by
  rw [writeRows_eq bufBit x hx, hn]
  rfl

theorem decide_succ_odd (s : Nat) : (!decide (s % 2 = 1)) = decide ((s + 1) % 2 = 1) := by
  by_cases h : s % 2 = 1
  · have : ¬ ((s + 1) % 2 = 1) := by omega
    simp [h, this]
  · have : (s + 1) % 2 = 1 := by omega
    simp [h, this]

/-- A strip of `write` at a column `x ≥ 2` other than 6, followed by the rest of the loop. -/
theorem writeLoop_strip (bufBit : List Nat) (n fuel x s : Nat) (hx : 2 ≤ x) (hx6 : x ≠ 6)
    (st : Grid × Nat) (hn : st.1.length = n) :
    writeLoop bufBit (fuel + 1) x (decide (s % 2 = 1)) st =
      (placeCells bufBit (stripCells n x s) st).bind
        (writeLoop bufBit fuel (x - 2) (decide ((s + 1) % 2 = 1))) := by
  have h2 : ¬ (x < 2) := by omega
  simp only [writeLoop, ne_eq, hx6, not_false_eq_true, if_true,
    writeRows_strip bufBit n x s (by omega) st hn, h2, if_false, decide_succ_odd]
  cases placeCells bufBit (stripCells n x s) st <;> rfl

/-- The strips at the columns `8 + 2r, ..., 10, 8`, then the loop at column 6. -/
theorem writeLoop_big (bufBit : List Nat) (n : Nat) :
    ∀ r s fuel (st : Grid × Nat), st.1.length = n →
      writeLoop bufBit (fuel + (r + 1)) (8 + 2 * r) (decide (s % 2 = 1)) st =
        (placeCells bufBit
          ((List.range (r + 1)).flatMap (fun j => stripCells n (8 + 2 * r - 2 * j) (s + j))) st).bind
          (writeLoop bufBit fuel 6 (decide ((s + (r + 1)) % 2 = 1))) := by
  intro r
  induction r with
  | zero =>
    intro s fuel st hn
    have h1 : (List.range (0 + 1)).flatMap (fun j => stripCells n (8 + 2 * 0 - 2 * j) (s + j)) =
        stripCells n 8 s := by
      have : List.range (0 + 1) = [0] := rfl
      rw [this, List.flatMap_cons, List.flatMap_nil, List.append_nil]
      rfl
    rw [h1]
    exact writeLoop_strip bufBit n fuel 8 s (by omega) (by omega) st hn
  | succ r ih =>
    intro s fuel st hn
    have e1 : fuel + (r + 1 + 1) = (fuel + (r + 1)) + 1 := by omega
    rw [e1, writeLoop_strip bufBit n _ _ s (by omega) (by omega) st hn]
    have e2 : (List.range (r + 1 + 1)).flatMap
        (fun j => stripCells n (8 + 2 * (r + 1) - 2 * j) (s + j)) =
        stripCells n (8 + 2 * (r + 1)) s ++
          (List.range (r + 1)).flatMap (fun j => stripCells n (8 + 2 * r - 2 * j) (s + 1 + j)) := by
      rw [List.range_succ_eq_map, List.flatMap_cons, List.flatMap_map]
      congr 1
      apply List.flatMap_congr
      intro j _
      have a : 8 + 2 * (r + 1) - 2 * (j + 1) = 8 + 2 * r - 2 * j := by omega
      have b : s + (j + 1) = s + 1 + j := by omega
      simp only [Function.comp, Nat.succ_eq_add_one, a, b]
    rw [e2, placeCells_append]
    cases hp : placeCells bufBit (stripCells n (8 + 2 * (r + 1)) s) st with
    | none => rfl
    | some st1 =>
      have hn1 : st1.1.length = n := by rw [placeCells_length _ _ _ _ hp, hn]
      have e3 : 8 + 2 * (r + 1) - 2 = 8 + 2 * r := by omega
      have e4 : s + (r + 1 + 1) = s + 1 + (r + 1) := by omega
      simp only [Option.some_bind, e3, e4]
      exact ih (s + 1) fuel st1 hn1

/-- The end of the loop: column 6 is skipped, then the strips at the columns 5, 3 and 1. -/
theorem writeLoop_tail (bufBit : List Nat) (n fuel s : Nat) (st : Grid × Nat)
    (hn : st.1.length = n) :
    writeLoop bufBit (fuel + 4) 6 (decide (s % 2 = 1)) st =
      placeCells bufBit (stripCells n 5 s ++ stripCells n 3 (s + 1) ++ stripCells n 1 (s + 2)) st := by
  have e0 : writeLoop bufBit (fuel + 4) 6 (decide (s % 2 = 1)) st =
      writeLoop bufBit (fuel + 3) 5 (decide (s % 2 = 1)) st := rfl
  rw [e0, writeLoop_strip bufBit n (fuel + 2) 5 s (by omega) (by omega) st hn,
    List.append_assoc, placeCells_append]
  cases hp : placeCells bufBit (stripCells n 5 s) st with
  | none => rfl
  | some st1 =>
    have hn1 : st1.1.length = n := by rw [placeCells_length _ _ _ _ hp, hn]
    simp only [Option.some_bind]
    have e5 : 5 - 2 = 3 := rfl
    rw [e5, writeLoop_strip bufBit n (fuel + 1) 3 (s + 1) (by omega) (by omega) st1 hn1,
      placeCells_append]
    cases hp2 : placeCells bufBit (stripCells n 3 (s + 1)) st1 with
    | none => rfl
    | some st2 =>
      have hn2 : st2.1.length = n := by rw [placeCells_length _ _ _ _ hp2, hn1]
      simp only [Option.some_bind]
      have hd : decide ((s + 1 + 1) % 2 = 1) = decide ((s + 2) % 2 = 1) := rfl
      simp only [writeLoop, ne_eq, show (1 : Nat) ≠ 6 by omega, not_false_eq_true, if_true, hd,
        writeRows_strip bufBit n 1 (s + 2) (by omega) st2 hn2]
      cases placeCells bufBit (stripCells n 1 (s + 2)) st2 <;> simp

/-! ## The serpentine order of a grid of edge `17 + 4v` -/

theorem stripCols_length (v : Nat) : (stripCols (17 + 4 * v)).length = 8 + 2 * v := by
  simp only [stripCols, List.length_append, List.length_map, List.length_range,
    List.length_cons, List.length_nil]
  omega

theorem stripCols_getD (v s : Nat) (hs : s < 5 + 2 * v) :
    (stripCols (17 + 4 * v)).getD s 0 = 16 + 4 * v - 2 * s := by
  have h1 : (17 + 4 * v - 7) / 2 = 5 + 2 * v := by omega
  unfold stripCols
  rw [h1, List.getD_append _ _ _ _ (by simpa using hs),
    List.getD_eq_getElem _ _ (by simpa using hs), List.getElem_map, List.getElem_range]
  omega

theorem stripCols_getD_tail (v t : Nat) :
    (stripCols (17 + 4 * v)).getD (5 + 2 * v + t) 0 = [5, 3, 1].getD t 0 := by
  have h1 : (17 + 4 * v - 7) / 2 = 5 + 2 * v := by omega
  unfold stripCols
  rw [h1, List.getD_append_right _ _ _ _ (by simp)]
  congr 1
  simp

theorem serpentine_eq (v : Nat) :
    serpentine (17 + 4 * v) =
      (List.range (4 + 2 * v + 1)).flatMap
        (fun j => stripCells (17 + 4 * v) (8 + 2 * (4 + 2 * v) - 2 * j) (0 + j)) ++
      (stripCells (17 + 4 * v) 5 (5 + 2 * v) ++ stripCells (17 + 4 * v) 3 (5 + 2 * v + 1) ++
        stripCells (17 + 4 * v) 1 (5 + 2 * v + 2)) := by
  unfold serpentine
  have h1 : 8 + 2 * v = (5 + 2 * v) + 3 := by omega
  have h2 : 4 + 2 * v + 1 = 5 + 2 * v := by omega
  rw [stripCols_length, h1, List.range_add, List.flatMap_append, h2]
  congr 1
  · apply List.flatMap_congr
    intro s hs
    rw [stripCols_getD v s (by simpa using hs)]
    have a : 16 + 4 * v - 2 * s = 8 + 2 * (4 + 2 * v) - 2 * s := by omega
    rw [a, Nat.zero_add]
  · have h3 : List.range 3 = [0, 1, 2] := rfl
    have t0 := stripCols_getD_tail v 0
    rw [Nat.add_zero] at t0
    simp only [h3, List.map_cons, List.map_nil, List.flatMap_cons, List.flatMap_nil,
      List.append_nil, stripCols_getD_tail, Nat.add_zero, List.append_assoc, t0]
    rfl

/-- On a grid of edge `17 + 4v`, `write` is the visit of the cells in serpentine order,
starting with bit 0 of the buffer. -/
theorem write_eq_placeCells (v : Nat) (img : Grid) (data : List Nat)
    (hn : img.length = 17 + 4 * v) :
    write img data =
      (placeCells (bufBitOf data) (serpentine (17 + 4 * v)) (img, 0)).map (fun st => st.1) := by
  have h0 : ¬ (img.length = 0) := by omega
  have e1 : img.length = (12 + 2 * v) + (4 + 2 * v + 1) := by omega
  have e2 : img.length - 1 = 8 + 2 * (4 + 2 * v) := by omega
  have hd : false = decide (0 % 2 = 1) := rfl
  simp only [write, h0, if_false]
  rw [e2]
  conv_lhs => rw [e1, hd]
  rw [writeLoop_big (bufBitOf data) (17 + 4 * v) (4 + 2 * v) 0 (12 + 2 * v) (img, 0) hn,
    serpentine_eq, placeCells_append]
  cases hp : placeCells (bufBitOf data)
      ((List.range (4 + 2 * v + 1)).flatMap
        (fun j => stripCells (17 + 4 * v) (8 + 2 * (4 + 2 * v) - 2 * j) (0 + j))) (img, 0) with
  | none => rfl
  | some st1 =>
    have hn1 : st1.1.length = 17 + 4 * v := by rw [placeCells_length _ _ _ _ hp]; exact hn
    have e3 : 12 + 2 * v = (8 + 2 * v) + 4 := by omega
    have e4 : 0 + (4 + 2 * v + 1) = 5 + 2 * v := by omega
    simp only [Option.some_bind]
    rw [e3, e4, writeLoop_tail (bufBitOf data) (17 + 4 * v) (8 + 2 * v) (5 + 2 * v) st1 hn1]
    cases placeCells (bufBitOf data) (stripCells (17 + 4 * v) 5 (5 + 2 * v) ++
      stripCells (17 + 4 * v) 3 (5 + 2 * v + 1) ++ stripCells (17 + 4 * v) 1 (5 + 2 * v + 2)) st1 <;>
      rfl

theorem mem_rowOrder (n : Nat) (d : Bool) (y : Nat) : y ∈ rowOrder n d ↔ y < n := by
  unfold rowOrder
  cases d <;> simp

theorem nodup_rowOrder (n : Nat) (d : Bool) : (rowOrder n d).Nodup := by
  unfold rowOrder
  cases d
  · simpa using List.nodup_reverse.2 (List.nodup_range n)
  · simpa using List.nodup_range n

theorem mem_stripCells (n x s : Nat) (p : Nat × Nat) :
    p ∈ stripCells n x s ↔ p.1 < n ∧ (p.2 = x ∨ p.2 = x - 1) := by
  unfold stripCells
  rw [List.mem_flatMap]
  constructor
  · rintro ⟨y, hy, hp⟩
    rw [mem_rowOrder] at hy
    simp only [List.mem_cons, List.mem_singleton, List.not_mem_nil, or_false] at hp
    rcases hp with h | h <;> subst h
    · exact ⟨hy, Or.inl rfl⟩
    · exact ⟨hy, Or.inr rfl⟩
  · rintro ⟨h1, h2⟩
    refine ⟨p.1, (mem_rowOrder _ _ _).2 h1, ?_⟩
    simp only [List.mem_cons, List.mem_singleton, List.not_mem_nil, or_false]
    rcases h2 with h | h
    · exact Or.inl (Prod.ext rfl h)
    · exact Or.inr (Prod.ext rfl h)

theorem nodup_stripCells (n x s : Nat) (hx : 1 ≤ x) : (stripCells n x s).Nodup := by
  unfold stripCells
  rw [List.nodup_flatMap]
  constructor
  · intro y _
    have : (y, x) ≠ (y, x - 1) := by
      intro h
      have := congrArg Prod.snd h
      simp at this
      omega
    simp [this]
  · apply List.Pairwise.imp _ (nodup_rowOrder n _)
    intro a b hab
    simp only [Function.onFun]
    intro p h1 h2
    simp only [List.mem_cons, List.mem_singleton, List.not_mem_nil, or_false] at h1 h2
    apply hab
    rcases h1 with h | h <;> rcases h2 with g | g <;> rw [h] at g <;>
      exact (congrArg Prod.fst g)

/-- The right column of the `s`-th strip of a grid of edge `17 + 4v`. -/
theorem stripCols_cases (v s : Nat) (hs : s < 8 + 2 * v) :
    (s < 5 + 2 * v ∧ (stripCols (17 + 4 * v)).getD s 0 = 16 + 4 * v - 2 * s) ∨
    (s = 5 + 2 * v ∧ (stripCols (17 + 4 * v)).getD s 0 = 5) ∨
    (s = 6 + 2 * v ∧ (stripCols (17 + 4 * v)).getD s 0 = 3) ∨
    (s = 7 + 2 * v ∧ (stripCols (17 + 4 * v)).getD s 0 = 1) := by
  by_cases h : s < 5 + 2 * v
  · exact Or.inl ⟨h, stripCols_getD v s h⟩
  · have : s = 5 + 2 * v + 0 ∨ s = 5 + 2 * v + 1 ∨ s = 5 + 2 * v + 2 := by omega
    rcases this with h | h | h <;> rw [h, stripCols_getD_tail]
    · exact Or.inr (Or.inl ⟨by omega, rfl⟩)
    · exact Or.inr (Or.inr (Or.inl ⟨by omega, rfl⟩))
    · exact Or.inr (Or.inr (Or.inr ⟨by omega, rfl⟩))

theorem mem_serpentine (v : Nat) (p : Nat × Nat) :
    p ∈ serpentine (17 + 4 * v) ↔
      ∃ s, s < 8 + 2 * v ∧ p.1 < 17 + 4 * v ∧
        (p.2 = (stripCols (17 + 4 * v)).getD s 0 ∨
          p.2 = (stripCols (17 + 4 * v)).getD s 0 - 1) := by
  unfold serpentine
  rw [List.mem_flatMap, stripCols_length]
  constructor
  · rintro ⟨s, hs, hp⟩
    exact ⟨s, by simpa using hs, (mem_stripCells _ _ _ _).1 hp⟩
  · rintro ⟨s, hs, hp⟩
    exact ⟨s, by simpa using hs, (mem_stripCells _ _ _ _).2 hp⟩

/-- The cells of the serpentine order of a grid of edge `17 + 4v` are exactly the cells
of the grid outside column 6. -/
theorem mem_serpentine_iff (v : Nat) (p : Nat × Nat) :
    p ∈ serpentine (17 + 4 * v) ↔ p.1 < 17 + 4 * v ∧ p.2 < 17 + 4 * v ∧ p.2 ≠ 6 := by
  rw [mem_serpentine]
  constructor
  · rintro ⟨s, hs, h1, h2⟩
    rcases stripCols_cases v s hs with ⟨a, b⟩ | ⟨a, b⟩ | ⟨a, b⟩ | ⟨a, b⟩ <;> rw [b] at h2 <;>
      omega
  · rintro ⟨h1, h2, h3⟩
    by_cases h7 : 7 ≤ p.2
    · refine ⟨(16 + 4 * v - p.2) / 2, by omega, h1, ?_⟩
      rw [stripCols_getD v _ (by omega)]
      omega
    · have : p.2 = 5 ∨ p.2 = 4 ∨ p.2 = 3 ∨ p.2 = 2 ∨ p.2 = 1 ∨ p.2 = 0 := by omega
      have t0 := stripCols_getD_tail v 0
      have t1 := stripCols_getD_tail v 1
      have t2 := stripCols_getD_tail v 2
      have e0 : [5, 3, 1].getD 0 0 = 5 := rfl
      have e1 : [5, 3, 1].getD 1 0 = 3 := rfl
      have e2 : [5, 3, 1].getD 2 0 = 1 := rfl
      rw [e0] at t0
      rw [e1] at t1
      rw [e2] at t2
      rcases this with h | h | h | h | h | h
      · exact ⟨5 + 2 * v + 0, by omega, h1, by rw [t0]; omega⟩
      · exact ⟨5 + 2 * v + 0, by omega, h1, by rw [t0]; omega⟩
      · exact ⟨5 + 2 * v + 1, by omega, h1, by rw [t1]; omega⟩
      · exact ⟨5 + 2 * v + 1, by omega, h1, by rw [t1]; omega⟩
      · exact ⟨5 + 2 * v + 2, by omega, h1, by rw [t2]; omega⟩
      · exact ⟨5 + 2 * v + 2, by omega, h1, by rw [t2]; omega⟩

theorem nodup_serpentine (v : Nat) : (serpentine (17 + 4 * v)).Nodup := by
  unfold serpentine
  rw [List.nodup_flatMap, stripCols_length]
  constructor
  · intro s hs
    apply nodup_stripCells
    rcases stripCols_cases v s (by simpa using hs) with ⟨a, b⟩ | ⟨a, b⟩ | ⟨a, b⟩ | ⟨a, b⟩ <;>
      rw [b] <;> omega
  · apply List.Pairwise.imp_of_mem _ (List.pairwise_lt_range (8 + 2 * v))
    intro a b ha hb hab
    simp only [Function.onFun]
    intro p h1 h2
    rw [mem_stripCells] at h1 h2
    have ha2 : a < 8 + 2 * v := by simpa using ha
    have hb2 : b < 8 + 2 * v := by simpa using hb
    rcases stripCols_cases v a ha2 with ⟨a1, a2⟩ | ⟨a1, a2⟩ | ⟨a1, a2⟩ | ⟨a1, a2⟩ <;>
      rcases stripCols_cases v b hb2 with ⟨b1, b2⟩ | ⟨b1, b2⟩ | ⟨b1, b2⟩ | ⟨b1, b2⟩ <;>
      rw [a2] at h1 <;> rw [b2] at h2 <;> omega

/-! ## Data placement: the result of `write` -/

theorem bufBitOf_length (data : List Nat) : (bufBitOf data).length = 8 * data.length := by
  unfold bufBitOf
  have : (fun a => byteBits a) = (fun a => bitsBE 8 a) := funext byteBits_eq
  rw [show byteBits = (fun a => bitsBE 8 a) from this]
  exact flatMap_bitsBE_length data

/-- Bit `k` of the buffer is bit `7 - k mod 8` of codeword `k / 8`: the codewords are
expanded most significant bit first. -/
theorem bufBitOf_getD (data : List Nat) :
    ∀ k, k < 8 * data.length →
      (bufBitOf data).getD k 0 = data.getD (k / 8) 0 / 2 ^ (7 - k % 8) % 2 := by
  induction data with
  | nil => intro k hk; simp at hk
  | cons a l ih =>
    intro k hk
    have e : bufBitOf (a :: l) = bitsBE 8 a ++ bufBitOf l := by
      simp only [bufBitOf, List.flatMap_cons, byteBits_eq]
    rw [e]
    by_cases h8 : k < 8
    · rw [List.getD_append _ _ _ _ (by rw [bitsBE_length]; exact h8), getD_bitsBE _ _ _ h8]
      have h1 : k / 8 = 0 := by omega
      have h2 : k % 8 = k := by omega
      rw [h1, h2, List.getD_cons_zero]
    · rw [List.getD_append_right _ _ _ _ (by rw [bitsBE_length]; omega), bitsBE_length,
        ih (k - 8) (by simp at hk; omega)]
      have h1 : k / 8 = (k - 8) / 8 + 1 := by omega
      have h2 : k % 8 = (k - 8) % 8 := by omega
      rw [h1, h2, List.getD_cons_succ]

/-- The result of `write` on a grid of edge `17 + 4v`, cell by cell: the run does not
abort, the grid keeps its shape, the `t`-th cell of the serpentine order, if it was unset,
holds the masked value of the buffer bit whose index is the number of unset cells before
it (of 0 once the buffer is used up), and every other cell is unchanged. -/
theorem write_cells (v : Nat) (img : Grid) (data : List Nat)
    (hrows : img.length = 17 + 4 * v) (hcols : ∀ row ∈ img, row.length = 17 + 4 * v) :
    ∃ out, write img data = some out ∧
      out.length = 17 + 4 * v ∧ (∀ row ∈ out, row.length = 17 + 4 * v) ∧
      (∀ t, t < (serpentine (17 + 4 * v)).length →
        cellAt out ((serpentine (17 + 4 * v)).getD t (0, 0)).1
            ((serpentine (17 + 4 * v)).getD t (0, 0)).2 =
          if cellAt img ((serpentine (17 + 4 * v)).getD t (0, 0)).1
              ((serpentine (17 + 4 * v)).getD t (0, 0)).2 = 0 then
            masked
              (if unsetCount img ((serpentine (17 + 4 * v)).take t) < 8 * data.length then
                (bufBitOf data).getD (unsetCount img ((serpentine (17 + 4 * v)).take t)) 0
               else 0)
              ((serpentine (17 + 4 * v)).getD t (0, 0)).2
          else cellAt img ((serpentine (17 + 4 * v)).getD t (0, 0)).1
              ((serpentine (17 + 4 * v)).getD t (0, 0)).2) ∧
      (∀ r c, (r, c) ∉ serpentine (17 + 4 * v) → cellAt out r c = cellAt img r c) := by
  obtain ⟨out, j, e1, e2, e3, e4, e5⟩ := placeCells_spec (bufBitOf data) (17 + 4 * v)
    (serpentine (17 + 4 * v)) img 0 hrows hcols
    (fun p hp => by
      have := (mem_serpentine_iff v p).1 hp
      exact ⟨this.1, this.2.1⟩)
    (nodup_serpentine v)
  refine ⟨out, ?_, e2, e3, ?_, e5⟩
  · rw [write_eq_placeCells v img data hrows, e1]; rfl
  · intro t ht
    have := e4 t ht
    rw [Nat.zero_add, bufBitOf_length] at this
    exact this

/-- C9: data placement and mask. On every grid of edge `N = 17 + 4v` and for every
codeword stream, `write` returns; the cells it visits, in order, are those of
`serpentine N`: the strips with right columns `N-1, N-3, ..., 8, 5, 3, 1`, the first bottom
to top and then alternating, in each row the right cell before the left; these are all the
cells outside column 6, each once (`write` is the visit of that list of cells, one
`writeCell` after the other). The `k`-th unset cell in that order receives bit `k` of
the stream (bit `7 - k mod 8` of codeword `k / 8`), inverted exactly when its column is
divisible by 3; cells that were not unset, and the cells of column 6, keep their value and
take no bit. -/
theorem write_serpentine (v : Nat) (img : Grid) (data : List Nat)
    (hrows : img.length = 17 + 4 * v) (hcols : ∀ row ∈ img, row.length = 17 + 4 * v) :
    ∃ out, write img data = some out ∧
      (placeCells (bufBitOf data) (serpentine (17 + 4 * v)) (img, 0)).map (fun st => st.1) =
        some out ∧
      stripCols (17 + 4 * v) =
        (List.range (5 + 2 * v)).map (fun s => 17 + 4 * v - 1 - 2 * s) ++ [5, 3, 1] ∧
      (serpentine (17 + 4 * v)).Nodup ∧
      (∀ r c, (r, c) ∈ serpentine (17 + 4 * v) ↔ r < 17 + 4 * v ∧ c < 17 + 4 * v ∧ c ≠ 6) ∧
      (∀ t, t < (serpentine (17 + 4 * v)).length →
        (cellAt img ((serpentine (17 + 4 * v)).getD t (0, 0)).1
            ((serpentine (17 + 4 * v)).getD t (0, 0)).2 = 0 →
          unsetCount img ((serpentine (17 + 4 * v)).take t) < 8 * data.length →
          cellAt out ((serpentine (17 + 4 * v)).getD t (0, 0)).1
              ((serpentine (17 + 4 * v)).getD t (0, 0)).2 =
            masked
              (data.getD (unsetCount img ((serpentine (17 + 4 * v)).take t) / 8) 0 /
                2 ^ (7 - unsetCount img ((serpentine (17 + 4 * v)).take t) % 8) % 2)
              ((serpentine (17 + 4 * v)).getD t (0, 0)).2) ∧
        (cellAt img ((serpentine (17 + 4 * v)).getD t (0, 0)).1
            ((serpentine (17 + 4 * v)).getD t (0, 0)).2 ≠ 0 →
          cellAt out ((serpentine (17 + 4 * v)).getD t (0, 0)).1
              ((serpentine (17 + 4 * v)).getD t (0, 0)).2 =
            cellAt img ((serpentine (17 + 4 * v)).getD t (0, 0)).1
              ((serpentine (17 + 4 * v)).getD t (0, 0)).2)) ∧
      (∀ r, cellAt out r 6 = cellAt img r 6) := by
  obtain ⟨out, e1, _, _, e4, e5⟩ := write_cells v img data hrows hcols
  refine ⟨out, e1, ?_, ?_, nodup_serpentine v, fun r c => mem_serpentine_iff v (r, c), ?_, ?_⟩
  · rw [← write_eq_placeCells v img data hrows, e1]
  · have h1 : (17 + 4 * v - 7) / 2 = 5 + 2 * v := by omega
    simp only [stripCols, h1]
  · intro t ht
    constructor
    · intro h0 hk
      rw [e4 t ht, if_pos h0, if_pos hk, bufBitOf_getD data _ hk]
    · intro h0
      rw [e4 t ht, if_neg h0]
  · intro r
    apply e5
    intro h
    have := (mem_serpentine_iff v (r, 6)).1 h
    exact this.2.2 rfl

theorem write_serpentine_witness :
    ∃ out, write (List.replicate 21 (List.replicate 21 0)) [255] = some out ∧
      (placeCells (bufBitOf [255]) (serpentine (17 + 4 * 1))
        (List.replicate 21 (List.replicate 21 0), 0)).map (fun st => st.1) = some out ∧
      stripCols (17 + 4 * 1) =
        (List.range (5 + 2 * 1)).map (fun s => 17 + 4 * 1 - 1 - 2 * s) ++ [5, 3, 1] ∧
      (serpentine (17 + 4 * 1)).Nodup ∧
      (∀ r c, (r, c) ∈ serpentine (17 + 4 * 1) ↔ r < 17 + 4 * 1 ∧ c < 17 + 4 * 1 ∧ c ≠ 6) ∧
      (∀ t, t < (serpentine (17 + 4 * 1)).length →
        (cellAt (List.replicate 21 (List.replicate 21 0))
            ((serpentine (17 + 4 * 1)).getD t (0, 0)).1
            ((serpentine (17 + 4 * 1)).getD t (0, 0)).2 = 0 →
          unsetCount (List.replicate 21 (List.replicate 21 0))
            ((serpentine (17 + 4 * 1)).take t) < 8 * [255].length →
          cellAt out ((serpentine (17 + 4 * 1)).getD t (0, 0)).1
              ((serpentine (17 + 4 * 1)).getD t (0, 0)).2 =
            masked
              ([255].getD (unsetCount (List.replicate 21 (List.replicate 21 0))
                  ((serpentine (17 + 4 * 1)).take t) / 8) 0 /
                2 ^ (7 - unsetCount (List.replicate 21 (List.replicate 21 0))
                  ((serpentine (17 + 4 * 1)).take t) % 8) % 2)
              ((serpentine (17 + 4 * 1)).getD t (0, 0)).2) ∧
        (cellAt (List.replicate 21 (List.replicate 21 0))
            ((serpentine (17 + 4 * 1)).getD t (0, 0)).1
            ((serpentine (17 + 4 * 1)).getD t (0, 0)).2 ≠ 0 →
          cellAt out ((serpentine (17 + 4 * 1)).getD t (0, 0)).1
              ((serpentine (17 + 4 * 1)).getD t (0, 0)).2 =
            cellAt (List.replicate 21 (List.replicate 21 0))
              ((serpentine (17 + 4 * 1)).getD t (0, 0)).1
              ((serpentine (17 + 4 * 1)).getD t (0, 0)).2)) ∧
      (∀ r, cellAt out r 6 = cellAt (List.replicate 21 (List.replicate 21 0)) r 6) :=
  write_serpentine 1 (List.replicate 21 (List.replicate 21 0)) [255] (by decide) (by decide)

/-- C10 (as amended): exhausted data. On every grid of edge `17 + 4v`, every unset cell
that `write` reaches when the stream is used up (at least `8 * len(data)` unset cells come
before it in the serpentine order) receives the masked zero bit: the value 1 (dark) when
its column is divisible by 3, the value 0 (light) otherwise. -/
theorem write_exhausted (v : Nat) (img : Grid) (data : List Nat)
    (hrows : img.length = 17 + 4 * v) (hcols : ∀ row ∈ img, row.length = 17 + 4 * v) :
    ∃ out, write img data = some out ∧
      ∀ t, t < (serpentine (17 + 4 * v)).length →
        cellAt img ((serpentine (17 + 4 * v)).getD t (0, 0)).1
          ((serpentine (17 + 4 * v)).getD t (0, 0)).2 = 0 →
        8 * data.length ≤ unsetCount img ((serpentine (17 + 4 * v)).take t) →
        cellAt out ((serpentine (17 + 4 * v)).getD t (0, 0)).1
            ((serpentine (17 + 4 * v)).getD t (0, 0)).2 =
          if ((serpentine (17 + 4 * v)).getD t (0, 0)).2 % 3 = 0 then 1 else 0 := by
  obtain ⟨out, e1, _, _, e4, _⟩ := write_cells v img data hrows hcols
  refine ⟨out, e1, ?_⟩
  intro t ht h0 hk
  rw [e4 t ht, if_pos h0, if_neg (by omega)]
  rfl

theorem write_exhausted_witness :
    ∃ out, write (List.replicate 21 (List.replicate 21 0)) [] = some out ∧
      ∀ t, t < (serpentine (17 + 4 * 1)).length →
        cellAt (List.replicate 21 (List.replicate 21 0))
          ((serpentine (17 + 4 * 1)).getD t (0, 0)).1
          ((serpentine (17 + 4 * 1)).getD t (0, 0)).2 = 0 →
        8 * ([] : List Nat).length ≤
          unsetCount (List.replicate 21 (List.replicate 21 0)) ((serpentine (17 + 4 * 1)).take t) →
        cellAt out ((serpentine (17 + 4 * 1)).getD t (0, 0)).1
            ((serpentine (17 + 4 * 1)).getD t (0, 0)).2 =
          if ((serpentine (17 + 4 * 1)).getD t (0, 0)).2 % 3 = 0 then 1 else 0 :=
  write_exhausted 1 (List.replicate 21 (List.replicate 21 0)) [] (by decide) (by decide)

set_option maxRecDepth 1000000 in
/-- C10 as stated fails: on the unset grid of edge 21 with an empty stream, the stream is
used up from the start; the cell in row 20 and column 18 is unset, `write` reaches it and
stores 1 there, an odd value: the cell is dark, not light. -/
theorem write_exhausted_dark :
    cellAt (List.replicate 21 (List.replicate 21 0)) 20 18 = 0 ∧
    (write (List.replicate 21 (List.replicate 21 0)) []).map (fun out => cellAt out 20 18) =
      some 1 ∧
    (write (List.replicate 21 (List.replicate 21 0)) []).map (fun out => cellAt out 20 18 % 2) =
      some 1 := by
  decide!

/-! ## The field tables and the format words -/

set_option maxRecDepth 100000 in
theorem gfMul_two_all : ∀ a < 256, gfMul a 2 = gfDouble a := by
  decide!

set_option maxRecDepth 100000 in
theorem fieldGalua_succ_all : ∀ i < 255,
    fieldGalua.getD (i + 1) 0 = gfDouble (fieldGalua.getD i 0) := by
  decide!

set_option maxRecDepth 100000 in
theorem fieldGalua_lt_all : ∀ i < 256, fieldGalua.getD i 0 < 256 := by
  decide!

set_option maxRecDepth 100000 in
theorem reversefieldGalua_fieldGalua_all : ∀ i < 255,
    reversefieldGalua.getD (fieldGalua.getD i 0) 0 = i := by
  decide!

theorem fieldGalua_eq_gfPow (i : Nat) (hi : i < 256) : fieldGalua.getD i 0 = gfPow 2 i := by
  induction i with
  | zero => decide
  | succ i ih =>
    rw [fieldGalua_succ_all i (by omega), gfPow, ← ih (by omega),
      gfMul_two_all _ (fieldGalua_lt_all i (by omega))]

/-- C20: the table `fieldGalua` has 256 entries and entry `i` is `alpha^i` in GF(256)
with `alpha = 2` and the modulus `0x11d`, for every `i` in 0..255: the first entry is 1
and every entry is the one before it doubled and reduced; `reversefieldGalua` is its
inverse: `fieldGalua[reversefieldGalua[a]] = a` for `a` in 1..255 and
`reversefieldGalua[fieldGalua[i]] = i` for `i` in 0..254. -/
theorem fieldGalua_powers :
    fieldGalua.length = 256 ∧ reversefieldGalua.length = 256 ∧
    (∀ i, i < 256 → fieldGalua.getD i 0 = gfPow 2 i) ∧
    fieldGalua.getD 0 0 = 1 ∧
    (∀ i, i < 255 → fieldGalua.getD (i + 1) 0 = gfDouble (fieldGalua.getD i 0)) ∧
    (∀ a, 1 ≤ a → a < 256 → fieldGalua.getD (reversefieldGalua.getD a 0) 0 = a) ∧
    (∀ i, i < 255 → reversefieldGalua.getD (fieldGalua.getD i 0) 0 = i) :=
  ⟨fieldGalua_length, reversefieldGalua_length, fieldGalua_eq_gfPow, by decide,
    fieldGalua_succ_all,
    fun a h1 h2 => (fieldGalua_reverse a h2 (by omega)).1,
    reversefieldGalua_fieldGalua_all⟩

/-- C12: `levelCorrectM` is the BCH(15,5) codeword of the data bits `00` (level M) and
`010` (the mask pattern number of "column mod 3 = 0") with the generator `0x537`, added
to `0x5412`, and `levelCorrectH` is the same for the data bits `10` and `010`. The
codewords are multiples of the generator that carry the data in their five high bits,
and `write` inverts a bit exactly in the columns divisible by 3. -/
theorem levelCorrect_bch :
    levelCorrectM = 0x5e7c ∧ levelCorrectH = 0x1ce7 ∧
    levelCorrectM = bchFormat 0b00010 ^^^ 0x5412 ∧
    levelCorrectH = bchFormat 0b10010 ^^^ 0x5412 ∧
    bchFormat 0b00010 >>> 10 = 0b00010 ∧ bchFormat 0b10010 >>> 10 = 0b10010 ∧
    gf2Mul 0x537 0b00010 5 = bchFormat 0b00010 ∧
    gf2Mul 0x537 0b10111 5 = bchFormat 0b10010 ∧
    (∀ a c, masked a c = if c % 3 = 0 then (if a = 0 then 1 else 0) else a) := by
  refine ⟨by decide, by decide, by decide, by decide, by decide, by decide, by decide,
    by decide, fun a c => rfl⟩

/-! ## Payloads on which the pipeline aborts -/

set_option maxRecDepth 1000000 in
/-- C15 (failing input): the empty content and the one-byte content `A` at level M are
accepted by `howToVersion` (version index 0, no error), and the run aborts: for the empty
content `addServicesData`, `addVoidData`, `buildBlock` and `buildCorectBlock` return, the
length handed to `groupData` is 16 while one data block of 16 bytes and 10 correction
bytes are to be written, and `groupData` leaves the buffer. -/
theorem QRGenerateData_small_abort :
    howToVersion (utfToBit []).1 maxDataM = some (0, 12, false) ∧
    howToVersion (utfToBit [65]).1 maxDataM = some (0, 12, false) ∧
    QRGenerateData [] Level.M = Outcome.abort ∧
    QRGenerateData [65] Level.M = Outcome.abort ∧
    ((addServicesData [] 0 12 maxDataM (utfToBit []).2).bind fun d1 =>
      (addVoidData 12 0 0 maxDataM d1).bind fun d2 =>
      (buildBlock 0 maxDataM blocksM d2).bind fun b =>
      (buildCorectBlock 0 b.1 0 byteCorectM b.2.1).map fun c =>
        (c.2.2, b.2.1.map List.length, c.1,
          groupData c.2.2 b.2.2 c.1 b.2.1 c.2.1)) = some (16, [16], 10, none) := by
  refine ⟨by decide!, by decide!, by decide!, by decide!, by decide!⟩

/-- C16 (failing input): whenever `howToVersion` selects a version index of 12 or more
without an error, the tables `coordAnchor` and `codeVersion` have no entry for it and the
run aborts at the lookup `coordAnchor[version]` in `QRGenerate`: no error is returned. -/
theorem QRGenerateData_unsupported_abort (content : List Nat) (lvl : Level)
    (version lenSystemData : Nat)
    (h : howToVersion (utfToBit content).1 lvl.maxData = some (version, lenSystemData, false))
    (hv : 12 ≤ version) :
    coordAnchor[version]? = none ∧ codeVersion[version]? = none ∧
    QRGenerateData content lvl = Outcome.abort ∧
    QRGenerateData content lvl ≠ Outcome.err := by
  have h1 : coordAnchor[version]? = none :=
    List.getElem?_eq_none (by rw [show coordAnchor.length = 12 from rfl]; exact hv)
  have h2 : codeVersion[version]? = none :=
    List.getElem?_eq_none (by rw [show codeVersion.length = 12 from rfl]; exact hv)
  have h3 : QRGenerateData content lvl = Outcome.abort := by
    unfold QRGenerateData
    simp only [h, h1]
    split <;> simp_all
  exact ⟨h1, h2, h3, by rw [h3]; exact fun e => by cases e⟩

set_option maxRecDepth 1000000 in
theorem QRGenerateData_unsupported_abort_witness :
    howToVersion (utfToBit (List.replicate 300 65)).1 Level.M.maxData = some (12, 20, false) ∧
    coordAnchor[12]? = none ∧ codeVersion[12]? = none ∧
    QRGenerateData (List.replicate 300 65) Level.M = Outcome.abort ∧
    QRGenerateData (List.replicate 300 65) Level.M ≠ Outcome.err :=
  ⟨by decide!, QRGenerateData_unsupported_abort (List.replicate 300 65) Level.M 12 20
    (by decide!) (by decide)⟩

/-! ## Data placement keeps the function patterns -/

theorem framed_refl (img : Grid) : framed img img :=
  ⟨fun _ _ _ => rfl, fun _ _ h => absurd rfl h⟩

theorem framed_trans (a b c : Grid) (h1 : framed a b) (h2 : framed b c) : framed a c := by
  refine ⟨fun r k h => ?_, fun r k h => ?_⟩
  · have e1 := h1.1 r k h
    rw [h2.1 r k (by rw [e1]; exact h), e1]
  · by_cases e2 : cellAt c r k = cellAt b r k
    · rw [e2]
      exact h1.2 r k (by rw [← e2]; exact h)
    · exact h2.2 r k e2

theorem bufBitOf_le_one (data : List Nat) : ∀ k, (bufBitOf data).getD k 0 ≤ 1 := by
  intro k
  by_cases hk : k < 8 * data.length
  · rw [bufBitOf_getD data k hk]; omega
  · rw [getD_of_length_le _ _ (by rw [bufBitOf_length]; omega)]; omega

theorem writeCell_framed (bufBit : List Nat) (hb : ∀ k, bufBit.getD k 0 ≤ 1) (x y k : Nat)
    (st st1 : Grid × Nat) (h : writeCell bufBit x y k st = some st1) : framed st.1 st1.1 := by
  unfold writeCell at h
  by_cases hx : x < k
  · rw [if_pos hx] at h; cases h
  · rw [if_neg hx] at h
    cases hrow : st.1[y]? with
    | none => simp only [hrow] at h; cases h
    | some row =>
      simp only [hrow] at h
      cases hcell : row[x - k]? with
      | none => simp only [hcell] at h; cases h
      | some cell =>
        simp only [hcell] at h
        by_cases h0 : cell = 0
        · rw [if_pos h0] at h
          have hc : x - k < row.length := by
            by_contra hh
            rw [List.getElem?_eq_none (by omega)] at hcell
            cases hcell
          have hold : cellAt st.1 y (x - k) = 0 := by
            unfold cellAt
            simp only [List.getD_eq_getElem?_getD, hrow, Option.getD_some, hcell, h0]
          cases h
          refine ⟨fun r c hne => ?_, fun r c hne => ?_⟩
          · rw [cellAt_set st.1 row y (x - k) _ r c hrow hc]
            by_cases e : r = y ∧ c = x - k
            · rw [e.1, e.2, hold] at hne; exact absurd rfl hne
            · rw [if_neg e]
          · rw [cellAt_set st.1 row y (x - k) _ r c hrow hc] at hne ⊢
            by_cases e : r = y ∧ c = x - k
            · rw [if_pos e]
              have := hb st.2
              split_ifs <;> omega
            · rw [if_neg e] at hne; exact absurd rfl hne
        · rw [if_neg h0] at h
          cases h
          exact framed_refl _

theorem writeRow_framed (bufBit : List Nat) (hb : ∀ k, bufBit.getD k 0 ≤ 1) (x y : Nat)
    (st st1 : Grid × Nat) (h : writeRow bufBit x y st = some st1) : framed st.1 st1.1 := by
  unfold writeRow at h
  cases h0 : writeCell bufBit x y 0 st with
  | none => rw [h0] at h; cases h
  | some s =>
    rw [h0] at h
    exact framed_trans _ _ _ (writeCell_framed bufBit hb x y 0 st s h0)
      (writeCell_framed bufBit hb x y 1 s st1 h)

theorem writeRows_framed (bufBit : List Nat) (hb : ∀ k, bufBit.getD k 0 ≤ 1) (x : Nat) :
    ∀ (ys : List Nat) (st st1 : Grid × Nat),
      writeRows bufBit x ys st = some st1 → framed st.1 st1.1 := by
  intro ys
  induction ys with
  | nil => intro st st1 h; cases h; exact framed_refl _
  | cons y ys ih =>
    intro st st1 h
    simp only [writeRows] at h
    cases h0 : writeRow bufBit x y st with
    | none => rw [h0] at h; cases h
    | some s =>
      rw [h0] at h
      exact framed_trans _ _ _ (writeRow_framed bufBit hb x y st s h0) (ih s st1 h)

theorem writeLoop_framed (bufBit : List Nat) (hb : ∀ k, bufBit.getD k 0 ≤ 1) :
    ∀ (fuel x : Nat) (direct : Bool) (st st1 : Grid × Nat),
      writeLoop bufBit fuel x direct st = some st1 → framed st.1 st1.1 := by
  intro fuel
  induction fuel with
  | zero => intro x direct st st1 h; cases h
  | succ fuel ih =>
    intro x direct st st1 h
    simp only [writeLoop] at h
    by_cases h6 : x ≠ 6
    · rw [if_pos h6] at h
      cases h0 : writeRows bufBit x (rowOrder st.1.length direct) st with
      | none => rw [h0] at h; cases h
      | some s =>
        rw [h0] at h
        have f1 := writeRows_framed bufBit hb x _ st s h0
        by_cases h2 : x < 2
        · simp only [h2, if_true] at h
          cases h
          exact f1
        · simp only [h2, if_false] at h
          exact framed_trans _ _ _ f1 (ih _ _ s st1 h)
    · rw [if_neg h6] at h
      exact ih _ _ st st1 h

theorem write_framed (img : Grid) (data : List Nat) (out : Grid)
    (h : write img data = some out) : framed img out := by
  unfold write at h
  by_cases h0 : img.length = 0
  · simp only [h0, if_true] at h
    cases h
    exact framed_refl _
  · simp only [h0, if_false] at h
    cases hl : writeLoop (bufBitOf data) img.length (img.length - 1) false (img, 0) with
    | none => rw [hl] at h; cases h
    | some s =>
      rw [hl] at h
      cases h
      exact writeLoop_framed _ (bufBitOf_le_one data) _ _ _ (img, 0) s hl

/-! ## Assignments on a square grid -/

theorem setCell_spec (n : Nat) (img : Grid) (hs : squareOf n img) (r c v : Nat)
    (hr : r < n) (hc : c < n) :
    ∃ out, setCell img r c v = some out ∧ squareOf n out ∧
      ∀ r1 c1, cellAt out r1 c1 = if r1 = r ∧ c1 = c then v else cellAt img r1 c1 := by
  have hr1 : r < img.length := by rw [hs.1]; exact hr
  have hrow : img[r]? = some img[r] := List.getElem?_eq_getElem hr1
  have hrl : img[r].length = n := hs.2 _ (List.getElem_mem _)
  refine ⟨img.set r (img[r].set c v), ?_, square_set n img hs.1 hs.2 r c v _ hrow, ?_⟩
  · simp only [setCell, hrow, hrl, hc, if_true]
  · intro r1 c1
    exact cellAt_set img _ r c v r1 c1 hrow (by omega)

theorem applyWrites_append (ws1 ws2 : List (Nat × Nat × Nat)) (img : Grid) :
    applyWrites (ws1 ++ ws2) img = (applyWrites ws1 img).bind (applyWrites ws2) := by
  induction ws1 generalizing img with
  | nil => rfl
  | cons w ws ih =>
    simp only [List.cons_append, applyWrites]
    cases setCell img w.1 w.2.1 w.2.2 with
    | none => rfl
    | some g => simp only [Option.some_bind]; exact ih g

theorem applyWrites_spec (n : Nat) :
    ∀ (ws : List (Nat × Nat × Nat)) (img : Grid), squareOf n img →
      (∀ w ∈ ws, w.1 < n ∧ w.2.1 < n) →
      ∃ out, applyWrites ws img = some out ∧ squareOf n out ∧
        ∀ r c, cellAt out r c = (lastWrite ws r c).getD (cellAt img r c) := by
  intro ws
  induction ws with
  | nil => intro img hs _; exact ⟨img, rfl, hs, fun _ _ => rfl⟩
  | cons w ws ih =>
    intro img hs hin
    obtain ⟨h1, h2⟩ := hin w (List.mem_cons_self _ _)
    obtain ⟨g, e1, s1, c1⟩ := setCell_spec n img hs w.1 w.2.1 w.2.2 h1 h2
    obtain ⟨out, e2, s2, c2⟩ := ih g s1 (fun w1 hw1 => hin w1 (List.mem_cons_of_mem _ hw1))
    refine ⟨out, ?_, s2, ?_⟩
    · simp only [applyWrites, e1, Option.some_bind, e2]
    · intro r c
      rw [c2, c1]
      simp only [lastWrite]
      cases lastWrite ws r c with
      | some v => rfl
      | none =>
        by_cases e : w.1 = r ∧ w.2.1 = c
        · have e3 : r = w.1 ∧ c = w.2.1 := ⟨e.1.symm, e.2.symm⟩
          simp only [if_pos e, if_pos e3, Option.getD_some, Option.getD_none]
        · have e3 : ¬ (r = w.1 ∧ c = w.2.1) := fun h => e ⟨h.1.symm, h.2.symm⟩
          simp only [if_neg e, if_neg e3, Option.getD_none]

theorem lastWrite_append (ws1 ws2 : List (Nat × Nat × Nat)) (r c : Nat) :
    lastWrite (ws1 ++ ws2) r c =
      match lastWrite ws2 r c with
      | some v => some v
      | none => lastWrite ws1 r c := by
  induction ws1 with
  | nil =>
    cases h : lastWrite ws2 r c with
    | none => simp only [List.nil_append, h, lastWrite]
    | some v => simp only [List.nil_append, h]
  | cons w ws ih =>
    rw [List.cons_append, lastWrite, ih, lastWrite]
    cases lastWrite ws2 r c with
    | none => rfl
    | some v => rfl

theorem lastWrite_none (ws : List (Nat × Nat × Nat)) (r c : Nat)
    (h : ∀ w ∈ ws, ¬ (w.1 = r ∧ w.2.1 = c)) : lastWrite ws r c = none := by
  induction ws with
  | nil => rfl
  | cons w ws ih =>
    simp only [lastWrite, ih (fun w1 h1 => h w1 (List.mem_cons_of_mem _ h1)),
      if_neg (h w (List.mem_cons_self _ _))]

theorem lastWrite_mem (ws : List (Nat × Nat × Nat)) (r c x : Nat)
    (h : lastWrite ws r c = some x) : ∃ w ∈ ws, w.1 = r ∧ w.2.1 = c ∧ w.2.2 = x := by
  induction ws with
  | nil => cases h
  | cons w ws ih =>
    simp only [lastWrite] at h
    cases h1 : lastWrite ws r c with
    | some v =>
      rw [h1] at h
      obtain ⟨w1, m1, p1⟩ := ih (by rw [h1]; exact h)
      exact ⟨w1, List.mem_cons_of_mem _ m1, p1⟩
    | none =>
      rw [h1] at h
      by_cases e : w.1 = r ∧ w.2.1 = c
      · simp only [if_pos e, Option.some.injEq] at h
        exact ⟨w, List.mem_cons_self _ _, e.1, e.2, h⟩
      · simp only [if_neg e] at h
        cases h

/-! ## `codeVer` and `anchor` as lists of assignments -/

theorem codeVerRow_eq (row w : Nat) : ∀ (fuel j mask : Nat) (img : Grid),
    codeVerRow row w fuel j mask img = applyWrites (codeVerRowWrites row w fuel j mask) img := by
  intro fuel
  induction fuel with
  | zero => intro j mask img; rfl
  | succ fuel ih =>
    intro j mask img
    simp only [codeVerRow, codeVerRowWrites]
    by_cases hm : mask > 0
    · simp only [hm, if_true, applyWrites]
      cases setCell img row j (if mask &&& w = 0 then version0 else version1) with
      | none => rfl
      | some g =>
        simp only [Option.some_bind]
        cases setCell g j row (if mask &&& w = 0 then version0 else version1) with
        | none => rfl
        | some g1 => simp only [Option.some_bind]; exact ih _ _ g1
    · simp only [hm, if_false, applyWrites]

theorem codeVerLoop_eq (n : Nat) (hn : 11 ≤ n) : ∀ (ws : List Nat) (i : Nat) (img : Grid),
    codeVerLoop n ws i img = applyWrites (codeVerWrites n ws i) img := by
  intro ws
  induction ws with
  | nil => intro i img; rfl
  | cons w ws ih =>
    intro i img
    have h : ¬ (n + i < 11) := by omega
    rw [codeVerLoop, codeVerWrites, if_neg h, codeVerRow_eq, applyWrites_append]
    cases applyWrites (codeVerRowWrites (n + i - 11) w 7 0 0x20) img with
    | none => rfl
    | some g => rw [Option.some_bind, Option.some_bind]; exact ih _ g

theorem anchorRing_eq (y x d k : Nat) : ∀ (fuel j : Nat) (img : Grid),
    anchorRing y x d k fuel j img = applyWrites (anchorRingWrites y x d k fuel j) img := by
  intro fuel
  induction fuel with
  | zero => intro j img; rfl
  | succ fuel ih =>
    intro j img
    simp only [anchorRing, anchorRingWrites, applyWrites]
    cases setCell img (d + y) (j + x) k with
    | none => rfl
    | some g1 =>
      simp only [Option.some_bind]
      cases setCell g1 (j + y) (d + x) k with
      | none => rfl
      | some g2 =>
        simp only [Option.some_bind]
        cases setCell g2 (4 - d + y) (j + x) k with
        | none => rfl
        | some g3 =>
          simp only [Option.some_bind]
          cases setCell g3 (j + y) (4 - d + x) k with
          | none => rfl
          | some g4 => simp only [Option.some_bind]; exact ih _ g4

theorem anchorRings_eq (y x : Nat) : ∀ (fuel d k : Nat) (img : Grid),
    anchorRings y x fuel d k img = applyWrites (anchorRingsWrites y x fuel d k) img := by
  intro fuel
  induction fuel with
  | zero => intro d k img; rfl
  | succ fuel ih =>
    intro d k img
    rw [anchorRings, anchorRingsWrites, applyWrites_append, anchorRing_eq]
    cases applyWrites (anchorRingWrites y x d k (5 - d - d) d) img with
    | none => rfl
    | some g => rw [Option.some_bind, Option.some_bind]; exact ih _ _ g

theorem anchorLoop_eq : ∀ (coords : List (List Nat)) (img : Grid),
    (∀ coord ∈ coords, coord.length = 2 ∧ 2 ≤ coord.getD 0 0 ∧ 2 ≤ coord.getD 1 0) →
    anchorLoop coords img = applyWrites (anchorWrites coords) img := by
  intro coords
  induction coords with
  | nil => intro img _; rfl
  | cons coord rest ih =>
    intro img hin
    obtain ⟨h1, h2, h3⟩ := hin coord (List.mem_cons_self _ _)
    have e0 : coord[0]? = some (coord.getD 0 0) := getElem?_eq_some_getD _ _ (by omega)
    have e1 : coord[1]? = some (coord.getD 1 0) := getElem?_eq_some_getD _ _ (by omega)
    have hg : ¬ (coord.getD 0 0 < 2 ∨ coord.getD 1 0 < 2) := by omega
    rw [anchorLoop]
    simp only [e0, e1]
    rw [if_neg hg, anchorRings_eq, anchorWrites, applyWrites_append]
    cases applyWrites (anchorRingsWrites (coord.getD 0 0 - 2) (coord.getD 1 0 - 2) 2 0 anchor1)
        img with
    | none => rfl
    | some g =>
      rw [Option.some_bind, Option.some_bind, applyWrites]
      cases setCell g (coord.getD 0 0 - 2 + 2) (coord.getD 1 0 - 2 + 2) anchor1 with
      | none => rfl
      | some g1 =>
        rw [Option.some_bind, Option.some_bind]
        exact ih g1 (fun c hc => hin c (List.mem_cons_of_mem _ hc))

/-! ## `maskInfo` cell by cell -/

theorem cell_read (n : Nat) (img : Grid) (hs : squareOf n img) (a b : Nat)
    (ha : a < n) (hb : b < n) :
    ∃ row, img[a]? = some row ∧ row[b]? = some (cellAt img a b) := by
  have hr1 : a < img.length := by rw [hs.1]; exact ha
  have hrl : img[a].length = n := hs.2 _ (List.getElem_mem _)
  refine ⟨img[a], List.getElem?_eq_getElem hr1, ?_⟩
  have e : cellAt img a b = img[a].getD b 0 := by
    unfold cellAt
    rw [List.getD_eq_getElem _ _ hr1]
  rw [e]
  exact getElem?_eq_some_getD _ _ (by omega)

theorem maskLoop1_spec (code n : Nat) (hn : 17 ≤ n) :
    ∀ (fuel i : Nat) (img : Grid), i + fuel = 15 → squareOf n img →
      ∃ out, maskLoop1 code fuel i (0x4000 >>> i) img = some out ∧ squareOf n out ∧
        ∀ r c, cellAt out r c =
          if c = 8 ∧ n - 7 ≤ r ∧ r < n ∧ i ≤ n - 1 - r then
            maskTag (0x4000 >>> (n - 1 - r)) code
          else if r = 8 ∧ n - 8 ≤ c ∧ c < n ∧ i ≤ c + 15 - n then
            maskTag (0x4000 >>> (c + 15 - n)) code
          else cellAt img r c := by
  intro fuel
  induction fuel with
  | zero =>
    intro i img hi hs
    refine ⟨img, rfl, hs, ?_⟩
    intro r c
    rw [if_neg (by omega), if_neg (by omega)]
  | succ fuel ih =>
    intro i img hi hs
    rw [maskLoop1, hs.1]
    by_cases h6 : i > 6
    · rw [if_pos h6, if_neg (by omega)]
      obtain ⟨g, e1, s1, c1⟩ := setCell_spec n img hs 8 (n + i - 15)
        (maskTag (0x4000 >>> i) code) (by omega) (by omega)
      obtain ⟨out, e2, s2, c2⟩ := ih (i + 1) g (by omega) s1
      rw [Nat.shiftRight_add] at e2
      refine ⟨out, ?_, s2, ?_⟩
      · rw [e1, Option.some_bind, e2]
      · intro r c
        rw [c2 r c, c1 r c]
        by_cases ha : c = 8 ∧ n - 7 ≤ r ∧ r < n ∧ i ≤ n - 1 - r
        · omega
        · rw [if_neg ha, if_neg (by omega)]
          by_cases hb : r = 8 ∧ n - 8 ≤ c ∧ c < n ∧ i ≤ c + 15 - n
          · rw [if_pos hb]
            by_cases hc : i + 1 ≤ c + 15 - n
            · rw [if_pos ⟨hb.1, hb.2.1, hb.2.2.1, hc⟩]
            · rw [if_neg (by omega), if_pos (by omega)]
              have : c + 15 - n = i := by omega
              rw [this]
          · rw [if_neg hb, if_neg (by omega), if_neg (by omega)]
    · rw [if_neg h6, if_neg (by omega)]
      obtain ⟨g, e1, s1, c1⟩ := setCell_spec n img hs (n - 1 - i) 8
        (maskTag (0x4000 >>> i) code) (by omega) (by omega)
      obtain ⟨out, e2, s2, c2⟩ := ih (i + 1) g (by omega) s1
      rw [Nat.shiftRight_add] at e2
      refine ⟨out, ?_, s2, ?_⟩
      · rw [e1, Option.some_bind, e2]
      · intro r c
        rw [c2 r c, c1 r c]
        by_cases ha : c = 8 ∧ n - 7 ≤ r ∧ r < n ∧ i ≤ n - 1 - r
        · rw [if_pos ha]
          by_cases hc : i + 1 ≤ n - 1 - r
          · rw [if_pos ⟨ha.1, ha.2.1, ha.2.2.1, hc⟩]
          · rw [if_neg (by omega), if_neg (by omega), if_pos (by omega)]
            have : n - 1 - r = i := by omega
            rw [this]
        · rw [if_neg ha, if_neg (by omega)]
          by_cases hb : r = 8 ∧ n - 8 ≤ c ∧ c < n ∧ i ≤ c + 15 - n
          · rw [if_pos hb, if_pos (by omega)]
          · rw [if_neg hb, if_neg (by omega), if_neg (by omega)]

theorem maskShift_succ (i : Nat) (h6 : i ≠ 6) (h10 : i ≠ 10) :
    maskShift (i + 1) = maskShift i + 1 := by
  unfold maskShift
  split_ifs <;> omega

theorem maskShift_skip (i : Nat) (h : i = 6 ∨ i = 10) : maskShift (i + 1) = maskShift i := by
  rcases h with h | h <;> subst h <;> rfl

theorem maskLoop2_spec (code n : Nat) (hn : 17 ≤ n) :
    ∀ (fuel i : Nat) (img : Grid), i + fuel = 17 → squareOf n img →
      (∀ t, i ≤ t → t < 17 →
        (cellAt img (if t > 8 then 16 - t else 8) (if t > 8 then 8 else t) = sync1 ↔
          (t = 6 ∨ t = 10))) →
      ∃ out, maskLoop2 code fuel i (0x4000 >>> maskShift i) img = some out ∧ squareOf n out ∧
        ∀ r c, cellAt out r c =
          if r = 8 ∧ c ≤ 8 ∧ c ≠ 6 ∧ i ≤ c then maskTag (0x4000 >>> maskShift c) code
          else if c = 8 ∧ r < 8 ∧ r ≠ 6 ∧ i ≤ 16 - r then
            maskTag (0x4000 >>> maskShift (16 - r)) code
          else cellAt img r c := by
  intro fuel
  induction fuel with
  | zero =>
    intro i img hi hs _
    refine ⟨img, rfl, hs, ?_⟩
    intro r c
    rw [if_neg (by omega), if_neg (by omega)]
  | succ fuel ih =>
    intro i img hi hs hsync
    have ha : (if i > 8 then 16 - i else 8) < n := by split_ifs <;> omega
    have hb : (if i > 8 then 8 else i) < n := by split_ifs <;> omega
    obtain ⟨row, hrow, hcell⟩ := cell_read n img hs _ _ ha hb
    rw [maskLoop2]
    simp only [hrow, hcell]
    by_cases hx : cellAt img (if i > 8 then 16 - i else 8) (if i > 8 then 8 else i) = sync1
    · have h610 := (hsync i (le_refl _) (by omega)).1 hx
      rw [if_neg (by rw [hx]; exact fun h => h rfl)]
      obtain ⟨out, e2, s2, c2⟩ := ih (i + 1) img (by omega) hs
        (fun t ht1 ht2 => hsync t (by omega) ht2)
      rw [maskShift_skip i h610] at e2
      refine ⟨out, e2, s2, ?_⟩
      intro r c
      rw [c2 r c]
      by_cases h1 : r = 8 ∧ c ≤ 8 ∧ c ≠ 6 ∧ i ≤ c
      · rw [if_pos h1, if_pos (by omega)]
      · rw [if_neg h1, if_neg (by omega)]
        by_cases h2 : c = 8 ∧ r < 8 ∧ r ≠ 6 ∧ i ≤ 16 - r
        · rw [if_pos h2, if_pos (by omega)]
        · rw [if_neg h2, if_neg (by omega)]
    · have h610 : ¬ (i = 6 ∨ i = 10) := fun h => hx ((hsync i (le_refl _) (by omega)).2 h)
      rw [if_pos hx]
      obtain ⟨g, e1, s1, c1⟩ := setCell_spec n img hs _ _ (maskTag (0x4000 >>> maskShift i) code)
        ha hb
      have hsync1 : ∀ t, i + 1 ≤ t → t < 17 →
          (cellAt g (if t > 8 then 16 - t else 8) (if t > 8 then 8 else t) = sync1 ↔
            (t = 6 ∨ t = 10)) := by
        intro t ht1 ht2
        rw [c1, if_neg (by split_ifs <;> omega)]
        exact hsync t (by omega) ht2
      obtain ⟨out, e2, s2, c2⟩ := ih (i + 1) g (by omega) s1 hsync1
      rw [maskShift_succ i (by omega) (by omega), Nat.shiftRight_add] at e2
      refine ⟨out, ?_, s2, ?_⟩
      · rw [e1, Option.some_bind, e2]
      · intro r c
        rw [c2 r c, c1 r c]
        by_cases h1 : r = 8 ∧ c ≤ 8 ∧ c ≠ 6 ∧ i ≤ c
        · rw [if_pos h1]
          by_cases hc : i + 1 ≤ c
          · rw [if_pos ⟨h1.1, h1.2.1, h1.2.2.1, hc⟩]
          · have e : c = i := by omega
            rw [if_neg (by omega), if_neg (by omega), if_pos (by split_ifs <;> omega), e]
        · rw [if_neg h1, if_neg (by omega)]
          by_cases h2 : c = 8 ∧ r < 8 ∧ r ≠ 6 ∧ i ≤ 16 - r
          · rw [if_pos h2]
            by_cases hc : i + 1 ≤ 16 - r
            · rw [if_pos ⟨h2.1, h2.2.1, h2.2.2.1, hc⟩]
            · have e : 16 - r = i := by omega
              rw [if_neg (by omega), if_pos (by split_ifs <;> omega), e]
          · rw [if_neg h2, if_neg (by omega), if_neg (by split_ifs <;> omega)]

theorem maskInfo_spec (code n : Nat) (hn : 17 ≤ n) (img : Grid) (hs : squareOf n img)
    (hsync : ∀ t, t < 17 →
      (cellAt img (if t > 8 then 16 - t else 8) (if t > 8 then 8 else t) = sync1 ↔
        (t = 6 ∨ t = 10))) :
    ∃ out, maskInfo img code = some out ∧ squareOf n out ∧
      ∀ r c, cellAt out r c = (maskCell n code r c).getD (cellAt img r c) := by
  obtain ⟨g1, e1, s1, c1⟩ := maskLoop1_spec code n hn 15 0 img rfl hs
  obtain ⟨g2, e2, s2, c2⟩ := setCell_spec n g1 s1 (n - 8) 8 mask1 (by omega) (by omega)
  have hsync2 : ∀ t, 0 ≤ t → t < 17 →
      (cellAt g2 (if t > 8 then 16 - t else 8) (if t > 8 then 8 else t) = sync1 ↔
        (t = 6 ∨ t = 10)) := by
    intro t _ ht
    rw [c2, if_neg (by split_ifs <;> omega), c1, if_neg (by split_ifs <;> omega),
      if_neg (by split_ifs <;> omega)]
    exact hsync t ht
  obtain ⟨g3, e3, s3, c3⟩ := maskLoop2_spec code n hn 17 0 g2 rfl s2 hsync2
  refine ⟨g3, ?_, s3, ?_⟩
  · unfold maskInfo
    rw [show (0x4000 : Nat) = 0x4000 >>> 0 from rfl, e1, Option.some_bind, s1.1,
      if_neg (by omega), e2, Option.some_bind]
    exact e3
  · intro r c
    rw [c3 r c, c2 r c, c1 r c]
    unfold maskCell maskSlot
    by_cases h0 : r = n - 8 ∧ c = 8
    · simp only [if_pos h0]
      rw [if_neg (by omega), if_neg (by omega)]
      rfl
    · simp only [if_neg h0]
      by_cases h1 : r = 8 ∧ c ≤ 8 ∧ c ≠ 6
      · rw [if_pos h1, if_pos (by omega)]
        rfl
      · rw [if_neg h1, if_neg (by omega)]
        by_cases h2 : c = 8 ∧ r < 8 ∧ r ≠ 6
        · rw [if_pos h2, if_pos (by omega)]
          rfl
        · rw [if_neg h2, if_neg (by omega)]
          by_cases h3 : c = 8 ∧ n - 7 ≤ r ∧ r < n
          · rw [if_pos h3, if_pos (by omega)]
            rfl
          · rw [if_neg h3, if_neg (by omega)]
            by_cases h4 : r = 8 ∧ n - 8 ≤ c ∧ c < n
            · rw [if_pos h4, if_pos (by omega)]
              rfl
            · rw [if_neg h4, if_neg (by omega)]
              rfl

/-! ## The function patterns cell by cell -/

set_option maxRecDepth 1000000 in
theorem patternFacts_zero : preFacts 0 ∧
    unsetCells (((prePatterns 0).bind fun img => (maskInfo img 0).bind fun img =>
      (codeVer img 0).bind fun img => anchor img 0).getD []) = 208 := by
  decide!

set_option maxRecDepth 1000000 in
theorem patternFacts_one : preFacts 1 ∧
    unsetCells (((prePatterns 1).bind fun img => (maskInfo img 0).bind fun img =>
      (codeVer img 1).bind fun img => anchor img 1).getD []) = 359 := by
  decide!

set_option maxRecDepth 1000000 in
theorem patternFacts_two : preFacts 2 ∧
    unsetCells (((prePatterns 2).bind fun img => (maskInfo img 0).bind fun img =>
      (codeVer img 2).bind fun img => anchor img 2).getD []) = 567 := by
  decide!

set_option maxRecDepth 1000000 in
theorem patternFacts_three : preFacts 3 ∧
    unsetCells (((prePatterns 3).bind fun img => (maskInfo img 0).bind fun img =>
      (codeVer img 3).bind fun img => anchor img 3).getD []) = 807 := by
  decide!

set_option maxRecDepth 1000000 in
theorem patternFacts_four : preFacts 4 ∧
    unsetCells (((prePatterns 4).bind fun img => (maskInfo img 0).bind fun img =>
      (codeVer img 4).bind fun img => anchor img 4).getD []) = 1079 := by
  decide!

set_option maxRecDepth 1000000 in
theorem patternFacts_five : preFacts 5 ∧
    unsetCells (((prePatterns 5).bind fun img => (maskInfo img 0).bind fun img =>
      (codeVer img 5).bind fun img => anchor img 5).getD []) = 1383 := by
  decide!

set_option maxRecDepth 1000000 in
theorem patternFacts_six : preFacts 6 ∧
    unsetCells (((prePatterns 6).bind fun img => (maskInfo img 0).bind fun img =>
      (codeVer img 6).bind fun img => anchor img 6).getD []) = 1568 := by
  decide!

set_option maxRecDepth 1000000 in
theorem patternFacts_seven : preFacts 7 ∧
    unsetCells (((prePatterns 7).bind fun img => (maskInfo img 0).bind fun img =>
      (codeVer img 7).bind fun img => anchor img 7).getD []) = 1936 := by
  decide!

set_option maxRecDepth 1000000 in
theorem patternFacts_eight : preFacts 8 ∧
    unsetCells (((prePatterns 8).bind fun img => (maskInfo img 0).bind fun img =>
      (codeVer img 8).bind fun img => anchor img 8).getD []) = 2336 := by
  decide!

set_option maxRecDepth 1000000 in
theorem patternFacts_nine : preFacts 9 ∧
    unsetCells (((prePatterns 9).bind fun img => (maskInfo img 0).bind fun img =>
      (codeVer img 9).bind fun img => anchor img 9).getD []) = 2768 := by
  decide!

set_option maxRecDepth 1000000 in
theorem patternFacts_ten : preFacts 10 ∧
    unsetCells (((prePatterns 10).bind fun img => (maskInfo img 0).bind fun img =>
      (codeVer img 10).bind fun img => anchor img 10).getD []) = 3232 := by
  decide!

set_option maxRecDepth 1000000 in
theorem patternFacts_eleven : preFacts 11 ∧
    unsetCells (((prePatterns 11).bind fun img => (maskInfo img 0).bind fun img =>
      (codeVer img 11).bind fun img => anchor img 11).getD []) = 3728 := by
  decide!

theorem preFacts_all : ∀ v : Nat, v < 12 → preFacts v := by
  intro v hv
  interval_cases v
  · exact patternFacts_zero.1
  · exact patternFacts_one.1
  · exact patternFacts_two.1
  · exact patternFacts_three.1
  · exact patternFacts_four.1
  · exact patternFacts_five.1
  · exact patternFacts_six.1
  · exact patternFacts_seven.1
  · exact patternFacts_eight.1
  · exact patternFacts_nine.1
  · exact patternFacts_ten.1
  · exact patternFacts_eleven.1

set_option maxRecDepth 1000000 in
theorem tables_facts : ∀ v : Nat, v < 12 →
    qrBlocks[v]? = some (21 + 4 * v) ∧
    codeVersion[v]? = some (codeVersion.getD v []) ∧
    coordAnchor[v]? = some (coordAnchor.getD v []) ∧
    (∀ w ∈ codeVerWrites (21 + 4 * v) (codeVersion.getD v []) 0,
      w.1 < 21 + 4 * v ∧ w.2.1 < 21 + 4 * v) ∧
    (∀ coord ∈ coordAnchor.getD v [],
      coord.length = 2 ∧ 2 ≤ coord.getD 0 0 ∧ 2 ≤ coord.getD 1 0) ∧
    (∀ w ∈ anchorWrites (coordAnchor.getD v []), w.1 < 21 + 4 * v ∧ w.2.1 < 21 + 4 * v) := by
  decide!

theorem drawPatterns_eq (version code : Nat) :
    drawPatterns version code =
      (prePatterns version).bind fun img =>
        (maskInfo img code).bind fun img =>
          (codeVer img version).bind fun img => anchor img version := by
  unfold drawPatterns prePatterns
  cases qrBlocks[version]? with
  | none => rfl
  | some size =>
    simp only [Option.bind_assoc]

/-- The function patterns of the version index `v < 12` for any format word: the drawing
does not abort, the grid is square of edge `21 + 4v`, and every cell holds the value that
`patternCell` composes from the writers. -/
theorem drawPatterns_cells (v : Nat) (hv : v < 12) (code : Nat) :
    ∃ P g img, prePatterns v = some P ∧ maskInfo P code = some g ∧
      (∀ r c, cellAt g r c = (maskCell (21 + 4 * v) code r c).getD (preCell v r c)) ∧
      drawPatterns v code = some img ∧ squareOf (21 + 4 * v) img ∧
      ∀ r c, cellAt img r c = patternCell v code r c := by
  obtain ⟨t1, t2, t3, t4, t5, t6⟩ := tables_facts v hv
  obtain ⟨p1, p2, p3, -⟩ := preFacts_all v hv
  obtain ⟨P, hP⟩ := Option.isSome_iff_exists.mp p1
  have hPD : (prePatterns v).getD [] = P := by rw [hP]; rfl
  have hpre : ∀ r c, preCell v r c = cellAt P r c := by
    intro r c; unfold preCell; rw [hPD]
  rw [hPD] at p2
  obtain ⟨g1, e1, s1, c1⟩ := maskInfo_spec code (21 + 4 * v) (by omega) P p2
    (fun t ht => by rw [← hpre]; exact p3 t ht)
  have e2 : codeVer g1 v = applyWrites (codeVerWrites (21 + 4 * v) (codeVersion.getD v []) 0) g1 := by
    unfold codeVer
    rw [t2, s1.1]
    exact codeVerLoop_eq (21 + 4 * v) (by omega) _ _ _
  obtain ⟨g2, e3, s2, c2⟩ := applyWrites_spec (21 + 4 * v) _ g1 s1 t4
  have e4 : anchor g2 v = applyWrites (anchorWrites (coordAnchor.getD v [])) g2 := by
    unfold anchor
    rw [t3]
    exact anchorLoop_eq _ _ t5
  obtain ⟨g3, e5, s3, c3⟩ := applyWrites_spec (21 + 4 * v) _ g2 s2 t6
  have hq : qrBlocks.getD v 0 = 21 + 4 * v := by
    rw [List.getD_eq_getElem?_getD, t1]; rfl
  refine ⟨P, g1, g3, hP, e1, fun r c => by rw [c1, hpre], ?_, s3, ?_⟩
  · rw [drawPatterns_eq, hP, Option.some_bind, e1, Option.some_bind, e2, e3, Option.some_bind,
      e4, e5]
  · intro r c
    rw [c3, c2, c1]
    unfold patternCell overlay overlayWrites
    rw [hq, hpre, lastWrite_append]
    cases lastWrite (anchorWrites (coordAnchor.getD v [])) r c with
    | some x => rfl
    | none => rfl

/-- The drawing part of `QRGenerate` for a version index `v < 12`, any format word and
any codeword stream: it does not abort, the grid is square of edge `21 + 4v`, and every
cell in which the function patterns hold a tag keeps that tag. -/
theorem drawGrid_pattern (v : Nat) (hv : v < 12) (code : Nat) (data : List Nat) :
    ∃ out, drawGrid v code data = some out ∧ squareOf (21 + 4 * v) out ∧
      ∀ r c, patternCell v code r c ≠ 0 → cellAt out r c = patternCell v code r c := by
  obtain ⟨P, g, img, -, -, -, e1, s1, c1⟩ := drawPatterns_cells v hv code
  have hn : 21 + 4 * v = 17 + 4 * (v + 1) := by omega
  obtain ⟨out, e2, s2, s3, -⟩ := write_cells (v + 1) img data (by rw [s1.1, hn])
    (by rw [← hn]; exact s1.2)
  have f := write_framed img data out e2
  refine ⟨out, ?_, ⟨by rw [s2, hn], by rw [hn]; exact s3⟩, ?_⟩
  · unfold drawGrid
    rw [e1, Option.some_bind, e2]
  · intro r c h
    rw [← c1] at h ⊢
    exact f.1 r c h

/-! ## Finder patterns, timing patterns and the dark module in the final grid -/

set_option maxRecDepth 1000000 in
theorem overlay_facts : ∀ v : Nat, v < 12 → ∀ w ∈ overlayWrites v, overlayOk v w := by
  decide!

theorem qrBlocks_getD (v : Nat) (hv : v < 12) : qrBlocks.getD v 0 = 21 + 4 * v := by
  rw [List.getD_eq_getElem?_getD, (tables_facts v hv).1]; rfl

theorem maskCell_none (n code r c : Nat) (hn : 17 ≤ n)
    (h : (r < 8 ∧ c < 8) ∨ (r < 8 ∧ n - 8 ≤ c) ∨ (n - 8 ≤ r ∧ c < 8) ∨
      (r = 6 ∧ 8 ≤ c ∧ c ≤ n - 9) ∨ (c = 6 ∧ 8 ≤ r ∧ r ≤ n - 9)) :
    maskCell n code r c = none := by
  unfold maskCell maskSlot
  rw [if_neg (by omega), if_neg (by omega), if_neg (by omega), if_neg (by omega),
    if_neg (by omega)]
  rfl

theorem patternCell_corner (v : Nat) (hv : v < 12) (code r c : Nat)
    (h : (r < 8 ∧ c < 8) ∨ (r < 8 ∧ 13 + 4 * v ≤ c) ∨ (13 + 4 * v ≤ r ∧ c < 8)) :
    patternCell v code r c = preCell v r c := by
  have ho : overlay v r c = none := by
    apply lastWrite_none
    intro w hw e
    obtain ⟨f1, f2, f3, -⟩ := overlay_facts v hv w hw
    rw [e.1, e.2] at f1 f2 f3
    omega
  unfold patternCell
  rw [ho, qrBlocks_getD v hv, maskCell_none _ _ _ _ (by omega) (by omega)]
  rfl

theorem patternCell_timing (v : Nat) (hv : v < 12) (code r c : Nat) (d : Bool)
    (h : (r = 6 ∧ 8 ≤ c ∧ c ≤ 12 + 4 * v ∧ d = decide (c % 2 = 0)) ∨
      (c = 6 ∧ 8 ≤ r ∧ r ≤ 12 + 4 * v ∧ d = decide (r % 2 = 0)))
    (h0 : preCell v r c ≠ 0) (hd : dark (preCell v r c) = d) :
    patternCell v code r c ≠ 0 ∧ dark (patternCell v code r c) = d := by
  unfold patternCell
  rw [qrBlocks_getD v hv, maskCell_none _ _ _ _ (by omega) (by omega)]
  cases ho : overlay v r c with
  | none => exact ⟨h0, hd⟩
  | some x =>
    obtain ⟨w, hw, e1, e2, e3⟩ := lastWrite_mem _ _ _ _ ho
    obtain ⟨-, -, -, -, -, f6, f7⟩ := overlay_facts v hv w hw
    rw [e1, e2, e3] at f6 f7
    simp only [Option.getD_some, Option.getD_none]
    rcases h with ⟨a, -, -, b⟩ | ⟨a, -, -, b⟩
    · rw [b]; exact f6.resolve_left (fun h => h a)
    · rw [b]; exact f7.resolve_left (fun h => h a)

theorem dark_finderTag (r c : Nat) :
    finderTag r c ≠ 0 ∧ dark (finderTag r c) = decide (ringOf r c ≠ 2) := by
  unfold finderTag
  by_cases h : ringOf r c = 2
  · rw [if_pos h]; simp [h, dark, search0]
  · rw [if_neg h]; simp [h, dark, search1]

/-- C17: for every version 1..12 (grid edge `N = 17 + 4 * ver`), every format word (so
both levels) and every codeword stream, the drawing part of `QRGenerate` returns a grid
in which each of the three 7x7 squares with the corners `(0, 0)`, `(0, N - 7)` and
`(N - 7, 0)` has its cell at offset `(r, c)` dark exactly when
`max(|r - 3|, |c - 3|)` is not 2; the centres `(3, 3)`, `(3, N - 4)`, `(N - 4, 3)` are
dark, and the separator cells in row 7, column 7, row `N - 8` and column `N - 8` beside
the squares are light. -/
theorem finder_patterns (ver code : Nat) (data : List Nat) (h1 : 1 ≤ ver) (h12 : ver ≤ 12) :
    ∃ out, drawGrid (ver - 1) code data = some out ∧ squareOf (17 + 4 * ver) out ∧
      (∀ r, r < 7 → ∀ c, c < 7 →
        dark (cellAt out r c) = decide (ringOf r c ≠ 2) ∧
        dark (cellAt out r (17 + 4 * ver - 7 + c)) = decide (ringOf r c ≠ 2) ∧
        dark (cellAt out (17 + 4 * ver - 7 + r) c) = decide (ringOf r c ≠ 2)) ∧
      dark (cellAt out 3 3) = true ∧ dark (cellAt out 3 (17 + 4 * ver - 4)) = true ∧
      dark (cellAt out (17 + 4 * ver - 4) 3) = true ∧
      (∀ k, k < 8 →
        dark (cellAt out 7 k) = false ∧ dark (cellAt out k 7) = false ∧
        dark (cellAt out 7 (17 + 4 * ver - 8 + k)) = false ∧
        dark (cellAt out k (17 + 4 * ver - 8)) = false ∧
        dark (cellAt out (17 + 4 * ver - 8) k) = false ∧
        dark (cellAt out (17 + 4 * ver - 8 + k) 7) = false) := by
  obtain ⟨v, rfl⟩ : ∃ v, ver = v + 1 := ⟨ver - 1, by omega⟩
  have hv : v < 12 := by omega
  obtain ⟨out, e, s, hc⟩ := drawGrid_pattern v hv code data
  obtain ⟨-, -, -, pf, ps, -⟩ := preFacts_all v hv
  have a1 : 17 + 4 * (v + 1) - 7 = 14 + 4 * v := by omega
  have a2 : 17 + 4 * (v + 1) - 8 = 13 + 4 * v := by omega
  have a3 : 17 + 4 * (v + 1) - 4 = 14 + 4 * v + 3 := by omega
  have a4 : 17 + 4 * (v + 1) = 21 + 4 * v := by omega
  have fin : ∀ r c t,
      (r < 8 ∧ c < 8) ∨ (r < 8 ∧ 13 + 4 * v ≤ c) ∨ (13 + 4 * v ≤ r ∧ c < 8) →
      preCell v r c = t → t ≠ 0 → cellAt out r c = t := by
    intro r c t hu hp ht
    have := patternCell_corner v hv code r c hu
    rw [hc r c (by rw [this, hp]; exact ht), this, hp]
  have finder : ∀ r, r < 7 → ∀ c, c < 7 →
      dark (cellAt out r c) = decide (ringOf r c ≠ 2) ∧
      dark (cellAt out r (14 + 4 * v + c)) = decide (ringOf r c ≠ 2) ∧
      dark (cellAt out (14 + 4 * v + r) c) = decide (ringOf r c ≠ 2) := by
    intro r hr c hcc
    obtain ⟨p1, p2, p3⟩ := pf r hr c hcc
    obtain ⟨n0, d0⟩ := dark_finderTag r c
    rw [fin _ _ _ (by omega) p1 n0, fin _ _ _ (by omega) p2 n0, fin _ _ _ (by omega) p3 n0]
    exact ⟨d0, d0, d0⟩
  have e0 : v + 1 - 1 = v := by omega
  rw [e0, a1, a2, a3, a4]
  refine ⟨out, e, s, finder, (finder 3 (by omega) 3 (by omega)).1,
    (finder 3 (by omega) 3 (by omega)).2.1, (finder 3 (by omega) 3 (by omega)).2.2, ?_⟩
  intro k hk
  obtain ⟨p1, p2, p3, p4, p5, p6⟩ := ps k hk
  have n0 : search0 ≠ 0 := by decide
  rw [fin _ _ _ (by omega) p1 n0, fin _ _ _ (by omega) p2 n0, fin _ _ _ (by omega) p3 n0,
    fin _ _ _ (by omega) p4 n0, fin _ _ _ (by omega) p5 n0, fin _ _ _ (by omega) p6 n0]
  exact ⟨rfl, rfl, rfl, rfl, rfl, rfl⟩

/-- C18: for every version 1..12 (grid edge `N = 17 + 4 * ver`), every format word and
every codeword stream, in the grid that the drawing part of `QRGenerate` returns the
cells `(6, i)` and `(i, 6)` with `8 <= i <= N - 9` are dark exactly when `i` is even,
whether the last writer of the cell is `syncLine` or `anchor`. -/
theorem timing_patterns (ver code : Nat) (data : List Nat) (h1 : 1 ≤ ver) (h12 : ver ≤ 12) :
    ∃ out, drawGrid (ver - 1) code data = some out ∧
      ∀ i, 8 ≤ i → i ≤ 17 + 4 * ver - 9 →
        dark (cellAt out 6 i) = decide (i % 2 = 0) ∧
        dark (cellAt out i 6) = decide (i % 2 = 0) := by
  obtain ⟨v, rfl⟩ : ∃ v, ver = v + 1 := ⟨ver - 1, by omega⟩
  have hv : v < 12 := by omega
  obtain ⟨out, e, -, hc⟩ := drawGrid_pattern v hv code data
  obtain ⟨-, -, -, -, -, pt⟩ := preFacts_all v hv
  have e0 : v + 1 - 1 = v := by omega
  rw [e0]
  refine ⟨out, e, ?_⟩
  intro i hi1 hi2
  obtain ⟨j, rfl⟩ : ∃ j, i = 8 + j := ⟨i - 8, by omega⟩
  have hj : j < 5 + 4 * v := by omega
  obtain ⟨p1, p2⟩ := pt j hj
  have hpar : decide ((8 + j) % 2 = 0) = decide (j % 2 = 0) := by
    congr 1
    exact propext ⟨fun h => by omega, fun h => by omega⟩
  have tag : (if j % 2 = 0 then sync1 else sync0) ≠ 0 ∧
      dark (if j % 2 = 0 then sync1 else sync0) = decide (j % 2 = 0) := by
    by_cases h : j % 2 = 0
    · rw [if_pos h]; simp [h, dark, sync1]
    · rw [if_neg h]; simp [h, dark, sync0]
  obtain ⟨n1, d1⟩ := patternCell_timing v hv code 6 (8 + j) (decide (j % 2 = 0))
    (Or.inl ⟨rfl, by omega, by omega, hpar.symm⟩) (by rw [p1]; exact tag.1)
    (by rw [p1]; exact tag.2)
  obtain ⟨n2, d2⟩ := patternCell_timing v hv code (8 + j) 6 (decide (j % 2 = 0))
    (Or.inr ⟨rfl, by omega, by omega, hpar.symm⟩) (by rw [p2]; exact tag.1)
    (by rw [p2]; exact tag.2)
  rw [hc _ _ n1, hc _ _ n2, hpar]
  exact ⟨d1, d2⟩

/-- C19: for every version 1..12 (grid edge `N = 17 + 4 * ver`), every format word and
every codeword stream, the cell in row `N - 8`, column 8 holds `mask1` after `maskInfo`
and still holds it in the grid that the drawing part of `QRGenerate` returns: `codeVer`,
`anchor` and `write` leave it alone, and the tag is odd, so the cell is dark. -/
theorem dark_module (ver code : Nat) (data : List Nat) (h1 : 1 ≤ ver) (h12 : ver ≤ 12) :
    ∃ pre g out, prePatterns (ver - 1) = some pre ∧ maskInfo pre code = some g ∧
      cellAt g (17 + 4 * ver - 8) 8 = mask1 ∧
      drawGrid (ver - 1) code data = some out ∧
      cellAt out (17 + 4 * ver - 8) 8 = mask1 ∧
      dark (cellAt out (17 + 4 * ver - 8) 8) = true := by
  obtain ⟨v, rfl⟩ : ∃ v, ver = v + 1 := ⟨ver - 1, by omega⟩
  have hv : v < 12 := by omega
  obtain ⟨out, e, -, hc⟩ := drawGrid_pattern v hv code data
  obtain ⟨P, g, img, eP, eg, cg, -, -, -⟩ := drawPatterns_cells v hv code
  have e0 : v + 1 - 1 = v := by omega
  have a2 : 17 + 4 * (v + 1) - 8 = 13 + 4 * v := by omega
  have hq := qrBlocks_getD v hv
  have ho : overlay v (13 + 4 * v) 8 = none := by
    apply lastWrite_none
    intro w hw e
    obtain ⟨-, -, -, -, f5, -⟩ := overlay_facts v hv w hw
    rw [e.1, e.2] at f5
    omega
  have hm : maskCell (21 + 4 * v) code (13 + 4 * v) 8 = some mask1 := by
    unfold maskCell
    rw [if_pos ⟨by omega, rfl⟩]
  have hp : patternCell v code (13 + 4 * v) 8 = mask1 := by
    unfold patternCell
    rw [ho, hq, hm]
    rfl
  have hfin : cellAt out (13 + 4 * v) 8 = mask1 := by
    rw [hc _ _ (by rw [hp]; decide), hp]
  rw [e0, a2]
  refine ⟨P, g, out, eP, eg, ?_, e, hfin, by rw [hfin]; rfl⟩
  rw [cg, hm]
  rfl

/-! ## The frame of data placement in the final grid -/

/-- C11: for every grid and every codeword stream on which `write` returns, every cell
that is set (value not 0) keeps its value and a cell that changes holds 0 or 1
afterwards; hence two runs of the drawing part of `QRGenerate` with the same version and
format word but different codeword streams give the same value to every cell that
carries a function-pattern tag (a value of 2 or more) in either result, and that value
is the one drawn before `write`. `write` returns on every square grid of edge `17 + 4v`,
and the drawing part returns for every version index below 12. -/
theorem write_keeps_patterns (img : Grid) (data : List Nat) (out : Grid)
    (h : write img data = some out) :
    (∀ r c, cellAt img r c ≠ 0 → cellAt out r c = cellAt img r c) ∧
    (∀ r c, cellAt out r c ≠ cellAt img r c → cellAt out r c = 0 ∨ cellAt out r c = 1) ∧
    (∀ r c, 2 ≤ cellAt out r c → cellAt out r c = cellAt img r c) ∧
    (∀ version levelCorrect data1 data2 out1 out2,
      drawGrid version levelCorrect data1 = some out1 →
      drawGrid version levelCorrect data2 = some out2 →
      ∀ r c, 2 ≤ cellAt out1 r c ∨ 2 ≤ cellAt out2 r c →
        cellAt out1 r c = cellAt out2 r c) ∧
    (∀ (v : Nat) (g : Grid) (d : List Nat), squareOf (17 + 4 * v) g →
      ∃ o, write g d = some o) ∧
    (∀ (version levelCorrect : Nat) (d : List Nat), version < 12 →
      ∃ o, drawGrid version levelCorrect d = some o) := by
  have key : ∀ (g o : Grid), framed g o → ∀ r c, 2 ≤ cellAt o r c →
      cellAt o r c = cellAt g r c := by
    intro g o f r c h2
    by_contra hne
    have := f.2 r c hne
    omega
  have f := write_framed img data out h
  refine ⟨f.1, fun r c hne => ?_, key img out f, ?_, ?_, ?_⟩
  · have := f.2 r c hne
    omega
  · intro version levelCorrect data1 data2 out1 out2 h1 h2 r c hrc
    unfold drawGrid at h1 h2
    cases hp : drawPatterns version levelCorrect with
    | none => rw [hp] at h1; cases h1
    | some g =>
      rw [hp, Option.some_bind] at h1 h2
      have f1 := write_framed g data1 out1 h1
      have f2 := write_framed g data2 out2 h2
      rcases hrc with h3 | h3
      · have e1 := key g out1 f1 r c h3
        rw [e1, f2.1 r c (by omega)]
      · have e2 := key g out2 f2 r c h3
        rw [e2, f1.1 r c (by omega)]
  · intro v g d hs
    obtain ⟨o, e, -⟩ := write_cells v g d hs.1 hs.2
    exact ⟨o, e⟩
  · intro version levelCorrect d hv
    obtain ⟨o, e, -⟩ := drawGrid_pattern version hv levelCorrect d
    exact ⟨o, e⟩

theorem write_keeps_patterns_witness :
    ∃ img out, drawPatterns 0 levelCorrectM = some img ∧
      write img [64, 36, 20, 32, 236, 17, 236, 17, 236, 17, 236, 17, 236, 17, 236, 17,
        93, 91, 167, 74, 38, 189, 72, 255, 207, 88] = some out ∧
      (∀ r c, cellAt img r c ≠ 0 → cellAt out r c = cellAt img r c) ∧
      (∀ r c, cellAt out r c ≠ cellAt img r c → cellAt out r c = 0 ∨ cellAt out r c = 1) ∧
      (∀ r c, 2 ≤ cellAt out r c → cellAt out r c = cellAt img r c) := by
  obtain ⟨-, -, img, -, -, -, h0, s0, -⟩ := drawPatterns_cells 0 (by decide) levelCorrectM
  obtain ⟨out, h1, -⟩ := write_cells 1 img
    [64, 36, 20, 32, 236, 17, 236, 17, 236, 17, 236, 17, 236, 17, 236, 17,
      93, 91, 167, 74, 38, 189, 72, 255, 207, 88] s0.1 s0.2
  have w := write_keeps_patterns img _ out h1
  exact ⟨img, out, h0, h1, w.1, w.2.1, w.2.2.1⟩

/-! ## The format word and the version information in the grid -/

set_option maxRecDepth 1000000 in
theorem format_facts : ∀ v : Nat, v < 12 → ∀ j : Nat, j < 15 → formatOk v j := by
  decide!

set_option maxRecDepth 1000000 in
theorem version_facts : ∀ v : Nat, v < 12 → versionOk v := by
  decide!

theorem shift_mask_all : ∀ j : Nat, j < 15 → 0x4000 >>> j = 2 ^ (14 - j) := by
  decide

theorem dark_maskTag (code j : Nat) (hj : j < 15) :
    maskTag (0x4000 >>> j) code ≠ 0 ∧
    dark (maskTag (0x4000 >>> j) code) = decide (code / 2 ^ (14 - j) % 2 = 1) := by
  have h := and_two_pow_ne_zero code (14 - j)
  rw [shift_mask_all j hj, maskTag, Nat.and_comm]
  by_cases hb : code / 2 ^ (14 - j) % 2 = 1
  · rw [hb] at h
    have hne : code &&& 2 ^ (14 - j) ≠ 0 := by simpa using h
    rw [if_pos hne]
    simp [dark, mask1, hb]
  · have h2 : decide (code / 2 ^ (14 - j) % 2 = 1) = false := by simpa using hb
    rw [h2] at h ⊢
    have he : ¬ (code &&& 2 ^ (14 - j) ≠ 0) := by simpa using h
    rw [if_neg he]
    simp [dark, mask0, hb]

theorem map_eq_range_map {α β : Type} (l : List α) (d : α) (f : α → β) (g : Nat → β)
    (h : ∀ j, j < l.length → f (l.getD j d) = g j) :
    l.map f = (List.range l.length).map g := by
  apply List.ext_getElem
  · simp
  · intro j h1 h2
    have hj : j < l.length := by simpa using h1
    rw [List.getElem_map, List.getElem_map, List.getElem_range, ← h j hj,
      List.getD_eq_getElem _ _ hj]

/-- C13: for every version 1..12 (grid edge `N = 17 + 4 * ver`), every format word `code`
and every codeword stream, both after `maskInfo` and in the grid that the drawing part of
`QRGenerate` returns, cell number `j` of the copy `(8,0), ..., (8,5), (8,7), (8,8), (7,8),
(5,8), ..., (0,8)` and cell number `j` of the copy `(N-1,8), ..., (N-7,8), (8,N-8), ...,
(8,N-1)` are dark exactly when bit `14 - j` of `code` is 1; read in order, both copies in
the final grid are the bits 14 down to 0 of `code`. -/
theorem format_copies (ver code : Nat) (data : List Nat) (h1 : 1 ≤ ver) (h12 : ver ≤ 12) :
    ∃ pre g out, prePatterns (ver - 1) = some pre ∧ maskInfo pre code = some g ∧
      drawGrid (ver - 1) code data = some out ∧
      (∀ j, j < 15 → ∀ p, (p = formatCells1.getD j (0, 0) ∨
          p = (formatCells2 (17 + 4 * ver)).getD j (0, 0)) →
        dark (cellAt g p.1 p.2) = decide (code / 2 ^ (14 - j) % 2 = 1) ∧
        dark (cellAt out p.1 p.2) = decide (code / 2 ^ (14 - j) % 2 = 1)) ∧
      formatCells1.map (fun p => dark (cellAt out p.1 p.2)) =
        (List.range 15).map (fun j => decide (code / 2 ^ (14 - j) % 2 = 1)) ∧
      (formatCells2 (17 + 4 * ver)).map (fun p => dark (cellAt out p.1 p.2)) =
        (List.range 15).map (fun j => decide (code / 2 ^ (14 - j) % 2 = 1)) := by
  obtain ⟨v, rfl⟩ : ∃ v, ver = v + 1 := ⟨ver - 1, by omega⟩
  have hv : v < 12 := by omega
  obtain ⟨out, e, -, hc⟩ := drawGrid_pattern v hv code data
  obtain ⟨P, g, img, eP, eg, cg, -, -, -⟩ := drawPatterns_cells v hv code
  have e0 : v + 1 - 1 = v := by omega
  have a4 : 17 + 4 * (v + 1) = 21 + 4 * v := by omega
  have hq := qrBlocks_getD v hv
  rw [e0, a4]
  have key : ∀ j, j < 15 → ∀ p : Nat × Nat, (p = formatCells1.getD j (0, 0) ∨
      p = (formatCells2 (21 + 4 * v)).getD j (0, 0)) →
      dark (cellAt g p.1 p.2) = decide (code / 2 ^ (14 - j) % 2 = 1) ∧
      dark (cellAt out p.1 p.2) = decide (code / 2 ^ (14 - j) % 2 = 1) := by
    intro j hj p hp
    obtain ⟨⟨f1, f2⟩, ⟨f3, f4⟩⟩ := format_facts v hv j hj
    have hslot : maskSlot (21 + 4 * v) p.1 p.2 = some j := by
      rcases hp with hp | hp <;> rw [hp]
      · exact f1
      · exact f3
    have hpos : (p.1 = 8 ∧ (p.2 ≤ 8 ∨ 13 + 4 * v ≤ p.2)) ∨
        (p.2 = 8 ∧ (p.1 ≤ 8 ∨ 14 + 4 * v ≤ p.1)) := by
      rcases hp with hp | hp <;> rw [hp]
      · rcases f2 with f | f
        · exact Or.inl ⟨f.1, Or.inl f.2⟩
        · exact Or.inr ⟨f.1, Or.inl f.2⟩
      · rcases f4 with f | f
        · exact Or.inl ⟨f.1, Or.inr f.2⟩
        · exact Or.inr ⟨f.1, Or.inr f.2⟩
    have hm : maskCell (21 + 4 * v) code p.1 p.2 = some (maskTag (0x4000 >>> j) code) := by
      unfold maskCell
      rw [if_neg (by omega), hslot]
      rfl
    have ho : overlay v p.1 p.2 = none := by
      apply lastWrite_none
      intro w hw ew
      obtain ⟨-, -, -, f4, f5, -⟩ := overlay_facts v hv w hw
      rw [ew.1, ew.2] at f4 f5
      omega
    have hpc : patternCell v code p.1 p.2 = maskTag (0x4000 >>> j) code := by
      unfold patternCell
      rw [ho, hq, hm]
      rfl
    obtain ⟨n0, d0⟩ := dark_maskTag code j hj
    refine ⟨?_, ?_⟩
    · rw [cg, hm]; exact d0
    · rw [hc _ _ (by rw [hpc]; exact n0), hpc]; exact d0
  refine ⟨P, g, out, eP, eg, e, key, ?_, ?_⟩
  · exact map_eq_range_map formatCells1 (0, 0) _ _
      (fun j hj => (key j hj _ (Or.inl rfl)).2)
  · exact map_eq_range_map (formatCells2 (21 + 4 * v)) (0, 0) _ _
      (fun j hj => (key j hj _ (Or.inr rfl)).2)

set_option maxRecDepth 1000000 in
theorem bchVersion_multiple : ∀ v : Nat, v < 13 →
    (∃ q : Nat, q < 64 ∧ gf2Mul 0x1F25 q 6 = bchVersion v) ∧ bchVersion v >>> 12 = v := by
  decide!

theorem dark_versionTag (w k : Nat) :
    versionTag w k ≠ 0 ∧ dark (versionTag w k) = decide (w / 2 ^ k % 2 = 1) := by
  unfold versionTag
  by_cases h : w / 2 ^ k % 2 = 1
  · rw [if_pos h]; simp [h, dark, version1]
  · rw [if_neg h]; simp [h, dark, version0]

/-- C14: for every version 7..12 (grid edge `N = 17 + 4 * ver`) and every square grid of
that edge, `codeVer` returns a grid in which, for `r` in 0..2 and `c` in 0..5, the cell
`(N - 11 + r, c)` and its transpose `(c, N - 11 + r)` are dark exactly when bit `3c + r`
of `bchVersion ver` is 1, where `bchVersion ver` is `(ver << 12) | rem` with `rem` the
remainder of `ver * x^12` modulo the generator `0x1F25` over GF(2), a multiple of the
generator that carries `ver` in its six high bits; the same holds in the grid that the
drawing part of `QRGenerate` returns; for the versions 1..6 `codeVer` returns the grid
as it was. -/
theorem version_information (ver : Nat) (img : Grid) (h7 : 7 ≤ ver) (h12 : ver ≤ 12)
    (hs : squareOf (17 + 4 * ver) img) :
    bchVersion ver = (ver <<< 12) ||| gf2Rem 0x1F25 12 6 (ver <<< 12) ∧
    (∃ q : Nat, q < 64 ∧ gf2Mul 0x1F25 q 6 = bchVersion ver) ∧
    bchVersion ver >>> 12 = ver ∧
    (∃ out, codeVer img (ver - 1) = some out ∧ squareOf (17 + 4 * ver) out ∧
      ∀ r, r < 3 → ∀ c, c < 6 →
        dark (cellAt out (17 + 4 * ver - 11 + r) c) =
          decide (bchVersion ver / 2 ^ (3 * c + r) % 2 = 1) ∧
        dark (cellAt out c (17 + 4 * ver - 11 + r)) =
          decide (bchVersion ver / 2 ^ (3 * c + r) % 2 = 1)) ∧
    (∀ code data, ∃ fin, drawGrid (ver - 1) code data = some fin ∧
      ∀ r, r < 3 → ∀ c, c < 6 →
        dark (cellAt fin (17 + 4 * ver - 11 + r) c) =
          decide (bchVersion ver / 2 ^ (3 * c + r) % 2 = 1) ∧
        dark (cellAt fin c (17 + 4 * ver - 11 + r)) =
          decide (bchVersion ver / 2 ^ (3 * c + r) % 2 = 1)) ∧
    (∀ low, 1 ≤ low → low ≤ 6 → ∀ g : Grid, codeVer g (low - 1) = some g) := by
  obtain ⟨v, rfl⟩ : ∃ v, ver = v + 1 := ⟨ver - 1, by omega⟩
  have hv : v < 12 := by omega
  have e0 : v + 1 - 1 = v := by omega
  have a4 : 17 + 4 * (v + 1) = 21 + 4 * v := by omega
  have a5 : 21 + 4 * v - 11 = 10 + 4 * v := by omega
  rw [a4] at hs
  rw [e0, a4, a5]
  obtain ⟨-, t2, -, t4, -, -⟩ := tables_facts v hv
  obtain ⟨-, k2, k3⟩ := version_facts v hv
  refine ⟨rfl, (bchVersion_multiple (v + 1) (by omega)).1,
    (bchVersion_multiple (v + 1) (by omega)).2, ?_, ?_, ?_⟩
  · have e2 : codeVer img v =
        applyWrites (codeVerWrites (21 + 4 * v) (codeVersion.getD v []) 0) img := by
      unfold codeVer
      rw [t2, hs.1]
      exact codeVerLoop_eq (21 + 4 * v) (by omega) _ _ _
    obtain ⟨out, e3, s2, c2⟩ := applyWrites_spec (21 + 4 * v) _ img hs t4
    refine ⟨out, by rw [e2, e3], s2, ?_⟩
    intro r hr c hc
    obtain ⟨w1, w2⟩ := k2 (by omega) r hr c hc
    rw [c2, c2, w1, w2]
    exact ⟨(dark_versionTag _ _).2, (dark_versionTag _ _).2⟩
  · intro code data
    obtain ⟨fin, e, -, hc⟩ := drawGrid_pattern v hv code data
    refine ⟨fin, e, ?_⟩
    intro r hr c hcc
    obtain ⟨w1, w2⟩ := k2 (by omega) r hr c hcc
    have pc : ∀ y x t, ((10 + 4 * v ≤ y ∧ y < 13 + 4 * v ∧ x < 6) ∨
        (y < 6 ∧ 10 + 4 * v ≤ x ∧ x < 13 + 4 * v)) →
        lastWrite (codeVerWrites (21 + 4 * v) (codeVersion.getD v []) 0) y x = some t →
        patternCell v code y x = t := by
      intro y x t hyx hl
      have hn : lastWrite (anchorWrites (coordAnchor.getD v [])) y x = none := by
        apply lastWrite_none
        intro w hw ew
        obtain ⟨g1, g2⟩ := k3 w hw
        rw [ew.1, ew.2] at g1 g2
        omega
      unfold patternCell overlay overlayWrites
      rw [lastWrite_append, hn, qrBlocks_getD v hv, hl]
      rfl
    have p1 := pc _ _ _ (Or.inl ⟨by omega, by omega, hcc⟩) w1
    have p2 := pc _ _ _ (Or.inr ⟨hcc, by omega, by omega⟩) w2
    obtain ⟨n0, d0⟩ := dark_versionTag (bchVersion (v + 1)) (3 * c + r)
    rw [hc _ _ (by rw [p1]; exact n0), hc _ _ (by rw [p2]; exact n0), p1, p2]
    exact ⟨d0, d0⟩
  · intro low l1 l6 g
    have hl : low - 1 < 12 := by omega
    have h0 := (version_facts (low - 1) hl).1 (by omega)
    unfold codeVer
    rw [(tables_facts (low - 1) hl).2.1, h0]
    rfl

/-! ## Instances of the theorems on the function patterns -/

theorem format_copies_witness :
    1 ≤ 1 ∧ 1 ≤ 12 ∧
    (∃ pre g out, prePatterns (1 - 1) = some pre ∧ maskInfo pre levelCorrectM = some g ∧
        drawGrid (1 - 1) levelCorrectM [64, 36] = some out ∧
        (∀ j, j < 15 → ∀ p, (p = formatCells1.getD j (0, 0) ∨
            p = (formatCells2 (17 + 4 * 1)).getD j (0, 0)) →
          dark (cellAt g p.1 p.2) = decide (levelCorrectM / 2 ^ (14 - j) % 2 = 1) ∧
          dark (cellAt out p.1 p.2) = decide (levelCorrectM / 2 ^ (14 - j) % 2 = 1)) ∧
        formatCells1.map (fun p => dark (cellAt out p.1 p.2)) =
          (List.range 15).map (fun j => decide (levelCorrectM / 2 ^ (14 - j) % 2 = 1)) ∧
        (formatCells2 (17 + 4 * 1)).map (fun p => dark (cellAt out p.1 p.2)) =
          (List.range 15).map (fun j => decide (levelCorrectM / 2 ^ (14 - j) % 2 = 1))) :=
  ⟨by decide, by decide,
    format_copies 1 levelCorrectM [64, 36] (by decide) (by decide)⟩

theorem version_information_witness :
    7 ≤ 7 ∧ 7 ≤ 12 ∧ squareOf (17 + 4 * 7) (List.replicate 45 (List.replicate 45 0)) ∧
    (bchVersion 7 = (7 <<< 12) ||| gf2Rem 0x1F25 12 6 (7 <<< 12) ∧
      (∃ q : Nat, q < 64 ∧ gf2Mul 0x1F25 q 6 = bchVersion 7) ∧
      bchVersion 7 >>> 12 = 7 ∧
      (∃ out, codeVer (List.replicate 45 (List.replicate 45 0)) (7 - 1) = some out ∧
        squareOf (17 + 4 * 7) out ∧
        ∀ r, r < 3 → ∀ c, c < 6 →
          dark (cellAt out (17 + 4 * 7 - 11 + r) c) =
            decide (bchVersion 7 / 2 ^ (3 * c + r) % 2 = 1) ∧
          dark (cellAt out c (17 + 4 * 7 - 11 + r)) =
            decide (bchVersion 7 / 2 ^ (3 * c + r) % 2 = 1)) ∧
      (∀ code data, ∃ fin, drawGrid (7 - 1) code data = some fin ∧
        ∀ r, r < 3 → ∀ c, c < 6 →
          dark (cellAt fin (17 + 4 * 7 - 11 + r) c) =
            decide (bchVersion 7 / 2 ^ (3 * c + r) % 2 = 1) ∧
          dark (cellAt fin c (17 + 4 * 7 - 11 + r)) =
            decide (bchVersion 7 / 2 ^ (3 * c + r) % 2 = 1)) ∧
      (∀ low, 1 ≤ low → low ≤ 6 → ∀ g : Grid, codeVer g (low - 1) = some g)) :=
  ⟨by decide, by decide, ⟨List.length_replicate _ _, fun row h => by
      rw [List.eq_of_mem_replicate h]; exact List.length_replicate _ _⟩,
    version_information 7 (List.replicate 45 (List.replicate 45 0)) (by decide) (by decide)
    ⟨List.length_replicate _ _, fun row h => by
      rw [List.eq_of_mem_replicate h]; exact List.length_replicate _ _⟩⟩

theorem finder_patterns_witness :
    1 ≤ 1 ∧ 1 ≤ 12 ∧
    (∃ out, drawGrid (1 - 1) levelCorrectM [64, 36] = some out ∧ squareOf (17 + 4 * 1) out ∧
        (∀ r, r < 7 → ∀ c, c < 7 →
          dark (cellAt out r c) = decide (ringOf r c ≠ 2) ∧
          dark (cellAt out r (17 + 4 * 1 - 7 + c)) = decide (ringOf r c ≠ 2) ∧
          dark (cellAt out (17 + 4 * 1 - 7 + r) c) = decide (ringOf r c ≠ 2)) ∧
        dark (cellAt out 3 3) = true ∧ dark (cellAt out 3 (17 + 4 * 1 - 4)) = true ∧
        dark (cellAt out (17 + 4 * 1 - 4) 3) = true ∧
        (∀ k, k < 8 →
          dark (cellAt out 7 k) = false ∧ dark (cellAt out k 7) = false ∧
          dark (cellAt out 7 (17 + 4 * 1 - 8 + k)) = false ∧
          dark (cellAt out k (17 + 4 * 1 - 8)) = false ∧
          dark (cellAt out (17 + 4 * 1 - 8) k) = false ∧
          dark (cellAt out (17 + 4 * 1 - 8 + k) 7) = false)) :=
  ⟨by decide, by decide,
    finder_patterns 1 levelCorrectM [64, 36] (by decide) (by decide)⟩

theorem timing_patterns_witness :
    7 ≤ 7 ∧ 7 ≤ 12 ∧
    (∃ out, drawGrid (7 - 1) levelCorrectH [64, 36] = some out ∧
        ∀ i, 8 ≤ i → i ≤ 17 + 4 * 7 - 9 →
          dark (cellAt out 6 i) = decide (i % 2 = 0) ∧
          dark (cellAt out i 6) = decide (i % 2 = 0)) :=
  ⟨by decide, by decide,
    timing_patterns 7 levelCorrectH [64, 36] (by decide) (by decide)⟩

theorem dark_module_witness :
    1 ≤ 12 ∧ 12 ≤ 12 ∧
    (∃ pre g out, prePatterns (12 - 1) = some pre ∧ maskInfo pre levelCorrectM = some g ∧
        cellAt g (17 + 4 * 12 - 8) 8 = mask1 ∧
        drawGrid (12 - 1) levelCorrectM [64, 36] = some out ∧
        cellAt out (17 + 4 * 12 - 8) 8 = mask1 ∧
        dark (cellAt out (17 + 4 * 12 - 8) 8) = true) :=
  ⟨by decide, by decide,
    dark_module 12 levelCorrectM [64, 36] (by decide) (by decide)⟩

/-! ## Counting the unset cells -/

theorem map_range_getD (l : List Nat) :
    (List.range l.length).map (fun i => l.getD i 0) = l := by
  apply List.ext_getElem
  · simp
  · intro i h1 h2
    rw [List.getElem_map, List.getElem_range, List.getD_eq_getElem _ _ h2]

theorem unsetCount_eq_countP (img : Grid) (cells : List (Nat × Nat)) :
    unsetCount img cells = cells.countP (fun p => decide (cellAt img p.1 p.2 = 0)) := by
  unfold unsetCount
  rw [List.countP_eq_length_filter]

theorem row_countP (row : List Nat) :
    (row.filter (fun x => decide (x = 0))).length =
      (List.range row.length).countP (fun c => decide (row.getD c 0 = 0)) := by
  conv_lhs => rw [← map_range_getD row]
  rw [← List.countP_eq_length_filter, List.countP_map]
  rfl

theorem unsetCells_eq (n : Nat) (img : Grid) (hs : squareOf n img) :
    unsetCells img = unsetCount img (allCells n) := by
  rw [unsetCount_eq_countP]
  unfold unsetCells allCells
  rw [List.countP_flatMap]
  congr 1
  apply List.ext_getElem
  · simp [hs.1]
  · intro r h1 h2
    have hr : r < img.length := by simpa using h1
    have hrow : img[r].length = n := hs.2 _ (List.getElem_mem _)
    rw [List.getElem_map, List.getElem_map, List.getElem_range, row_countP, hrow]
    simp only [Function.comp, List.countP_map]
    congr 1
    funext c
    simp only [Function.comp, cellAt, List.getD_eq_getElem _ _ hr]

theorem mem_allCells (n : Nat) (p : Nat × Nat) : p ∈ allCells n ↔ p.1 < n ∧ p.2 < n := by
  unfold allCells
  simp only [List.mem_flatMap, List.mem_map, List.mem_range]
  constructor
  · rintro ⟨r, hr, c, hc, rfl⟩
    exact ⟨hr, hc⟩
  · rintro ⟨h1, h2⟩
    exact ⟨p.1, h1, p.2, h2, rfl⟩

theorem nodup_allCells (n : Nat) : (allCells n).Nodup := by
  unfold allCells
  rw [List.nodup_flatMap]
  constructor
  · intro r _
    exact List.Nodup.map (fun a b h => by simpa using h) (List.nodup_range n)
  · apply List.Pairwise.imp_of_mem _ (List.pairwise_lt_range n)
    intro a b _ _ hab
    simp only [Function.onFun]
    intro p h1 h2
    simp only [List.mem_map, List.mem_range] at h1 h2
    obtain ⟨c1, _, e1⟩ := h1
    obtain ⟨c2, _, e2⟩ := h2
    rw [← e2] at e1
    have := congrArg Prod.fst e1
    simp at this
    omega

theorem allCells_perm (v : Nat) :
    (serpentine (17 + 4 * v) ++ (List.range (17 + 4 * v)).map (fun r => (r, 6))).Perm
      (allCells (17 + 4 * v)) := by
  rw [List.perm_ext_iff_of_nodup _ (nodup_allCells _)]
  · intro p
    rw [List.mem_append, mem_serpentine_iff, mem_allCells]
    simp only [List.mem_map, List.mem_range]
    constructor
    · rintro (h | ⟨r, hr, rfl⟩)
      · exact ⟨h.1, h.2.1⟩
      · exact ⟨hr, by simp; omega⟩
    · rintro ⟨h1, h2⟩
      by_cases h6 : p.2 = 6
      · right
        exact ⟨p.1, h1, by rw [← h6]⟩
      · left
        exact ⟨h1, h2, h6⟩
  · rw [List.nodup_append]
    refine ⟨nodup_serpentine v, ?_, ?_⟩
    · exact List.Nodup.map (fun a b h => by simpa using h) (List.nodup_range _)
    · intro p h1 h2
      rw [mem_serpentine_iff] at h1
      simp only [List.mem_map, List.mem_range] at h2
      obtain ⟨r, _, rfl⟩ := h2
      exact h1.2.2 rfl

/-- On a grid whose column 6 has no unset cell, the scan of `write` meets every unset
cell: the unset cells of the serpentine order are all unset cells of the grid. -/
theorem unsetCount_serpentine (v : Nat) (img : Grid) (hs : squareOf (17 + 4 * v) img)
    (h6 : ∀ r, r < 17 + 4 * v → cellAt img r 6 ≠ 0) :
    unsetCount img (serpentine (17 + 4 * v)) = unsetCells img := by
  rw [unsetCells_eq _ img hs, unsetCount_eq_countP, unsetCount_eq_countP,
    ← List.Perm.countP_eq _ (allCells_perm v), List.countP_append]
  have h0 : List.countP (fun p => decide (cellAt img p.1 p.2 = 0))
      ((List.range (17 + 4 * v)).map (fun r => (r, 6))) = 0 := by
    rw [List.countP_eq_zero]
    intro p hp
    simp only [List.mem_map, List.mem_range] at hp
    obtain ⟨r, hr, rfl⟩ := hp
    simpa using h6 r hr
  rw [h0, Nat.add_zero]

/-- Every index below the number of unset cells of a list is the number of unset cells
before some unset cell of the list. -/
theorem unsetCount_index (img : Grid) : ∀ (cells : List (Nat × Nat)) (k : Nat),
    k < unsetCount img cells →
    ∃ t, t < cells.length ∧ cellAt img (cells.getD t (0, 0)).1 (cells.getD t (0, 0)).2 = 0 ∧
      unsetCount img (cells.take t) = k := by
  intro cells
  induction cells with
  | nil => intro k hk; simp [unsetCount] at hk
  | cons p ps ih =>
    intro k hk
    rw [unsetCount_cons] at hk
    by_cases h0 : cellAt img p.1 p.2 = 0
    · rw [if_pos h0] at hk
      cases k with
      | zero => exact ⟨0, by simp, h0, rfl⟩
      | succ k =>
        obtain ⟨t, ht, c0, ct⟩ := ih k (by omega)
        refine ⟨t + 1, by simp; omega, by rw [List.getD_cons_succ]; exact c0, ?_⟩
        rw [List.take_succ_cons, unsetCount_cons, if_pos h0, ct]
        omega
    · rw [if_neg h0] at hk
      obtain ⟨t, ht, c0, ct⟩ := ih k (by omega)
      refine ⟨t + 1, by simp; omega, by rw [List.getD_cons_succ]; exact c0, ?_⟩
      rw [List.take_succ_cons, unsetCount_cons, if_neg h0, ct]
      omega

/-! ## The number of unset cells of the function patterns -/

theorem unsetCells_zero : unsetCells ((drawPatterns 0 0).getD []) = 208 := by
  rw [drawPatterns_eq]
  exact patternFacts_zero.2

theorem unsetCells_one : unsetCells ((drawPatterns 1 0).getD []) = 359 := by
  rw [drawPatterns_eq]
  exact patternFacts_one.2

theorem unsetCells_two : unsetCells ((drawPatterns 2 0).getD []) = 567 := by
  rw [drawPatterns_eq]
  exact patternFacts_two.2

theorem unsetCells_three : unsetCells ((drawPatterns 3 0).getD []) = 807 := by
  rw [drawPatterns_eq]
  exact patternFacts_three.2

theorem unsetCells_four : unsetCells ((drawPatterns 4 0).getD []) = 1079 := by
  rw [drawPatterns_eq]
  exact patternFacts_four.2

theorem unsetCells_five : unsetCells ((drawPatterns 5 0).getD []) = 1383 := by
  rw [drawPatterns_eq]
  exact patternFacts_five.2

theorem unsetCells_six : unsetCells ((drawPatterns 6 0).getD []) = 1568 := by
  rw [drawPatterns_eq]
  exact patternFacts_six.2

theorem unsetCells_seven : unsetCells ((drawPatterns 7 0).getD []) = 1936 := by
  rw [drawPatterns_eq]
  exact patternFacts_seven.2

theorem unsetCells_eight : unsetCells ((drawPatterns 8 0).getD []) = 2336 := by
  rw [drawPatterns_eq]
  exact patternFacts_eight.2

theorem unsetCells_nine : unsetCells ((drawPatterns 9 0).getD []) = 2768 := by
  rw [drawPatterns_eq]
  exact patternFacts_nine.2

theorem unsetCells_ten : unsetCells ((drawPatterns 10 0).getD []) = 3232 := by
  rw [drawPatterns_eq]
  exact patternFacts_ten.2

theorem unsetCells_eleven : unsetCells ((drawPatterns 11 0).getD []) = 3728 := by
  rw [drawPatterns_eq]
  exact patternFacts_eleven.2

theorem unsetCells_bounds : ∀ v : Nat, v < 12 → ∀ lvl : Level,
    codewordBits lvl v ≤ unsetCells ((drawPatterns v 0).getD []) ∧
    unsetCells ((drawPatterns v 0).getD []) ≤ codewordBits lvl v + 7 := by
  intro v hv lvl
  interval_cases v
  · rw [unsetCells_zero]; cases lvl <;> decide
  · rw [unsetCells_one]; cases lvl <;> decide
  · rw [unsetCells_two]; cases lvl <;> decide
  · rw [unsetCells_three]; cases lvl <;> decide
  · rw [unsetCells_four]; cases lvl <;> decide
  · rw [unsetCells_five]; cases lvl <;> decide
  · rw [unsetCells_six]; cases lvl <;> decide
  · rw [unsetCells_seven]; cases lvl <;> decide
  · rw [unsetCells_eight]; cases lvl <;> decide
  · rw [unsetCells_nine]; cases lvl <;> decide
  · rw [unsetCells_ten]; cases lvl <;> decide
  · rw [unsetCells_eleven]; cases lvl <;> decide

theorem maskTag_ne_zero (mask code : Nat) : maskTag mask code ≠ 0 := by
  unfold maskTag
  split_ifs <;> decide

theorem patternCell_zero_iff (v code r c : Nat) :
    patternCell v code r c = 0 ↔ patternCell v 0 r c = 0 := by
  unfold patternCell
  cases overlay v r c with
  | some x => exact Iff.rfl
  | none =>
    unfold maskCell
    by_cases h : r = qrBlocks.getD v 0 - 8 ∧ c = 8
    · simp only [if_pos h]
    · simp only [if_neg h]
      cases maskSlot (qrBlocks.getD v 0) r c with
      | none => exact Iff.rfl
      | some k =>
        simp only [Option.map_some', Option.getD_some, Option.getD_none]
        exact ⟨fun e => absurd e (maskTag_ne_zero _ _), fun e => absurd e (maskTag_ne_zero _ _)⟩

theorem patternCell_column6 (v : Nat) (hv : v < 12) (code r : Nat) (hr : r < 21 + 4 * v) :
    patternCell v code r 6 ≠ 0 := by
  obtain ⟨-, -, -, pf, ps, pt⟩ := preFacts_all v hv
  by_cases h7 : r < 7
  · rw [patternCell_corner v hv code r 6 (by omega), (pf r h7 6 (by omega)).1]
    exact (dark_finderTag r 6).1
  · by_cases e7 : r = 7
    · rw [patternCell_corner v hv code r 6 (by omega), e7, (ps 6 (by omega)).1]
      decide
    · by_cases ht : r ≤ 12 + 4 * v
      · obtain ⟨j, rfl⟩ : ∃ j, r = 8 + j := ⟨r - 8, by omega⟩
        have p2 := (pt j (by omega)).2
        have tag : (if j % 2 = 0 then sync1 else sync0) ≠ 0 := by
          split_ifs <;> decide
        exact (patternCell_timing v hv code (8 + j) 6 (dark (preCell v (8 + j) 6))
          (Or.inr ⟨rfl, by omega, by omega, by
            rw [p2]
            have hpar : decide ((8 + j) % 2 = 0) = decide (j % 2 = 0) := by
              congr 1
              exact propext ⟨fun h => by omega, fun h => by omega⟩
            rw [hpar]
            by_cases h : j % 2 = 0
            · rw [if_pos h]; simp [h, dark, sync1]
            · rw [if_neg h]; simp [h, dark, sync0]⟩)
          (by rw [p2]; exact tag) rfl).1
      · by_cases e8 : r = 13 + 4 * v
        · rw [patternCell_corner v hv code r 6 (by omega), e8, (ps 6 (by omega)).2.2.2.2.1]
          decide
        · obtain ⟨j, rfl⟩ : ∃ j, r = 14 + 4 * v + j := ⟨r - (14 + 4 * v), by omega⟩
          rw [patternCell_corner v hv code _ 6 (by omega), (pf j (by omega) 6 (by omega)).2.2]
          exact (dark_finderTag j 6).1

/-- The function patterns of a version index below 12 for any format word: the number of
unset cells is that of the format word 0, and the scan of `write` meets all of them. -/
theorem drawPatterns_unset (v : Nat) (hv : v < 12) (code : Nat) :
    ∃ img, drawPatterns v code = some img ∧ squareOf (21 + 4 * v) img ∧
      unsetCells img = unsetCells ((drawPatterns v 0).getD []) ∧
      unsetCount img (serpentine (21 + 4 * v)) = unsetCells img := by
  obtain ⟨-, -, img, -, -, -, e1, s1, c1⟩ := drawPatterns_cells v hv code
  obtain ⟨-, -, img0, -, -, -, e0, s0, c0⟩ := drawPatterns_cells v hv 0
  have hn : 21 + 4 * v = 17 + 4 * (v + 1) := by omega
  refine ⟨img, e1, s1, ?_, ?_⟩
  · rw [e0, Option.getD_some, unsetCells_eq _ img s1, unsetCells_eq _ img0 s0]
    unfold unsetCount
    congr 1
    apply List.filter_congr
    intro p _
    rw [c1, c0]
    exact decide_eq_decide.mpr (patternCell_zero_iff v code p.1 p.2)
  · rw [hn] at s1 ⊢
    apply unsetCount_serpentine (v + 1) img s1
    intro r hr
    rw [c1]
    exact patternCell_column6 v hv code r (by omega)

/-- C21: for every version 1..12 (grid edge `N = 17 + 4 * ver`) and each level, the
number of cells that `searchPoint`, `syncLine`, `maskInfo`, `codeVer` and `anchor` leave
unset exceeds the number of codeword bits `8 * (maxData/8 + blocks * byteCorect)` of the
version by at least 0 and at most 7; the scan of `write` meets every unset cell, `write`
returns, and every bit `k` of the codewords that is in the stream is stored, masked, in
the unset cell that has `k` unset cells before it in the serpentine order. -/
theorem codewords_fill (ver : Nat) (lvl : Level) (h1 : 1 ≤ ver) (h12 : ver ≤ 12) :
    ∃ img, drawPatterns (ver - 1) lvl.levelCorrect = some img ∧
      squareOf (17 + 4 * ver) img ∧
      codewordBits lvl (ver - 1) ≤ unsetCells img ∧
      unsetCells img ≤ codewordBits lvl (ver - 1) + 7 ∧
      unsetCount img (serpentine (17 + 4 * ver)) = unsetCells img ∧
      ∀ data : List Nat, ∃ out, write img data = some out ∧
        ∀ k, k < codewordBits lvl (ver - 1) → k < 8 * data.length →
          ∃ t, t < (serpentine (17 + 4 * ver)).length ∧
            cellAt img ((serpentine (17 + 4 * ver)).getD t (0, 0)).1
              ((serpentine (17 + 4 * ver)).getD t (0, 0)).2 = 0 ∧
            unsetCount img ((serpentine (17 + 4 * ver)).take t) = k ∧
            cellAt out ((serpentine (17 + 4 * ver)).getD t (0, 0)).1
              ((serpentine (17 + 4 * ver)).getD t (0, 0)).2 =
              masked ((bufBitOf data).getD k 0) ((serpentine (17 + 4 * ver)).getD t (0, 0)).2 := by
  obtain ⟨v, rfl⟩ : ∃ v, ver = v + 1 := ⟨ver - 1, by omega⟩
  have hv : v < 12 := by omega
  have e0 : v + 1 - 1 = v := by omega
  have hn : 21 + 4 * v = 17 + 4 * (v + 1) := by omega
  obtain ⟨img, e1, s1, u1, u2⟩ := drawPatterns_unset v hv lvl.levelCorrect
  obtain ⟨b1, b2⟩ := unsetCells_bounds v hv lvl
  rw [← u1] at b1 b2
  rw [hn] at s1 u2
  rw [e0]
  refine ⟨img, e1, s1, b1, b2, u2, ?_⟩
  intro data
  obtain ⟨out, w1, -, -, w4, -⟩ := write_cells (v + 1) img data s1.1 s1.2
  refine ⟨out, w1, ?_⟩
  intro k hk1 hk2
  obtain ⟨t, ht, c0, ct⟩ := unsetCount_index img (serpentine (17 + 4 * (v + 1))) k
    (by rw [u2]; omega)
  refine ⟨t, ht, c0, ct, ?_⟩
  rw [w4 t ht, if_pos c0, ct, if_pos hk2]

theorem codewords_fill_witness :
    1 ≤ 2 ∧ 2 ≤ 12 ∧
    (∃ img, drawPatterns (2 - 1) Level.M.levelCorrect = some img ∧
      squareOf (17 + 4 * 2) img ∧
      codewordBits Level.M (2 - 1) ≤ unsetCells img ∧
      unsetCells img ≤ codewordBits Level.M (2 - 1) + 7 ∧
      unsetCount img (serpentine (17 + 4 * 2)) = unsetCells img ∧
      ∀ data : List Nat, ∃ out, write img data = some out ∧
        ∀ k, k < codewordBits Level.M (2 - 1) → k < 8 * data.length →
          ∃ t, t < (serpentine (17 + 4 * 2)).length ∧
            cellAt img ((serpentine (17 + 4 * 2)).getD t (0, 0)).1
              ((serpentine (17 + 4 * 2)).getD t (0, 0)).2 = 0 ∧
            unsetCount img ((serpentine (17 + 4 * 2)).take t) = k ∧
            cellAt out ((serpentine (17 + 4 * 2)).getD t (0, 0)).1
              ((serpentine (17 + 4 * 2)).getD t (0, 0)).2 =
              masked ((bufBitOf data).getD k 0) ((serpentine (17 + 4 * 2)).getD t (0, 0)).2) :=
  ⟨by decide, by decide, codewords_fill 2 Level.M (by decide) (by decide)⟩

end Goqr
